import Mathlib

/-!
# Verification of the logandload logging/analysis library

Shallow embedding, in Lean 4, of the core data paths of the `lal` C++
library: the binary format sidecar codec (`Log::writeFormats` /
`Analyzer::readFormatFile`), the stream emit path (`Stream::message`),
the shutdown drain (`Log::~Log`), the two-pass log reader
(`Analyzer::readLogFile`) and the flag tree (`Tree`).

Machine integers (`uint32_t`, `size_t`) are modelled as `Nat` with
explicit `% 2^32` / `% 2^64` where the code can overflow; byte buffers
and files are `List Nat`; fallible code returns `Except`/`Option`.
-/

namespace LogLoad

/-! ## Byte-level primitives

The C++ code writes integers to files by `reinterpret_cast`ing their
object representation; the targets are little-endian, so an `n`-byte
integer is stored as `n` little-endian bytes. -/

/-- Little-endian encoding of `v` into `w` bytes, as produced by
`file.write(reinterpret_cast<const char*>(&v), w)` on a little-endian
target. -/
def leBytes : Nat → Nat → List Nat
  | 0, _ => []
  | w + 1, v => v % 256 :: leBytes w (v / 256)

/-- Read `w` little-endian bytes from the head of `bs`, returning the value
and the remaining bytes.  `none` models `file.read` running past the end of
the input. -/
def readLE : Nat → List Nat → Option (Nat × List Nat)
  | 0, bs => some (0, bs)
  | _ + 1, [] => none
  | w + 1, b :: bs =>
    match readLE w bs with
    | none => none
    | some (v, rest) => some (b + 256 * v, rest)

theorem length_leBytes (w v : Nat) : (leBytes w v).length = w := by
  induction w generalizing v with
  | zero => rfl
  | succ w ih => simp [leBytes, ih]

theorem readLE_cons (w b : Nat) (bs : List Nat) :
    readLE (w + 1) (b :: bs) =
      match readLE w bs with
      | none => none
      | some (v, rest) => some (b + 256 * v, rest) := rfl

theorem readLE_length {w : Nat} : ∀ {bs rest : List Nat} {v : Nat},
    readLE w bs = some (v, rest) → rest.length + w = bs.length := by
  induction w with
  | zero => intro bs rest v h; simp [readLE] at h; simp [h]
  | succ w ih =>
    intro bs rest v h
    match bs with
    | [] => simp [readLE] at h
    | b :: bs =>
      rw [readLE_cons] at h
      cases hr : readLE w bs with
      | none => simp [hr] at h
      | some p =>
        obtain ⟨v', rest'⟩ := p
        rw [hr] at h
        simp only [Option.some.injEq, Prod.mk.injEq] at h
        have := ih hr
        obtain ⟨-, h2⟩ := h
        subst h2
        simp only [List.length_cons]
        omega

/-- Splitting a `Nat` modulus `256 * N` into low byte and the rest. -/
theorem mod_mul_256 (v N : Nat) (hN : 0 < N) :
    v % (256 * N) = v % 256 + 256 * (v / 256 % N) := by
  have hqq := Nat.div_add_mod (v / 256) N
  have hr : v % 256 < 256 := Nat.mod_lt _ (by norm_num)
  have hqn : v / 256 % N < N := Nat.mod_lt _ hN
  have hlt : v % 256 + 256 * (v / 256 % N) < 256 * N := by
    calc v % 256 + 256 * (v / 256 % N) < 256 + 256 * (v / 256 % N) := by omega
      _ ≤ 256 + 256 * (N - 1) := by
          have : v / 256 % N ≤ N - 1 := by omega
          exact Nat.add_le_add_left (Nat.mul_le_mul_left _ this) _
      _ ≤ 256 * N := by
          cases N with
          | zero => omega
          | succ n => simp [Nat.mul_succ]; ring_nf; omega
  have e1 : v = v % 256 + 256 * (v / 256 % N) + v / 256 / N * (256 * N) := by
    calc v = 256 * (v / 256) + v % 256 := by omega
      _ = 256 * (N * (v / 256 / N) + v / 256 % N) + v % 256 := by rw [hqq]
      _ = v % 256 + 256 * (v / 256 % N) + v / 256 / N * (256 * N) := by ring
  conv_lhs => rw [e1]
  rw [Nat.add_mul_mod_self_right]
  exact Nat.mod_eq_of_lt hlt

theorem readLE_leBytes (w v : Nat) (rest : List Nat) :
    readLE w (leBytes w v ++ rest) = some (v % 2 ^ (8 * w), rest) := by
  induction w generalizing v with
  | zero => simp [leBytes, readLE, Nat.mod_one]
  | succ w ih =>
    have hcons : leBytes (w + 1) v ++ rest = v % 256 :: (leBytes w (v / 256) ++ rest) := by
      simp [leBytes]
    rw [hcons, readLE_cons, ih]
    have h1 : 2 ^ (8 * (w + 1)) = 256 * 2 ^ (8 * w) := by ring
    rw [h1, mod_mul_256 v (2 ^ (8 * w)) (Nat.pos_pow_of_pos _ (by norm_num))]

theorem readLE_leBytes_of_lt {w v : Nat} (rest : List Nat) (h : v < 2 ^ (8 * w)) :
    readLE w (leBytes w v ++ rest) = some (v, rest) := by
  rw [readLE_leBytes, Nat.mod_eq_of_lt h]

/-! ## Hashing (`format_type.h` / `format_type.cpp`)

`hash(uint32_t)` is the Thomas Wang mix; `hashMessage` hashes a string in
4-byte chunks.  `char` is signed on the reference targets, so bytes ≥ 128
sign-extend when cast to `uint32_t`; `signExt` models that cast. -/

def U32 : Nat := 4294967296

/-- Thomas Wang's 32-bit integer hash (`lal::hash(const uint32_t&)`). -/
def wangHash (s : Nat) : Nat :=
  let a := (s ^^^ 61) ^^^ (s >>> 16)
  let b := (a * 9) % U32
  let c := b ^^^ (b >>> 4)
  let d := (c * 669818581) % U32
  d ^^^ (d >>> 15)

/-- `static_cast<uint32_t>(char)`: sign extension of a byte. -/
def signExt (b : Nat) : Nat := if b < 128 then b else 4294967040 + b

/-- One 4-byte chunk packed big-endian-wise into a `uint32_t`
(`c0 << 24 | c1 << 16 | c2 << 8 | c3`). -/
def chunkVal (b0 b1 b2 b3 : Nat) : Nat :=
  ((signExt b0 <<< 24) % U32) ||| ((signExt b1 <<< 16) % U32) |||
    ((signExt b2 <<< 8) % U32) ||| signExt b3

/-- The chunk loop of `hashMessage`: full 4-byte chunks, then the 0–3
remaining characters. -/
def hashChunks (value : Nat) : List Nat → Nat
  | b0 :: b1 :: b2 :: b3 :: rest => hashChunks (value ^^^ wangHash (chunkVal b0 b1 b2 b3)) rest
  | [b0] => value ^^^ wangHash ((signExt b0 <<< 24) % U32)
  | [b0, b1] => value ^^^ wangHash (((signExt b0 <<< 24) % U32) ||| ((signExt b1 <<< 16) % U32))
  | [b0, b1, b2] =>
    value ^^^ wangHash (((signExt b0 <<< 24) % U32) ||| ((signExt b1 <<< 16) % U32) |||
      ((signExt b2 <<< 8) % U32))
  | [] => value

/-- `lal::hashMessage(const std::string&)`: the format string is hashed as a
byte list. -/
def hashMessage (str : List Nat) : Nat := hashChunks 4294967295 str

/-- `lal::countParameters`: counts occurrences of adjacent `'{' '}'`
(bytes 123, 125) in the format string. -/
def countParameters : List Nat → Nat
  | a :: b :: rest => (if a = 123 ∧ b = 125 then 1 else 0) + countParameters (b :: rest)
  | _ => 0

/-! ## The format sidecar codec

Writer side: `Log::writeFormats` (log.h).  Reader side:
`Analyzer::readFormatFile` (analyzer.cpp). -/

/-- `Log::FormatType` (log.h): what the logger stores per registered format. -/
structure LogFormat where
  message : List Nat := []
  category : Nat := 0
  parameters : List Nat := []
deriving Repr, DecidableEq

/-- `lal::FormatType` (fmt_type.h): what the analyzer reconstructs per
format. -/
structure FormatType where
  key : Nat := 0
  messageHash : Nat := 0
  message : List Nat := []
  category : Nat := 0
  parameters : List Nat := []
  parameterSize : List Nat := []
  messageSize : Nat := 0
deriving Repr, DecidableEq

/-- Association-list lookup, modelling `std::unordered_map::find`. -/
def alookup {α : Type} (l : List (Nat × α)) (k : Nat) : Option α :=
  (l.find? (fun p => p.1 == k)).map (fun p => p.2)

/-- One sidecar entry as written by `Log::writeFormats`: key (u32), string
length including the trailing NUL (u64), the `c_str()` bytes (with the
trailing NUL), category (u32), then one u32 per parameter key. -/
def encodeFormatEntry (key : Nat) (f : LogFormat) : List Nat :=
  leBytes 4 key ++ leBytes 8 (f.message.length + 1) ++ (f.message ++ [0]) ++
    leBytes 4 f.category ++ (f.parameters.map (leBytes 4)).flatten

/-- The full sidecar as written by `Log::writeFormats`: stream count (u64),
ordering flag (u8), then all format entries. -/
def encodeFormats (streamCount : Nat) (order : Bool) (formats : List (Nat × LogFormat)) :
    List Nat :=
  leBytes 8 streamCount ++ [if order then 1 else 0] ++
    (formats.map (fun p => encodeFormatEntry p.1 p.2)).flatten

/-- Errors thrown by `Analyzer::readFormatFile` (all are `LalError`s; the
constructor distinguishes them by message). -/
inductive FmtErr
  | ioRead
  | unregisteredParameter
  | duplicateFormat
deriving Repr, DecidableEq

/-- `std::string(str)` from a `char` buffer: the bytes up to the first NUL. -/
def takeString (bs : List Nat) : List Nat := bs.takeWhile (fun b => b ≠ 0)

/-- The parameter-key loop of `readFormatFile`: read `n` u32 keys, look each
up in the analyzer's registered parameters (failing as the code throws on an
unregistered key), and return the keys, their sizes and the remaining
bytes. -/
def readParams (regs : List (Nat × Nat)) : Nat → List Nat → Except FmtErr (List Nat × List Nat × List Nat)
  | 0, bs => .ok ([], [], bs)
  | n + 1, bs =>
    match readLE 4 bs with
    | none => .error .ioRead
    | some (k, bs1) =>
      match alookup regs k with
      | none => .error .unregisteredParameter
      | some sz =>
        match readParams regs n bs1 with
        | .error e => .error e
        | .ok (ks, szs, rest) => .ok (k :: ks, sz :: szs, rest)

theorem readParams_length {regs : List (Nat × Nat)} {n : Nat} : ∀ {bs ks szs rest : List Nat},
    readParams regs n bs = .ok (ks, szs, rest) → rest.length ≤ bs.length := by
  induction n with
  | zero => intro bs ks szs rest h; simp [readParams] at h; simp [h]
  | succ n ih =>
    intro bs ks szs rest h
    cases hr : readLE 4 bs with
    | none => simp [readParams, hr] at h
    | some p =>
      obtain ⟨k, bs1⟩ := p
      simp only [readParams, hr] at h
      cases hl : alookup regs k with
      | none => simp [hl] at h
      | some sz =>
        simp only [hl] at h
        cases hp : readParams regs n bs1 with
        | error e => simp [hp] at h
        | ok t =>
          obtain ⟨ks', szs', rest'⟩ := t
          simp only [hp, Except.ok.injEq, Prod.mk.injEq] at h
          obtain ⟨-, -, h3⟩ := h
          subst h3
          have h1 := readLE_length hr
          have h2 := ih hp
          omega

/-- One iteration of the entry loop of `Analyzer::readFormatFile`: read key
(u32), string length (u64), the string bytes (truncated at the first NUL, as
`std::string(char*)` does), category (u32) and the parameter keys.  Reads
past the end of the data and a string length exceeding the remaining bytes
are modelled as `ioRead`. -/
def decodeOneEntry (regs : List (Nat × Nat)) (bs : List Nat) :
    Except FmtErr ((Nat × FormatType) × List Nat) :=
  match readLE 4 bs with
  | none => .error .ioRead
  | some (key, bs1) =>
    match readLE 8 bs1 with
    | none => .error .ioRead
    | some (len, bs2) =>
      if len ≤ bs2.length then
        let message := takeString (bs2.take len)
        match readLE 4 (bs2.drop len) with
        | none => .error .ioRead
        | some (category, bs4) =>
          match readParams regs (countParameters message) bs4 with
          | .error e => .error e
          | .ok (ks, szs, rest) =>
            .ok ((key, { key := key, messageHash := hashMessage message,
                         message := message, category := category,
                         parameters := ks, parameterSize := szs,
                         messageSize := szs.sum }), rest)
      else .error .ioRead

theorem decodeOneEntry_length {regs : List (Nat × Nat)} {bs rest : List Nat}
    {e : Nat × FormatType} (h : decodeOneEntry regs bs = .ok (e, rest)) :
    rest.length < bs.length := by
  cases hk : readLE 4 bs with
  | none => simp [decodeOneEntry, hk] at h
  | some p1 =>
    obtain ⟨key, bs1⟩ := p1
    cases hl : readLE 8 bs1 with
    | none => simp [decodeOneEntry, hk, hl] at h
    | some p2 =>
      obtain ⟨len, bs2⟩ := p2
      by_cases hle : len ≤ bs2.length
      · cases hc : readLE 4 (bs2.drop len) with
        | none => simp [decodeOneEntry, hk, hl, hle, hc] at h
        | some p3 =>
          obtain ⟨category, bs4⟩ := p3
          cases hp : readParams regs (countParameters (takeString (bs2.take len))) bs4 with
          | error e' => simp [decodeOneEntry, hk, hl, hle, hc, hp] at h
          | ok t =>
            obtain ⟨ks, szs, rest'⟩ := t
            simp only [decodeOneEntry, hk, hl, if_pos hle, hc, hp, Except.ok.injEq,
              Prod.mk.injEq] at h
            obtain ⟨-, h2⟩ := h
            subst h2
            have l1 := readLE_length hk
            have l2 := readLE_length hl
            have l3 : (bs2.drop len).length = bs2.length - len := by simp
            have l4 := readParams_length hp
            have l5 := readLE_length hc
            omega
      · simp [decodeOneEntry, hk, hl, hle] at h

/-- The entry loop of `Analyzer::readFormatFile`: read entries until the file
is exhausted, accumulating them in the analyzer's `formatTypes` map
(insertion order kept); a duplicate key makes `try_emplace` fail and the
code throw. -/
def decodeEntries (regs : List (Nat × Nat)) (acc : List (Nat × FormatType)) (bs : List Nat) :
    Except FmtErr (List (Nat × FormatType)) :=
  if bs = [] then .ok acc
  else
    match hd : decodeOneEntry regs bs with
    | .error e => .error e
    | .ok (entry, rest) =>
      if (alookup acc entry.1).isSome then .error .duplicateFormat
      else decodeEntries regs (acc ++ [entry]) rest
  termination_by bs.length
  decreasing_by exact decodeOneEntry_length hd

/-- The decoded sidecar: stream count, ordering flag and format map. -/
structure Sidecar where
  streamCount : Nat
  messageOrder : Bool
  formatTypes : List (Nat × FormatType)
deriving Repr, DecidableEq

/-- `Analyzer::readFormatFile`: stream count (u64), ordering flag (one byte,
true iff nonzero), then the entry loop. -/
def decodeFormatFile (regs : List (Nat × Nat)) (bs : List Nat) : Except FmtErr Sidecar :=
  match readLE 8 bs with
  | none => .error .ioRead
  | some (sc, bs1) =>
    match bs1 with
    | [] => .error .ioRead
    | o :: bs2 =>
      match decodeEntries regs [] bs2 with
      | .error e => .error e
      | .ok fmts => .ok ⟨sc, o != 0, fmts⟩

/-! ## Round-trip of the sidecar (claim C2) -/

theorem alookup_append {α : Type} (l₁ l₂ : List (Nat × α)) (k : Nat) :
    alookup (l₁ ++ l₂) k = ((alookup l₁ k).rec (alookup l₂ k) (fun v => some v)) := by
  induction l₁ with
  | nil => simp [alookup]
  | cons p l₁ ih =>
    by_cases h : p.1 = k
    · simp [alookup, List.find?, h]
    · have hb : (p.1 == k) = false := by simp [h]
      simp only [alookup, List.cons_append, List.find?, hb] at *
      exact ih

theorem alookup_nil {α : Type} (k : Nat) : alookup ([] : List (Nat × α)) k = none := rfl

/-- What `readFormatFile` reconstructs from one well-formed entry. -/
def decodedEntry (regs : List (Nat × Nat)) (key : Nat) (f : LogFormat) : FormatType :=
  { key := key, messageHash := hashMessage f.message, message := f.message,
    category := f.category, parameters := f.parameters,
    parameterSize := f.parameters.map (fun k => (alookup regs k).getD 0),
    messageSize := (f.parameters.map (fun k => (alookup regs k).getD 0)).sum }

theorem takeString_append_nul {msg : List Nat} (h : 0 ∉ msg) :
    takeString (msg ++ [0]) = msg := by
  induction msg with
  | nil => rfl
  | cons b bs ih =>
    simp only [List.mem_cons, not_or] at h
    have hb : b ≠ 0 := fun e => h.1 e.symm
    simp only [takeString, List.cons_append]
    rw [List.takeWhile_cons]
    have hb' : decide (b ≠ 0) = true := decide_eq_true hb
    rw [if_pos hb']
    exact congrArg (b :: ·) (ih h.2)

theorem readLE4_enc (v : Nat) (rest : List Nat) (h : v < 2 ^ 32) :
    readLE 4 (leBytes 4 v ++ rest) = some (v, rest) := by
  apply readLE_leBytes_of_lt
  norm_num at h ⊢
  exact h

theorem readLE8_enc (v : Nat) (rest : List Nat) (h : v < 2 ^ 64) :
    readLE 8 (leBytes 8 v ++ rest) = some (v, rest) := by
  apply readLE_leBytes_of_lt
  norm_num at h ⊢
  exact h

theorem readParams_encode (regs : List (Nat × Nat)) (ks : List Nat) (rest : List Nat)
    (h : ∀ k ∈ ks, k < 2 ^ 32 ∧ (alookup regs k).isSome) :
    readParams regs ks.length ((ks.map (leBytes 4)).flatten ++ rest)
      = .ok (ks, ks.map (fun k => (alookup regs k).getD 0), rest) := by
  induction ks with
  | nil => simp [readParams]
  | cons k ks ih =>
    obtain ⟨hk, hreg⟩ := h k (by simp)
    obtain ⟨sz, hsz⟩ := Option.isSome_iff_exists.mp hreg
    have e0 : ((k :: ks).map (leBytes 4)).flatten ++ rest
        = leBytes 4 k ++ ((ks.map (leBytes 4)).flatten ++ rest) := by simp
    have r1 := readLE4_enc k ((ks.map (leBytes 4)).flatten ++ rest) hk
    have r2 := ih (fun k' hk' => h k' (by simp [hk']))
    rw [e0, List.length_cons]
    simp only [readParams, r1, hsz, r2]
    simp [hsz]

/-- Validity assumptions of the round-trip claim, plus (`noNul`) the absence
of NUL bytes inside format strings, which the claim omits but the
codec requires (decode truncates at the first NUL). -/
abbrev ValidFormats (regs : List (Nat × Nat)) (formats : List (Nat × LogFormat)) : Prop :=
  (∀ p ∈ formats, p.1 < 2 ^ 32) ∧
  (∀ p ∈ formats, p.2.category < 2 ^ 32) ∧
  (∀ p ∈ formats, p.2.message.length + 1 < 2 ^ 64) ∧
  (∀ p ∈ formats, p.2.parameters.length = countParameters p.2.message) ∧
  (∀ p ∈ formats, ∀ k ∈ p.2.parameters, k < 2 ^ 32 ∧ (alookup regs k).isSome) ∧
  (∀ p ∈ formats, (0 : Nat) ∉ p.2.message) ∧
  (formats.map Prod.fst).Nodup

theorem decodeOneEntry_encode (regs : List (Nat × Nat)) (key : Nat) (f : LogFormat)
    (R : List Nat) (hkey : key < 2 ^ 32) (hcat : f.category < 2 ^ 32)
    (hlen : f.message.length + 1 < 2 ^ 64)
    (hcount : f.parameters.length = countParameters f.message)
    (hpar : ∀ k ∈ f.parameters, k < 2 ^ 32 ∧ (alookup regs k).isSome)
    (hnul : (0 : Nat) ∉ f.message) :
    decodeOneEntry regs (encodeFormatEntry key f ++ R)
      = .ok ((key, decodedEntry regs key f), R) := by
  have e0 : encodeFormatEntry key f ++ R
      = leBytes 4 key ++ (leBytes 8 (f.message.length + 1) ++ ((f.message ++ [0]) ++
          (leBytes 4 f.category ++ ((f.parameters.map (leBytes 4)).flatten ++ R)))) := by
    simp [encodeFormatEntry]
  have r1 := readLE4_enc key (leBytes 8 (f.message.length + 1) ++ ((f.message ++ [0]) ++
      (leBytes 4 f.category ++ ((f.parameters.map (leBytes 4)).flatten ++ R)))) hkey
  have r2 := readLE8_enc (f.message.length + 1) ((f.message ++ [0]) ++
      (leBytes 4 f.category ++ ((f.parameters.map (leBytes 4)).flatten ++ R))) hlen
  have htk : ((f.message ++ [0]) ++ (leBytes 4 f.category ++
      ((f.parameters.map (leBytes 4)).flatten ++ R))).take (f.message.length + 1)
      = f.message ++ [0] := by
    rw [List.take_append_of_le_length (by simp), List.take_of_length_le (by simp)]
  have hdr : ((f.message ++ [0]) ++ (leBytes 4 f.category ++
      ((f.parameters.map (leBytes 4)).flatten ++ R))).drop (f.message.length + 1)
      = leBytes 4 f.category ++ ((f.parameters.map (leBytes 4)).flatten ++ R) := by
    rw [List.drop_append_of_le_length (by simp), List.drop_of_length_le (by simp)]
    simp
  have hle : f.message.length + 1 ≤ ((f.message ++ [0]) ++ (leBytes 4 f.category ++
      ((f.parameters.map (leBytes 4)).flatten ++ R))).length := by
    simp
  have r3 := readLE4_enc f.category ((f.parameters.map (leBytes 4)).flatten ++ R) hcat
  have r4 : readParams regs (countParameters f.message)
      ((f.parameters.map (leBytes 4)).flatten ++ R)
      = .ok (f.parameters, f.parameters.map (fun k => (alookup regs k).getD 0), R) := by
    rw [← hcount, readParams_encode _ _ _ hpar]
  rw [e0]
  simp only [decodeOneEntry, r1, r2, if_pos hle, htk, hdr, takeString_append_nul hnul, r3, r4]
  rfl

theorem decodeEntries_nil (regs : List (Nat × Nat)) (acc : List (Nat × FormatType)) :
    decodeEntries regs acc [] = .ok acc := by
  rw [decodeEntries]
  simp

theorem decodeEntries_step {regs : List (Nat × Nat)} {bs rest : List Nat}
    {entry : Nat × FormatType} (acc : List (Nat × FormatType)) (hne : bs ≠ [])
    (hd : decodeOneEntry regs bs = .ok (entry, rest)) (hdup : alookup acc entry.1 = none) :
    decodeEntries regs acc bs = decodeEntries regs (acc ++ [entry]) rest := by
  rw [decodeEntries, if_neg hne]
  split
  next e heq => rw [hd] at heq; cases heq
  next entry' rest' heq =>
    rw [hd] at heq
    injection heq with h1
    have h2 : entry = entry' := congrArg Prod.fst h1
    have h3 : rest = rest' := congrArg Prod.snd h1
    subst h2; subst h3
    rw [hdup]
    simp

theorem decodeEntries_encode (regs : List (Nat × Nat)) (formats : List (Nat × LogFormat))
    (acc : List (Nat × FormatType)) (hv : ValidFormats regs formats)
    (hacc : ∀ p ∈ formats, alookup acc p.1 = none) :
    decodeEntries regs acc ((formats.map (fun p => encodeFormatEntry p.1 p.2)).flatten)
      = .ok (acc ++ formats.map (fun p => (p.1, decodedEntry regs p.1 p.2))) := by
  induction formats generalizing acc with
  | nil => simp [decodeEntries_nil]
  | cons p formats ih =>
    obtain ⟨key, f⟩ := p
    obtain ⟨h1, h2, h3, h4, h5, h6, h7⟩ := hv
    have hkey := h1 _ (List.mem_cons_self _ _)
    have hcat := h2 _ (List.mem_cons_self _ _)
    have hlen := h3 _ (List.mem_cons_self _ _)
    have hcount := h4 _ (List.mem_cons_self _ _)
    have hpar := h5 _ (List.mem_cons_self _ _)
    have hnul := h6 _ (List.mem_cons_self _ _)
    simp only at hkey hcat hlen hcount hpar hnul
    simp only [List.map_cons, List.flatten_cons]
    have hne : encodeFormatEntry key f ++
        (formats.map (fun p => encodeFormatEntry p.1 p.2)).flatten ≠ [] := by
      simp [encodeFormatEntry, leBytes]
    have hd := decodeOneEntry_encode regs key f
      ((formats.map (fun p => encodeFormatEntry p.1 p.2)).flatten)
      hkey hcat hlen hcount hpar hnul
    have hdup : alookup acc key = none := hacc _ (List.mem_cons_self _ _)
    rw [decodeEntries_step acc hne hd hdup]
    have hacc' : ∀ q ∈ formats, alookup (acc ++ [(key, decodedEntry regs key f)]) q.1 = none := by
      intro q hq
      rw [alookup_append]
      have hq1 : alookup acc q.1 = none := hacc _ (by simp [hq])
      rw [hq1]
      have hqk : ¬(key = q.1) := by
        simp only [List.map_cons, List.nodup_cons] at h7
        intro he
        exact h7.1 (he ▸ (List.mem_map_of_mem Prod.fst hq))
      have hb : (key == q.1) = false := by simp [hqk]
      simp [alookup, List.find?, hb]
    have h7' : (formats.map Prod.fst).Nodup := by
      simp only [List.map_cons, List.nodup_cons] at h7
      exact h7.2
    rw [ih _ ⟨fun q hq => h1 q (by simp [hq]), fun q hq => h2 q (by simp [hq]),
          fun q hq => h3 q (by simp [hq]), fun q hq => h4 q (by simp [hq]),
          fun q hq => h5 q (by simp [hq]), fun q hq => h6 q (by simp [hq]), h7'⟩ hacc']
    simp

/-- Projection of one decoded entry onto the data the claim compares. -/
def fmtProj (p : Nat × FormatType) : Nat × List Nat × Nat × List Nat :=
  (p.1, p.2.message, p.2.category, p.2.parameters)

/-- Projection of one logger-side entry onto the data the claim compares. -/
def logProj (p : Nat × LogFormat) : Nat × List Nat × Nat × List Nat :=
  (p.1, p.2.message, p.2.category, p.2.parameters)

/-- Projection of a decoded sidecar onto the data the claim compares. -/
def sidecarProj (s : Sidecar) : Nat × Bool × List (Nat × List Nat × Nat × List Nat) :=
  (s.streamCount, s.messageOrder, s.formatTypes.map fmtProj)

/-- **C2 (amended).** Decoding the sidecar written by `Log::writeFormats`
recovers the stream count, the ordering flag and the ordered list of
`(key, format string, category, parameter keys)` — provided, in addition to
the claim's stated preconditions, that no format string contains a NUL
byte. -/
theorem formatSidecar_roundtrip (regs : List (Nat × Nat)) (sc : Nat) (order : Bool)
    (formats : List (Nat × LogFormat)) (hsc : sc < 2 ^ 64)
    (hv : ValidFormats regs formats) :
    (decodeFormatFile regs (encodeFormats sc order formats)).map sidecarProj
      = .ok (sc, order, formats.map logProj) := by
  have e0 : encodeFormats sc order formats
      = leBytes 8 sc ++ (((if order then 1 else 0) : Nat) ::
          (formats.map (fun p => encodeFormatEntry p.1 p.2)).flatten) := by
    simp [encodeFormats]
  have r1 := readLE8_enc sc (((if order then 1 else 0) : Nat) ::
      (formats.map (fun p => encodeFormatEntry p.1 p.2)).flatten) hsc
  have r2 := decodeEntries_encode regs formats [] hv (fun p _ => rfl)
  rw [e0]
  simp only [decodeFormatFile, r1, r2, List.nil_append, Except.map]
  simp only [sidecarProj, List.map_map]
  have hflag : ((if order then (1 : Nat) else 0) != 0) = order := by cases order <;> rfl
  have hmap : (formats.map (fun p => (p.1, decodedEntry regs p.1 p.2))).map fmtProj
      = formats.map logProj := by
    rw [List.map_map]
    exact List.map_congr_left (fun p _ => rfl)
  rw [← List.map_map, hmap, hflag]

/-- Witness for C2: a concrete one-entry format map on which the round-trip
theorem's hypotheses hold. -/
theorem formatSidecar_roundtrip_witness :
    (2 : Nat) < 2 ^ 64 ∧ ValidFormats [(7, 4)] [(5, ⟨[97, 123, 125], 3, [7]⟩)] ∧
    (decodeFormatFile [(7, 4)] (encodeFormats 2 true [(5, ⟨[97, 123, 125], 3, [7]⟩)])).map sidecarProj
      = .ok (2, true, [(5, ⟨[97, 123, 125], 3, [7]⟩)].map logProj) :=
  ⟨by norm_num, by decide, formatSidecar_roundtrip [(7, 4)] 2 true _ (by norm_num) (by decide)⟩

/-- **C2 (counterexample to the claim as stated).** A format map whose single
entry's format string is the byte string `[0]` satisfies every precondition
the claim states (parameter count matches the `{}` count, all parameter keys
registered, keys pairwise distinct), yet decode∘encode does not recover the
format string: the decoder truncates at the first NUL byte and returns the
empty format string. -/
theorem formatSidecar_roundtrip_counterexample :
    ((∀ p ∈ [((5 : Nat), LogFormat.mk [0] 0 [])], p.2.parameters.length = countParameters p.2.message) ∧
     (∀ p ∈ [((5 : Nat), LogFormat.mk [0] 0 [])], ∀ k ∈ p.2.parameters, (alookup ([] : List (Nat × Nat)) k).isSome) ∧
     ([((5 : Nat), LogFormat.mk [0] 0 [])].map Prod.fst).Nodup) ∧
    (decodeFormatFile [] (encodeFormats 0 false [(5, LogFormat.mk [0] 0 [])])).map sidecarProj
      = .ok (0, false, [(5, [], 0, [])]) ∧
    [((5 : Nat), ([] : List Nat), (0 : Nat), ([] : List Nat))]
      ≠ [(5, LogFormat.mk [0] 0 [])].map logProj := by
  refine ⟨⟨by decide, by decide, by decide⟩, ?_, by decide⟩
  have h1 : decodeOneEntry [] (encodeFormatEntry 5 (LogFormat.mk [0] 0 []))
      = .ok ((5, { key := 5, messageHash := 4294967295, message := [], category := 0,
                   parameters := [], parameterSize := [], messageSize := 0 }), []) := by rfl
  have h2 : decodeEntries [] [] (encodeFormatEntry 5 (LogFormat.mk [0] 0 []))
      = .ok [(5, { key := 5, messageHash := 4294967295, message := [], category := 0,
                   parameters := [], parameterSize := [], messageSize := 0 })] := by
    rw [decodeEntries_step [] (by decide) h1 rfl, decodeEntries_nil]
    rfl
  have e1 : decodeFormatFile [] (encodeFormats 0 false [(5, LogFormat.mk [0] 0 [])])
      = match decodeEntries [] [] (encodeFormatEntry 5 (LogFormat.mk [0] 0 [])) with
        | .error e => .error e
        | .ok fmts => .ok ⟨0, (0 : Nat) != 0, fmts⟩ := by
    have ebytes : encodeFormats 0 false [(5, LogFormat.mk [0] 0 [])]
        = leBytes 8 0 ++ ((0 : Nat) :: encodeFormatEntry 5 (LogFormat.mk [0] 0 [])) := by
      simp [encodeFormats]
    have r1 := readLE8_enc 0 ((0 : Nat) :: encodeFormatEntry 5 (LogFormat.mk [0] 0 []))
      (by norm_num)
    rw [ebytes]
    simp only [decodeFormatFile, r1]
  rw [e1, h2]
  rfl

/-! ## List helpers (getD / set) -/

theorem getD_of_length_le {α : Type} (l : List α) (i : Nat) (d : α) (h : l.length ≤ i) :
    l.getD i d = d := by
  induction l generalizing i with
  | nil => simp [List.getD]
  | cons a l ih =>
    match i with
    | 0 => simp at h
    | i + 1 =>
      simp only [List.length_cons] at h
      simpa [List.getD] using ih i (by omega)

theorem getD_set_self {α : Type} (l : List α) (i : Nat) (v d : α) (h : i < l.length) :
    (l.set i v).getD i d = v := by
  induction l generalizing i with
  | nil => simp at h
  | cons a l ih =>
    match i with
    | 0 => rfl
    | i + 1 =>
      simp only [List.length_cons] at h
      simpa [List.set, List.getD] using ih i (by omega)

theorem getD_set_ne {α : Type} (l : List α) (i j : Nat) (v d : α) (h : i ≠ j) :
    (l.set i v).getD j d = l.getD j d := by
  induction l generalizing i j with
  | nil => rfl
  | cons a l ih =>
    match i, j with
    | 0, 0 => exact absurd rfl h
    | 0, j + 1 => rfl
    | i + 1, 0 => rfl
    | i + 1, j + 1 => simpa [List.set, List.getD] using ih i j (by omega)

theorem set_getD_self {α : Type} (l : List α) (i : Nat) (d : α) :
    l.set i (l.getD i d) = l := by
  induction l generalizing i with
  | nil => rfl
  | cons a l ih =>
    match i with
    | 0 => rfl
    | i + 1 => simpa [List.set, List.getD] using ih i

theorem set_of_getD {α : Type} (l : List α) (i : Nat) (v d : α) (h : l.getD i d = v) :
    l.set i v = l := by
  rw [← h]
  exact set_getD_self l i d

theorem getD_cons_succ {α : Type} (a : α) (l : List α) (i : Nat) (d : α) :
    (a :: l).getD (i + 1) d = l.getD i d := rfl

/-! ## The flag tree (`Tree`, tree.cpp)

`Tree::Flags` is a `uint8_t` enum `{Disabled = 0, Enabled = 1}` and the code
manipulates it with bit operations (`any(x & Enabled)`, `x |= Enabled`,
`x & ~Enabled`).  A flag value is therefore one bit and is modelled as
`Bool` (`true` = `Enabled`); in particular `any(x & Disabled) = any(0)` is
identically `false`.

The node arena is modelled as the tree it encodes: each node carries its
arena index `idx`, the arena index `fc` of its first child (`firstChild`),
and its children in arena order, so that the `Tree`'s byte-per-node array
`flags` stays a flat list indexed by arena index, exactly as in the code. -/

inductive NodeType where
  | log
  | stream
  | region
  | message
deriving DecidableEq, Repr

/-- A node of the analyzer's arena: node type, own arena index, first-child
arena index, the `formatType`'s category / messageHash / parameter keys
(used by the filters), and the children. -/
inductive NTree where
  | mk (type : NodeType) (idx : Nat) (fc : Nat) (category : Nat) (messageHash : Nat)
      (params : List Nat) (children : List NTree)

def NTree.type : NTree → NodeType
  | .mk ty _ _ _ _ _ _ => ty

def NTree.idx : NTree → Nat
  | .mk _ i _ _ _ _ _ => i

def NTree.fc : NTree → Nat
  | .mk _ _ f _ _ _ _ => f

def NTree.category : NTree → Nat
  | .mk _ _ _ c _ _ _ => c

def NTree.messageHash : NTree → Nat
  | .mk _ _ _ _ h _ _ => h

def NTree.params : NTree → List Nat
  | .mk _ _ _ _ _ p _ => p

def NTree.children : NTree → List NTree
  | .mk _ _ _ _ _ _ cs => cs

instance : Inhabited NTree := ⟨.mk .log 0 0 0 0 [] []⟩

/-- The sibling-window loop of `Tree::expand`/`Tree::reduce`: some `j` in
`[i - left, i + right]` (signed arithmetic), clipped to `[0, childCount)`,
satisfies `p`. -/
def windowAny (left right i cc : Nat) (p : Nat → Bool) : Bool :=
  (List.range cc).any (fun j => decide (i ≤ j + left) && decide (j ≤ i + right) && p j)

/-- The lambda `Tree::expand` passes to `convolution`, acting on child `i`:
an already-enabled scratch entry is kept; otherwise the child becomes
enabled when an enabled sibling lies in the window.  It reads the old flags
(`flags`) and writes only the scratch buffer `nf`. -/
def expandStep (left right cc i fc : Nat) (flags nf : List Bool) : List Bool :=
  if nf.getD i false then nf
  else if windowAny left right i cc (fun j => flags.getD (fc + j) false) then nf.set i true
  else nf

/-- The lambda `Tree::reduce` passes to `convolution`.  The source's
early-skip `any(newFlags[i] & Flags::Disabled)` is identically false
(`Disabled = 0`) and is dropped; a disabled sibling in the window disables
child `i` (`newFlags[i] & ~Enabled`).  Like expand it reads the old flags
and writes only the scratch buffer. -/
def reduceStep (left right cc i fc : Nat) (flags nf : List Bool) : List Bool :=
  if windowAny left right i cc (fun j => !(flags.getD (fc + j) false)) then nf.set i false
  else nf

/-- The per-parent pass of `Tree::convolution`: `newFlags` is resized to the
child count, each entry seeded from the current flags and then updated by
the convolution function in index order. -/
def convScratch (step : Nat → Nat → Nat → List Bool → List Bool → List Bool)
    (cc fc : Nat) (flags : List Bool) : List Bool :=
  (List.range cc).foldl
    (fun nf i => step cc i fc flags (nf.set i (flags.getD (fc + i) false)))
    (List.replicate cc false)

/-- `std::ranges::copy(newFlags.begin(), newFlags.end(), nodes.begin() + firstChildIndex)`. -/
def writeBack (fc : Nat) : List Bool → List Bool → List Bool
  | [], flags => flags
  | b :: nf, flags => writeBack (fc + 1) nf (flags.set fc b)

mutual
/-- `Tree::convolution`'s iterative pre-order traversal, written
recursively: a node whose flag is disabled terminates (children are not
visited); an enabled Stream/Region node runs the per-parent pass over its
children's flag range, then the children are visited in order.  Visiting a
child that is neither Stream nor Region is a no-op (such a node has no
children and no pass of its own), so folding the visit over all children is
equivalent to the source's next-sibling search, which skips
non-Stream/Region siblings. -/
def convVisit (step : Nat → Nat → Nat → List Bool → List Bool → List Bool) :
    NTree → List Bool → List Bool
  | .mk ty idx fc _ _ _ children, flags =>
    if !(flags.getD idx false) then flags
    else
      let flags1 :=
        if ty = .stream ∨ ty = .region then
          writeBack fc (convScratch step children.length fc flags) flags
        else flags
      convVisitList step children flags1

def convVisitList (step : Nat → Nat → Nat → List Bool → List Bool → List Bool) :
    List NTree → List Bool → List Bool
  | [], flags => flags
  | c :: cs, flags => convVisitList step cs (convVisit step c flags)
end

namespace Tree

/-- `Tree::expand(left, right)`, started at the root node as in the code. -/
def expand (left right : Nat) (root : NTree) (flags : List Bool) : List Bool :=
  convVisit (expandStep left right) root flags

/-- `Tree::reduce(left, right)`, started at the root node as in the code. -/
def reduce (left right : Nat) (root : NTree) (flags : List Bool) : List Bool :=
  convVisit (reduceStep left right) root flags

end Tree

/-! ### The per-parent pass, characterized -/

theorem windowAny_eq_true {left right i cc : Nat} {p : Nat → Bool} :
    windowAny left right i cc p = true ↔
      ∃ j, j < cc ∧ i ≤ j + left ∧ j ≤ i + right ∧ p j = true := by
  unfold windowAny
  simp only [List.any_eq_true, List.mem_range, Bool.and_eq_true, decide_eq_true_eq]
  constructor
  · rintro ⟨j, h1, ⟨h2, h3⟩, h4⟩
    exact ⟨j, h1, h2, h3, h4⟩
  · rintro ⟨j, h1, h2, h3, h4⟩
    exact ⟨j, h1, ⟨h2, h3⟩, h4⟩

theorem expandStep_set (left right cc fc : Nat) (flags : List Bool) (i : Nat) (nf : List Bool)
    (h : i < nf.length) :
    expandStep left right cc i fc flags (nf.set i (flags.getD (fc + i) false))
      = nf.set i (flags.getD (fc + i) false ||
          windowAny left right i cc (fun j => flags.getD (fc + j) false)) := by
  unfold expandStep
  rw [getD_set_self nf i _ false h]
  cases hold : flags.getD (fc + i) false with
  | true =>
    rw [if_pos rfl, Bool.true_or]
  | false =>
    rw [if_neg (by simp), Bool.false_or]
    cases hw : windowAny left right i cc (fun j => flags.getD (fc + j) false) with
    | true => rw [if_pos rfl, List.set_set]
    | false => rw [if_neg (by simp)]

theorem reduceStep_set (left right cc fc : Nat) (flags : List Bool) (i : Nat) (nf : List Bool)
    (h : i < nf.length) :
    reduceStep left right cc i fc flags (nf.set i (flags.getD (fc + i) false))
      = nf.set i (flags.getD (fc + i) false &&
          !windowAny left right i cc (fun j => !(flags.getD (fc + j) false))) := by
  unfold reduceStep
  cases hw : windowAny left right i cc (fun j => !(flags.getD (fc + j) false)) with
  | true => rw [if_pos rfl, List.set_set, Bool.not_true, Bool.and_false]
  | false => rw [if_neg (by simp), Bool.not_false, Bool.and_true]

/-- The scratch-buffer fold: each iteration seeds entry `i` and updates only
entry `i`, so the final buffer is pointwise determined by the pre-pass
flags. -/
theorem foldl_stepLike {cc fc : Nat} {flags : List Bool}
    {step : Nat → Nat → Nat → List Bool → List Bool → List Bool} {g : Nat → Bool}
    (hstep : ∀ (i : Nat) (nf : List Bool), i < nf.length →
        step cc i fc flags (nf.set i (flags.getD (fc + i) false)) = nf.set i (g i)) :
    ∀ (ks : List Nat) (nf : List Bool), (∀ k ∈ ks, k < nf.length) → ∀ (m : Nat) (d : Bool),
      (ks.foldl (fun nf i => step cc i fc flags (nf.set i (flags.getD (fc + i) false))) nf).getD m d
        = if m ∈ ks then g m else nf.getD m d := by
  intro ks
  induction ks with
  | nil => simp
  | cons k ks ih =>
    intro nf hk m d
    have hklt : k < nf.length := hk k (by simp)
    simp only [List.foldl_cons]
    rw [hstep k nf hklt]
    rw [ih (nf.set k (g k))
      (fun k' hk' => by rw [List.length_set]; exact hk k' (by simp [hk'])) m d]
    by_cases hm : m ∈ ks
    · rw [if_pos hm, if_pos (List.mem_cons_of_mem _ hm)]
    · rw [if_neg hm]
      by_cases hmk : m = k
      · subst hmk
        rw [if_pos (List.mem_cons_self m ks), getD_set_self nf m (g m) d hklt]
      · rw [if_neg (by simp [hmk, hm]), getD_set_ne nf k m (g k) d (fun e => hmk e.symm)]

theorem convScratch_getD {cc fc : Nat} {flags : List Bool}
    {step : Nat → Nat → Nat → List Bool → List Bool → List Bool} {g : Nat → Bool}
    (hstep : ∀ (i : Nat) (nf : List Bool), i < nf.length →
        step cc i fc flags (nf.set i (flags.getD (fc + i) false)) = nf.set i (g i))
    (m : Nat) (d : Bool) :
    (convScratch step cc fc flags).getD m d = if m < cc then g m else d := by
  unfold convScratch
  rw [foldl_stepLike hstep (List.range cc) _ (fun k hk => by
    simp only [List.mem_range] at hk
    simpa using hk)]
  by_cases hm : m < cc
  · rw [if_pos (List.mem_range.mpr hm), if_pos hm]
  · rw [if_neg (fun hc => hm (List.mem_range.mp hc)), if_neg hm]
    exact getD_of_length_le _ _ _ (by simp; omega)

/-- The scratch buffer computed by `Tree::expand`'s pass: entry `i` is the
old flag of child `i` or-ed with the window test over the old flags. -/
theorem convScratch_expand_getD (left right cc fc : Nat) (flags : List Bool) (m : Nat) (d : Bool) :
    (convScratch (expandStep left right) cc fc flags).getD m d
      = if m < cc then
          (flags.getD (fc + m) false ||
            windowAny left right m cc (fun j => flags.getD (fc + j) false))
        else d :=
  convScratch_getD (fun i nf h => expandStep_set left right cc fc flags i nf h) m d

/-- The scratch buffer computed by `Tree::reduce`'s pass: entry `i` is the
old flag of child `i` and-ed with the negated window test over the old
flags. -/
theorem convScratch_reduce_getD (left right cc fc : Nat) (flags : List Bool) (m : Nat) (d : Bool) :
    (convScratch (reduceStep left right) cc fc flags).getD m d
      = if m < cc then
          (flags.getD (fc + m) false &&
            !windowAny left right m cc (fun j => !(flags.getD (fc + j) false)))
        else d :=
  convScratch_getD (fun i nf h => reduceStep_set left right cc fc flags i nf h) m d

theorem length_foldl_stepLike {cc fc : Nat} {flags : List Bool}
    {step : Nat → Nat → Nat → List Bool → List Bool → List Bool}
    (hstep : ∀ cc' i fc' flags' nf, (step cc' i fc' flags' nf).length = nf.length)
    (ks : List Nat) (nf : List Bool) :
    (ks.foldl (fun nf i => step cc i fc flags (nf.set i (flags.getD (fc + i) false))) nf).length
      = nf.length := by
  induction ks generalizing nf with
  | nil => rfl
  | cons k ks ih => rw [List.foldl_cons, ih, hstep, List.length_set]

theorem length_convScratch {step : Nat → Nat → Nat → List Bool → List Bool → List Bool}
    (hstep : ∀ cc' i fc' flags' nf, (step cc' i fc' flags' nf).length = nf.length)
    (cc fc : Nat) (flags : List Bool) :
    (convScratch step cc fc flags).length = cc := by
  unfold convScratch
  rw [length_foldl_stepLike hstep]
  simp

theorem expandStep_length (left right cc i fc : Nat) (flags nf : List Bool) :
    (expandStep left right cc i fc flags nf).length = nf.length := by
  unfold expandStep
  split
  · rfl
  · split <;> simp

theorem reduceStep_length (left right cc i fc : Nat) (flags nf : List Bool) :
    (reduceStep left right cc i fc flags nf).length = nf.length := by
  unfold reduceStep
  split <;> simp

/-! ### Frame: the traversal writes only Stream/Region children ranges -/

mutual
/-- The `(firstChild, childCount)` ranges of every Stream/Region node in the
tree: the only flag slots the convolution pass may write. -/
def convRanges : NTree → List (Nat × Nat)
  | .mk ty _ fc _ _ _ children =>
    (if ty = .stream ∨ ty = .region then [(fc, children.length)] else [])
      ++ convRangesList children

def convRangesList : List NTree → List (Nat × Nat)
  | [] => []
  | c :: cs => convRanges c ++ convRangesList cs
end

theorem writeBack_getD_outside (nf : List Bool) : ∀ (fc : Nat) (flags : List Bool)
    (m : Nat) (d : Bool), ¬(fc ≤ m ∧ m < fc + nf.length) →
    (writeBack fc nf flags).getD m d = flags.getD m d := by
  induction nf with
  | nil => intro fc flags m d _; rfl
  | cons b nf ih =>
    intro fc flags m d h
    simp only [List.length_cons] at h
    rw [writeBack, ih (fc + 1) _ m d (by omega)]
    exact getD_set_ne flags fc m b d (by omega)

theorem writeBack_length (nf : List Bool) : ∀ (fc : Nat) (flags : List Bool),
    (writeBack fc nf flags).length = flags.length := by
  induction nf with
  | nil => intro fc flags; rfl
  | cons b nf ih => intro fc flags; rw [writeBack, ih]; simp

mutual
theorem convVisit_frame (step : Nat → Nat → Nat → List Bool → List Bool → List Bool)
    (hstep : ∀ cc' i fc' flags' nf, (step cc' i fc' flags' nf).length = nf.length)
    (t : NTree) (flags : List Bool) (m : Nat) (d : Bool)
    (h : ∀ r ∈ convRanges t, ¬(r.1 ≤ m ∧ m < r.1 + r.2)) :
    (convVisit step t flags).getD m d = flags.getD m d := by
  match t with
  | .mk ty idx fc cat mh pr children =>
    simp only [convVisit]
    cases hfl : flags.getD idx false with
    | false => rw [if_pos (by decide : (!false) = true)]
    | true =>
      rw [if_neg (by decide)]
      have hh : ∀ r ∈ convRangesList children, ¬(r.1 ≤ m ∧ m < r.1 + r.2) := fun r hr =>
        h r (by rw [convRanges]; exact List.mem_append_right _ hr)
      by_cases hty : ty = NodeType.stream ∨ ty = NodeType.region
      · rw [if_pos hty, convVisitList_frame step hstep children _ m d hh]
        refine writeBack_getD_outside _ fc flags m d ?_
        rw [length_convScratch hstep]
        have := h (fc, children.length) (by
          rw [convRanges]
          exact List.mem_append_left _ (by simp [hty]))
        simpa using this
      · rw [if_neg hty]
        exact convVisitList_frame step hstep children flags m d hh

theorem convVisitList_frame (step : Nat → Nat → Nat → List Bool → List Bool → List Bool)
    (hstep : ∀ cc' i fc' flags' nf, (step cc' i fc' flags' nf).length = nf.length)
    (ts : List NTree) (flags : List Bool) (m : Nat) (d : Bool)
    (h : ∀ r ∈ convRangesList ts, ¬(r.1 ≤ m ∧ m < r.1 + r.2)) :
    (convVisitList step ts flags).getD m d = flags.getD m d := by
  match ts with
  | [] => rfl
  | c :: cs =>
    rw [convVisitList]
    rw [convVisitList_frame step hstep cs _ m d (fun r hr =>
      h r (by rw [convRangesList]; exact List.mem_append_right _ hr))]
    exact convVisit_frame step hstep c flags m d (fun r hr =>
      h r (by rw [convRangesList]; exact List.mem_append_left _ hr))
end

/-! ### `expand(0, 0)` and `reduce(0, 0)` are the identity -/

theorem windowAny_zero_zero (i cc : Nat) (p : Nat → Bool) :
    windowAny 0 0 i cc p = (decide (i < cc) && p i) := by
  by_cases h : ∃ j, j < cc ∧ i ≤ j + 0 ∧ j ≤ i + 0 ∧ p j = true
  · have h1 : windowAny 0 0 i cc p = true := windowAny_eq_true.mpr h
    obtain ⟨j, hj1, hj2, hj3, hj4⟩ := h
    have hji : j = i := by omega
    subst hji
    simp [h1, hj1, hj4]
  · have h1 : windowAny 0 0 i cc p = false := by
      cases hw : windowAny 0 0 i cc p
      · rfl
      · exact absurd (windowAny_eq_true.mp hw) h
    rw [h1]
    by_cases hic : i < cc
    · cases hp : p i
      · simp
      · exact absurd ⟨i, hic, by omega, by omega, hp⟩ h
    · simp [hic]

theorem writeBack_of_getD : ∀ (nf : List Bool) (fc : Nat) (flags : List Bool),
    (∀ i, i < nf.length → nf.getD i false = flags.getD (fc + i) false) →
    writeBack fc nf flags = flags := by
  intro nf
  induction nf with
  | nil => intro fc flags _; rfl
  | cons b nf ih =>
    intro fc flags h
    have hb : b = flags.getD fc false := by simpa using h 0 (by simp)
    rw [writeBack, hb, set_getD_self]
    refine ih (fc + 1) flags (fun i hi => ?_)
    have := h (i + 1) (by simpa using Nat.succ_lt_succ hi)
    rw [getD_cons_succ] at this
    rw [this]
    congr 1
    omega

theorem convScratch_expand_zero_getD (fc : Nat) (flags : List Bool) (cc i : Nat)
    (hi : i < cc) :
    (convScratch (expandStep 0 0) cc fc flags).getD i false = flags.getD (fc + i) false := by
  rw [convScratch_expand_getD, if_pos hi, windowAny_zero_zero, decide_eq_true hi]
  cases flags.getD (fc + i) false <;> simp

theorem convScratch_reduce_zero_getD (fc : Nat) (flags : List Bool) (cc i : Nat)
    (hi : i < cc) :
    (convScratch (reduceStep 0 0) cc fc flags).getD i false = flags.getD (fc + i) false := by
  rw [convScratch_reduce_getD, if_pos hi, windowAny_zero_zero, decide_eq_true hi]
  cases flags.getD (fc + i) false <;> simp

mutual
theorem convVisit_expand_zero (t : NTree) (flags : List Bool) :
    convVisit (expandStep 0 0) t flags = flags := by
  match t with
  | .mk ty idx fc cat mh pr children =>
    simp only [convVisit]
    cases hfl : flags.getD idx false with
    | false => rw [if_pos (by decide : (!false) = true)]
    | true =>
      rw [if_neg (by decide)]
      have hwb : (if ty = NodeType.stream ∨ ty = NodeType.region then
          writeBack fc (convScratch (expandStep 0 0) children.length fc flags) flags
        else flags) = flags := by
        by_cases hty : ty = NodeType.stream ∨ ty = NodeType.region
        · rw [if_pos hty]
          refine writeBack_of_getD _ fc flags (fun i hi => ?_)
          rw [length_convScratch (fun cc' i' fc' flags' nf =>
            expandStep_length 0 0 cc' i' fc' flags' nf)] at hi
          exact convScratch_expand_zero_getD fc flags children.length i hi
        · rw [if_neg hty]
      rw [hwb]
      exact convVisitList_expand_zero children flags

theorem convVisitList_expand_zero (ts : List NTree) (flags : List Bool) :
    convVisitList (expandStep 0 0) ts flags = flags := by
  match ts with
  | [] => rfl
  | c :: cs =>
    rw [convVisitList, convVisit_expand_zero c flags, convVisitList_expand_zero cs flags]
end

mutual
theorem convVisit_reduce_zero (t : NTree) (flags : List Bool) :
    convVisit (reduceStep 0 0) t flags = flags := by
  match t with
  | .mk ty idx fc cat mh pr children =>
    simp only [convVisit]
    cases hfl : flags.getD idx false with
    | false => rw [if_pos (by decide : (!false) = true)]
    | true =>
      rw [if_neg (by decide)]
      have hwb : (if ty = NodeType.stream ∨ ty = NodeType.region then
          writeBack fc (convScratch (reduceStep 0 0) children.length fc flags) flags
        else flags) = flags := by
        by_cases hty : ty = NodeType.stream ∨ ty = NodeType.region
        · rw [if_pos hty]
          refine writeBack_of_getD _ fc flags (fun i hi => ?_)
          rw [length_convScratch (fun cc' i' fc' flags' nf =>
            reduceStep_length 0 0 cc' i' fc' flags' nf)] at hi
          exact convScratch_reduce_zero_getD fc flags children.length i hi
        · rw [if_neg hty]
      rw [hwb]
      exact convVisitList_reduce_zero children flags

theorem convVisitList_reduce_zero (ts : List NTree) (flags : List Bool) :
    convVisitList (reduceStep 0 0) ts flags = flags := by
  match ts with
  | [] => rfl
  | c :: cs =>
    rw [convVisitList, convVisit_reduce_zero c flags, convVisitList_reduce_zero cs flags]
end

/-- `Tree::convolution` terminates at any node whose own flag is
Disabled, before the Stream/Region type check: nothing below it is
visited and no flag changes. -/
theorem convVisit_disabled (step : Nat → Nat → Nat → List Bool → List Bool → List Bool)
    (t : NTree) (flags : List Bool) (h : flags.getD t.idx false = false) :
    convVisit step t flags = flags := by
  match t with
  | .mk ty idx fc cat mh pr children =>
    have h2 : flags.getD idx false = false := h
    simp only [convVisit]
    rw [h2]
    rw [if_pos (by decide)]

theorem writeBack_getD_inside : ∀ (nf : List Bool) (fc : Nat) (flags : List Bool)
    (i : Nat) (d : Bool), i < nf.length → fc + nf.length ≤ flags.length →
    (writeBack fc nf flags).getD (fc + i) d = nf.getD i false := by
  intro nf
  induction nf with
  | nil =>
    intro fc flags i d hi _
    simp at hi
  | cons b nf ih =>
    intro fc flags i d hi hlen
    simp only [List.length_cons] at hi hlen
    rw [writeBack]
    cases i with
    | zero =>
      rw [writeBack_getD_outside nf (fc + 1) _ (fc + 0) d (by omega)]
      rw [Nat.add_zero]
      rw [getD_set_self flags fc b d (by omega)]
      rfl
    | succ i =>
      rw [show fc + (i + 1) = fc + 1 + i from by omega,
        ih (fc + 1) (flags.set fc b) i d (by omega) (by rw [List.length_set]; omega)]
      rfl

/-! ### Claims C4 and C5 -/

/-- A message leaf at arena index `i`. -/
def exMsg (i : Nat) : NTree := .mk .message i 0 0 0 [] []

/-- A log with one stream holding a line of five sibling messages at arena
indices 2..6 (the tree shape of the spec's expand/reduce scenarios). -/
def exLine5 : NTree :=
  .mk .log 0 1 0 0 []
    [.mk .stream 1 2 0 0 [] [exMsg 2, exMsg 3, exMsg 4, exMsg 5, exMsg 6]]

/-- A deeper arena: the Log holds one Stream (index 1) holding one Region
(index 2) with two message children at indices 3 and 4. -/
def exDeep : NTree :=
  .mk .log 0 1 0 0 []
    [.mk .stream 1 2 0 0 [] [.mk .region 2 3 0 0 [] [exMsg 3, exMsg 4]]]

/-- **C4** (corrected). `Tree::expand(left, right)`, for every flag state
and window:
(1) the per-parent pass recomputes child `i` of a visited Stream/Region
parent as Enabled iff some sibling `j` with `i - left ≤ j ≤ i + right`,
`0 ≤ j < childCount` was Enabled in the flags as they stood before that
parent's pass (the pass reads the old flags and writes a scratch buffer,
so no wavefront);
(2) every flag outside the Stream/Region children ranges — in particular
every Stream node's own flag, which lies in the Log root's child range
only — is unchanged;
(3) `expand(0,0)` is the identity;
(4) the sibling line `[E,D,D,D,E]` under `expand(1,1)` becomes
`[E,E,D,E,E]`;
(5) the traversal stops at every node whose own flag is Disabled, before
the type check: expand of a subtree whose root flag is Disabled changes
nothing at all, so the pass does NOT run for every Enabled Stream/Region
node — only for those reached through Enabled nodes (see the
counterexample);
(6) at a visited (Enabled) Stream/Region node the children's range is
rewritten per (1) from the pre-pass flags, everything else is untouched
by that pass, and the traversal then descends into the children with the
updated flags. -/
theorem Tree_expand_spec :
    (∀ left right cc fc flags i, i < cc →
      ((convScratch (expandStep left right) cc fc flags).getD i false = true ↔
        ∃ j, j < cc ∧ i ≤ j + left ∧ j ≤ i + right ∧ flags.getD (fc + j) false = true)) ∧
    (∀ left right t flags m d,
      (∀ r ∈ convRanges t, ¬(r.1 ≤ m ∧ m < r.1 + r.2)) →
      (Tree.expand left right t flags).getD m d = flags.getD m d) ∧
    (∀ t flags, Tree.expand 0 0 t flags = flags) ∧
    Tree.expand 1 1 exLine5 [true, true, true, false, false, false, true]
      = [true, true, true, true, false, true, true] ∧
    (∀ left right (t : NTree) flags, flags.getD t.idx false = false →
      Tree.expand left right t flags = flags) ∧
    (∀ left right ty idx fc cat mh pr children flags,
      flags.getD idx false = true →
      (ty = NodeType.stream ∨ ty = NodeType.region) →
      fc + children.length ≤ flags.length →
      ∃ flags1 : List Bool,
        Tree.expand left right (.mk ty idx fc cat mh pr children) flags
          = convVisitList (expandStep left right) children flags1 ∧
        (∀ i, i < children.length →
          flags1.getD (fc + i) false
            = (flags.getD (fc + i) false ||
                windowAny left right i children.length
                  (fun j => flags.getD (fc + j) false))) ∧
        (∀ m d, ¬(fc ≤ m ∧ m < fc + children.length) →
          flags1.getD m d = flags.getD m d)) := by
  refine ⟨?_, ?_, ?_, ?_, ?_, ?_⟩
  · intro left right cc fc flags i hi
    rw [convScratch_expand_getD, if_pos hi]
    constructor
    · intro h
      rcases Bool.or_eq_true_iff.mp h with h | h
      · exact ⟨i, hi, by omega, by omega, h⟩
      · exact windowAny_eq_true.mp h
    · intro h
      exact Bool.or_eq_true_iff.mpr (Or.inr (windowAny_eq_true.mpr h))
  · intro left right t flags m d h
    exact convVisit_frame (expandStep left right)
      (fun cc' i fc' flags' nf => expandStep_length left right cc' i fc' flags' nf)
      t flags m d h
  · intro t flags
    exact convVisit_expand_zero t flags
  · decide
  · intro left right t flags h
    exact convVisit_disabled (expandStep left right) t flags h
  · intro left right ty idx fc cat mh pr children flags h1 hty hlen
    refine ⟨writeBack fc
      (convScratch (expandStep left right) children.length fc flags) flags,
      ?_, ?_, ?_⟩
    · show convVisit (expandStep left right) (.mk ty idx fc cat mh pr children) flags
        = _
      simp only [convVisit]
      rw [h1]
      rw [if_neg (by decide)]
      rw [if_pos hty]
    · intro i hi
      rw [writeBack_getD_inside _ fc flags i false
        (by rw [length_convScratch (fun a b c d e =>
          expandStep_length left right a b c d e)]; exact hi)
        (by rw [length_convScratch (fun a b c d e =>
          expandStep_length left right a b c d e)]; exact hlen)]
      rw [convScratch_expand_getD, if_pos hi]
    · intro m d hm
      refine writeBack_getD_outside _ fc flags m d ?_
      rw [length_convScratch (fun a b c d e =>
        expandStep_length left right a b c d e)]
      exact hm

/-- The original C4 claim fails: in `exDeep` with flags `[E,D,E,E,D]`, the
Region node (index 2) is Enabled and its Disabled child (slot 4) has an
Enabled sibling inside the `(1,1)` window, so the claim requires slot 4 to
become Enabled — but the traversal stops at the Disabled Stream (index 1)
and `expand(1,1)` changes nothing. -/
theorem Tree_expand_spec_counterexample :
    ([true, false, true, true, false].getD 2 false = true) ∧
    (∃ j, j < 2 ∧ 1 ≤ j + 1 ∧ j ≤ 1 + 1 ∧
      [true, false, true, true, false].getD (3 + j) false = true) ∧
    Tree.expand 1 1 exDeep [true, false, true, true, false]
      = [true, false, true, true, false] ∧
    (Tree.expand 1 1 exDeep [true, false, true, true, false]).getD 4 false
      = false :=
  ⟨by decide, ⟨0, by decide⟩, by decide, by decide⟩

/-- Witness for C4 at concrete inputs. -/
theorem Tree_expand_spec_witness :
    ((0 : Nat) < 5 ∧
      ((convScratch (expandStep 1 1) 5 2 [true, true, true, false, false, false, true]).getD 0 false = true ↔
        ∃ j, j < 5 ∧ 0 ≤ j + 1 ∧ j ≤ 0 + 1 ∧
          [true, true, true, false, false, false, true].getD (2 + j) false = true)) ∧
    ((∀ r ∈ convRanges exLine5, ¬(r.1 ≤ 0 ∧ 0 < r.1 + r.2)) ∧
      (Tree.expand 3 2 exLine5 [true, true, true, false, false, false, true]).getD 0 false
        = [true, true, true, false, false, false, true].getD 0 false) ∧
    Tree.expand 1 1 exLine5 [false, true, true, false, false, false, true]
      = [false, true, true, false, false, false, true] ∧
    (∃ flags1 : List Bool,
      Tree.expand 1 1 (.mk .stream 1 2 0 0 [] [exMsg 2, exMsg 3, exMsg 4, exMsg 5, exMsg 6])
          [true, true, true, false, false, false, true]
        = convVisitList (expandStep 1 1) [exMsg 2, exMsg 3, exMsg 4, exMsg 5, exMsg 6] flags1 ∧
      (∀ i, i < 5 →
        flags1.getD (2 + i) false
          = ([true, true, true, false, false, false, true].getD (2 + i) false ||
              windowAny 1 1 i 5 (fun j =>
                [true, true, true, false, false, false, true].getD (2 + j) false))) ∧
      (∀ m d, ¬(2 ≤ m ∧ m < 2 + 5) →
        flags1.getD m d
          = [true, true, true, false, false, false, true].getD m d)) :=
  ⟨⟨by decide, Tree_expand_spec.1 1 1 5 2 _ 0 (by decide)⟩,
    ⟨by decide, Tree_expand_spec.2.1 3 2 exLine5 _ 0 false (by decide)⟩,
    Tree_expand_spec.2.2.2.2.1 1 1 exLine5 _ (by decide),
    Tree_expand_spec.2.2.2.2.2 1 1 .stream 1 2 0 0 []
      [exMsg 2, exMsg 3, exMsg 4, exMsg 5, exMsg 6] _ (by decide) (Or.inl rfl)
      (by decide)⟩

/-- **C5** (corrected). `Tree::reduce(left, right)`, for every flag state
and window:
(1) the per-parent pass recomputes child `i` of a visited Stream/Region
parent as Disabled iff it was Disabled or some sibling `j` with
`i - left ≤ j ≤ i + right`, `0 ≤ j < childCount` was Disabled in the
flags as they stood before that parent's pass (the same
read-old/write-scratch discipline as expand, so disabling cannot cascade
along siblings within one call);
(2) every flag outside the Stream/Region children ranges is unchanged;
(3) `reduce(0,0)` is the identity;
(4) the sibling line `[E,E,E,D,E]` under `reduce(0,1)` becomes
`[E,E,D,D,E]`;
(5) the traversal stops at every node whose own flag is Disabled, before
the type check: reduce of a subtree whose root flag is Disabled changes
nothing at all, so the pass does NOT run for every Enabled Stream/Region
node — only for those reached through Enabled nodes (see the
counterexample);
(6) at a visited (Enabled) Stream/Region node the children's range is
rewritten per (1) from the pre-pass flags, everything else is untouched
by that pass, and the traversal then descends into the children with the
updated flags. -/
theorem Tree_reduce_spec :
    (∀ left right cc fc flags i, i < cc →
      ((convScratch (reduceStep left right) cc fc flags).getD i false = false ↔
        (flags.getD (fc + i) false = false ∨
          ∃ j, j < cc ∧ i ≤ j + left ∧ j ≤ i + right ∧ flags.getD (fc + j) false = false))) ∧
    (∀ left right t flags m d,
      (∀ r ∈ convRanges t, ¬(r.1 ≤ m ∧ m < r.1 + r.2)) →
      (Tree.reduce left right t flags).getD m d = flags.getD m d) ∧
    (∀ t flags, Tree.reduce 0 0 t flags = flags) ∧
    Tree.reduce 0 1 exLine5 [true, true, true, true, true, false, true]
      = [true, true, true, true, false, false, true] ∧
    (∀ left right (t : NTree) flags, flags.getD t.idx false = false →
      Tree.reduce left right t flags = flags) ∧
    (∀ left right ty idx fc cat mh pr children flags,
      flags.getD idx false = true →
      (ty = NodeType.stream ∨ ty = NodeType.region) →
      fc + children.length ≤ flags.length →
      ∃ flags1 : List Bool,
        Tree.reduce left right (.mk ty idx fc cat mh pr children) flags
          = convVisitList (reduceStep left right) children flags1 ∧
        (∀ i, i < children.length →
          flags1.getD (fc + i) false
            = (flags.getD (fc + i) false &&
                !windowAny left right i children.length
                  (fun j => !(flags.getD (fc + j) false)))) ∧
        (∀ m d, ¬(fc ≤ m ∧ m < fc + children.length) →
          flags1.getD m d = flags.getD m d)) := by
  refine ⟨?_, ?_, ?_, ?_, ?_, ?_⟩
  · intro left right cc fc flags i hi
    rw [convScratch_reduce_getD, if_pos hi]
    constructor
    · intro h
      rcases Bool.and_eq_false_iff.mp h with h | h
      · exact Or.inl h
      · have hw : windowAny left right i cc (fun j => !(flags.getD (fc + j) false)) = true := by
          cases hww : windowAny left right i cc (fun j => !(flags.getD (fc + j) false))
          · rw [hww] at h; cases h
          · rfl
        obtain ⟨j, h1, h2, h3, h4⟩ := windowAny_eq_true.mp hw
        exact Or.inr ⟨j, h1, h2, h3, by
          cases hfj : flags.getD (fc + j) false
          · rfl
          · rw [hfj] at h4; cases h4⟩
    · intro h
      have hw : windowAny left right i cc (fun j => !(flags.getD (fc + j) false)) = true := by
        rcases h with h | ⟨j, h1, h2, h3, h4⟩
        · exact windowAny_eq_true.mpr ⟨i, hi, by omega, by omega, by rw [h]; rfl⟩
        · exact windowAny_eq_true.mpr ⟨j, h1, h2, h3, by rw [h4]; rfl⟩
      rw [hw]
      simp
  · intro left right t flags m d h
    exact convVisit_frame (reduceStep left right)
      (fun cc' i fc' flags' nf => reduceStep_length left right cc' i fc' flags' nf)
      t flags m d h
  · intro t flags
    exact convVisit_reduce_zero t flags
  · decide
  · intro left right t flags h
    exact convVisit_disabled (reduceStep left right) t flags h
  · intro left right ty idx fc cat mh pr children flags h1 hty hlen
    refine ⟨writeBack fc
      (convScratch (reduceStep left right) children.length fc flags) flags,
      ?_, ?_, ?_⟩
    · show convVisit (reduceStep left right) (.mk ty idx fc cat mh pr children) flags
        = _
      simp only [convVisit]
      rw [h1]
      rw [if_neg (by decide)]
      rw [if_pos hty]
    · intro i hi
      rw [writeBack_getD_inside _ fc flags i false
        (by rw [length_convScratch (fun a b c d e =>
          reduceStep_length left right a b c d e)]; exact hi)
        (by rw [length_convScratch (fun a b c d e =>
          reduceStep_length left right a b c d e)]; exact hlen)]
      rw [convScratch_reduce_getD, if_pos hi]
    · intro m d hm
      refine writeBack_getD_outside _ fc flags m d ?_
      rw [length_convScratch (fun a b c d e =>
        reduceStep_length left right a b c d e)]
      exact hm

/-- The original C5 claim fails: in `exDeep` with flags `[E,D,E,E,D]`, the
Region node (index 2) is Enabled and its Enabled child (slot 3) has a
Disabled sibling inside the `(0,1)` window, so the claim requires slot 3
to become Disabled — but the traversal stops at the Disabled Stream
(index 1) and `reduce(0,1)` changes nothing. -/
theorem Tree_reduce_spec_counterexample :
    ([true, false, true, true, false].getD 2 false = true) ∧
    (∃ j, j < 2 ∧ 0 ≤ j + 0 ∧ j ≤ 0 + 1 ∧
      [true, false, true, true, false].getD (3 + j) false = false) ∧
    Tree.reduce 0 1 exDeep [true, false, true, true, false]
      = [true, false, true, true, false] ∧
    (Tree.reduce 0 1 exDeep [true, false, true, true, false]).getD 3 false
      = true :=
  ⟨by decide, ⟨1, by decide⟩, by decide, by decide⟩

/-- Witness for C5 at concrete inputs. -/
theorem Tree_reduce_spec_witness :
    ((2 : Nat) < 5 ∧
      ((convScratch (reduceStep 0 1) 5 2 [true, true, true, true, true, false, true]).getD 2 false = false ↔
        ([true, true, true, true, true, false, true].getD (2 + 2) false = false ∨
          ∃ j, j < 5 ∧ 2 ≤ j + 0 ∧ j ≤ 2 + 1 ∧
            [true, true, true, true, true, false, true].getD (2 + j) false = false))) ∧
    ((∀ r ∈ convRanges exLine5, ¬(r.1 ≤ 1 ∧ 1 < r.1 + r.2)) ∧
      (Tree.reduce 0 1 exLine5 [true, true, true, true, true, false, true]).getD 1 false
        = [true, true, true, true, true, false, true].getD 1 false) ∧
    Tree.reduce 0 1 exLine5 [false, true, true, true, true, false, true]
      = [false, true, true, true, true, false, true] ∧
    (∃ flags1 : List Bool,
      Tree.reduce 0 1 (.mk .stream 1 2 0 0 [] [exMsg 2, exMsg 3, exMsg 4, exMsg 5, exMsg 6])
          [true, true, true, true, true, false, true]
        = convVisitList (reduceStep 0 1) [exMsg 2, exMsg 3, exMsg 4, exMsg 5, exMsg 6] flags1 ∧
      (∀ i, i < 5 →
        flags1.getD (2 + i) false
          = ([true, true, true, true, true, false, true].getD (2 + i) false &&
              !windowAny 0 1 i 5 (fun j =>
                !([true, true, true, true, true, false, true].getD (2 + j) false)))) ∧
      (∀ m d, ¬(2 ≤ m ∧ m < 2 + 5) →
        flags1.getD m d
          = [true, true, true, true, true, false, true].getD m d)) :=
  ⟨⟨by decide, Tree_reduce_spec.1 0 1 5 2 _ 2 (by decide)⟩,
    ⟨by decide, Tree_reduce_spec.2.1 0 1 exLine5 _ 1 false (by decide)⟩,
    Tree_reduce_spec.2.2.2.2.1 0 1 exLine5 _ (by decide),
    Tree_reduce_spec.2.2.2.2.2 0 1 .stream 1 2 0 0 []
      [exMsg 2, exMsg 3, exMsg 4, exMsg 5, exMsg 6] _ (by decide) (Or.inl rfl)
      (by decide)⟩

/-! ### Claim C8: union and intersection of trees -/

/-- A `Tree` object: the owning analyzer's identity and the per-node flag
array. -/
structure TreeState where
  analyzer : Nat
  nodes : List Bool
deriving DecidableEq, Repr

namespace Tree

/-- `Tree::operator|=`: different analyzers throw `ForeignTree`, before any
flag is written; otherwise `nodes[i] |= rhs.nodes[i] & Flags::Enabled`
pointwise over this tree's flag array (`& Enabled` is the identity on the
one flag bit; `rhs.nodes[i]` out of bounds is modelled as reading
`Disabled`). -/
def orEq (a b : TreeState) : Except String TreeState :=
  if a.analyzer ≠ b.analyzer then .error "Cannot combine Trees of different Analyzers."
  else .ok ⟨a.analyzer,
    (List.range a.nodes.length).map
      (fun i => a.nodes.getD i false || b.nodes.getD i false)⟩

/-- `Tree::operator&=`: different analyzers throw `ForeignTree`, before any
flag is written; otherwise
`nodes[i] = nodes[i] & ~Enabled | nodes[i] & rhs.nodes[i] & Enabled`, i.e.
pointwise conjunction. -/
def andEq (a b : TreeState) : Except String TreeState :=
  if a.analyzer ≠ b.analyzer then .error "Cannot combine Trees of different Analyzers."
  else .ok ⟨a.analyzer,
    (List.range a.nodes.length).map
      (fun i => a.nodes.getD i false && b.nodes.getD i false)⟩

end Tree

theorem getD_map_range {α : Type} (f : Nat → α) {n i : Nat} (d : α) (hi : i < n) :
    ((List.range n).map f).getD i d = f i := by
  rw [List.getD_eq_getElem?_getD, List.getElem?_map, List.getElem?_range hi]
  rfl

theorem range_map_getD {α : Type} (l : List α) (d : α) :
    (List.range l.length).map (fun i => l.getD i d) = l := by
  induction l with
  | nil => rfl
  | cons a l ih =>
    rw [List.length_cons, List.range_succ_eq_map, List.map_cons, List.map_map]
    have : (fun i => (a :: l).getD i d) ∘ Nat.succ = fun i => l.getD i d := by
      funext i
      simp [Function.comp, getD_cons_succ]
    rw [this, ih]
    rfl

/-- **C8.** `a |= b` and `a &= b` fail (with the `ForeignTree` error) iff
the two trees reference different analyzers, and the failure happens before
any flag of `a` is written; on the same analyzer (hence flag arrays of equal
length) the result enables exactly the union resp. intersection of the
enabled sets, and `a |= a` and `a &= a` return `a` unchanged. -/
theorem Tree_combine_spec :
    (∀ a b : TreeState,
      ((∃ e, Tree.orEq a b = .error e) ↔ a.analyzer ≠ b.analyzer) ∧
      ((∃ e, Tree.andEq a b = .error e) ↔ a.analyzer ≠ b.analyzer)) ∧
    (∀ a b : TreeState, a.analyzer = b.analyzer → a.nodes.length = b.nodes.length →
      ∃ a' b', Tree.orEq a b = .ok a' ∧ Tree.andEq a b = .ok b' ∧
        a'.analyzer = a.analyzer ∧ b'.analyzer = a.analyzer ∧
        a'.nodes.length = a.nodes.length ∧ b'.nodes.length = a.nodes.length ∧
        (∀ i, i < a.nodes.length →
          (a'.nodes.getD i false = (a.nodes.getD i false || b.nodes.getD i false)) ∧
          (b'.nodes.getD i false = (a.nodes.getD i false && b.nodes.getD i false)))) ∧
    (∀ a : TreeState, Tree.orEq a a = .ok a ∧ Tree.andEq a a = .ok a) := by
  refine ⟨?_, ?_, ?_⟩
  · intro a b
    constructor <;> constructor
    · rintro ⟨e, he⟩
      by_contra hne
      simp [Tree.orEq, hne] at he
    · intro hne
      exact ⟨"Cannot combine Trees of different Analyzers.",
        by unfold Tree.orEq; rw [if_pos hne]⟩
    · rintro ⟨e, he⟩
      by_contra hne
      simp [Tree.andEq, hne] at he
    · intro hne
      exact ⟨"Cannot combine Trees of different Analyzers.",
        by unfold Tree.andEq; rw [if_pos hne]⟩
  · intro a b han _hlen
    refine ⟨⟨a.analyzer, (List.range a.nodes.length).map
        (fun i => a.nodes.getD i false || b.nodes.getD i false)⟩,
      ⟨a.analyzer, (List.range a.nodes.length).map
        (fun i => a.nodes.getD i false && b.nodes.getD i false)⟩,
      ?_, ?_, rfl, rfl, by simp, by simp, fun i hi => ⟨?_, ?_⟩⟩
    · unfold Tree.orEq
      rw [if_neg (by simp [han])]
    · unfold Tree.andEq
      rw [if_neg (by simp [han])]
    · exact getD_map_range _ false hi
    · exact getD_map_range _ false hi
  · intro a
    have hor : (List.range a.nodes.length).map
        (fun i => a.nodes.getD i false || a.nodes.getD i false) = a.nodes := by
      have he : (fun i => a.nodes.getD i false || a.nodes.getD i false)
          = fun i => a.nodes.getD i false := by
        funext i
        cases a.nodes.getD i false <;> rfl
      rw [he, range_map_getD]
    have hand : (List.range a.nodes.length).map
        (fun i => a.nodes.getD i false && a.nodes.getD i false) = a.nodes := by
      have he : (fun i => a.nodes.getD i false && a.nodes.getD i false)
          = fun i => a.nodes.getD i false := by
        funext i
        cases a.nodes.getD i false <;> rfl
      rw [he, range_map_getD]
    constructor
    · unfold Tree.orEq
      rw [if_neg (by simp), hor]
    · unfold Tree.andEq
      rw [if_neg (by simp), hand]

/-! ### Claim C7: `Stream::message` -/

/-- A stream's double buffer (`Stream::buffer`): buffer size, front buffer
with its write offset, back buffer with its used byte count. -/
structure SBuf where
  size : Nat
  front : List Nat
  offset : Nat
  back : List Nat
  used : Nat
deriving Repr, DecidableEq

/-- A raw placement write of `bs` at byte offset `o`
(`reinterpret_cast<T&>(buffer.front[offset]) = value`, little-endian).  The
asserted precondition `sizeof(T) + offset <= size` keeps it in bounds. -/
def writeMem (l : List Nat) (o : Nat) (bs : List Nat) : List Nat :=
  l.take o ++ bs ++ l.drop (o + bs.length)

/-- `Stream::operator<<`: write the value's bytes at the current offset and
advance the offset. -/
def swrite (b : SBuf) (bs : List Nat) : SBuf :=
  { b with front := writeMem b.front b.offset bs, offset := b.offset + bs.length }

/-- `Stream::flush`: `flushed.acquire()` (blocking only, no buffer effect),
swap front and back, record `used`, reset the offset; the subsequent
`log->flush(*this)` enqueues the stream (queue modelled with the shutdown
state, claim C3). -/
def sflush (b : SBuf) : SBuf :=
  { size := b.size, front := b.back, offset := 0, back := b.front, used := b.offset }

/-- `Stream::checkFlush`: flush exactly when writing `messageSize` more
bytes would overflow the front buffer. -/
def checkFlush (b : SBuf) (messageSize : Nat) : SBuf × Bool :=
  if messageSize + b.offset > b.size then (sflush b, true) else (b, false)

/-- `Stream::message` with the category filter passing: compute
`messageSize = sizeof(MessageKey) + sizeof(parameters...) + sizeof(index)`,
maybe flush, then write the key, the ordering index when ordering is
enabled, and the parameter values in declared order. -/
def streamMessage (order : Bool) (key ordIdx : Nat) (params : List (List Nat)) (b : SBuf) :
    SBuf × Bool :=
  let messageSize := 4 + (if order then 8 else 0) + (params.map List.length).sum
  let fb := checkFlush b messageSize
  let b2 := swrite fb.1 (leBytes 4 key)
  let b3 := if order then swrite b2 (leBytes 8 ordIdx) else b2
  (params.foldl (fun b p => swrite b p) b3, fb.2)

theorem swrite_append (b : SBuf) (xs ys : List Nat) (h : b.offset + xs.length ≤ b.front.length) :
    swrite (swrite b xs) ys = swrite b (xs ++ ys) := by
  have hlen : (b.front.take b.offset ++ xs).length = b.offset + xs.length := by
    rw [List.length_append, List.length_take]
    omega
  have hfront : writeMem (writeMem b.front b.offset xs) (b.offset + xs.length) ys
      = writeMem b.front b.offset (xs ++ ys) := by
    unfold writeMem
    rw [List.take_left' hlen]
    rw [show b.offset + xs.length + ys.length
        = (b.front.take b.offset ++ xs).length + ys.length by rw [hlen]]
    rw [List.drop_append, List.drop_drop]
    simp only [List.append_assoc, List.length_append]
    rw [Nat.add_assoc]
  have hoff : b.offset + xs.length + ys.length = b.offset + (xs ++ ys).length := by
    rw [List.length_append]
    omega
  unfold swrite
  dsimp only
  rw [hfront, hoff]

theorem swrite_foldl (params : List (List Nat)) : ∀ (b : SBuf),
    b.offset + (params.map List.length).sum ≤ b.front.length →
    params.foldl (fun b p => swrite b p) b = swrite b params.flatten := by
  induction params with
  | nil =>
    intro b _
    show b = swrite b []
    unfold swrite writeMem
    simp
  | cons p ps ih =>
    intro b h
    simp only [List.map_cons, List.sum_cons, List.flatten_cons] at h ⊢
    rw [List.foldl_cons, ih (swrite b p) (by
      unfold swrite writeMem
      simp only [List.length_append, List.length_take, List.length_drop]
      omega)]
    rw [swrite_append b p ps.flatten (by omega)]

/-- **C7.** `Stream::message` under the precondition
`needed ≤ capacity` (with the buffer invariants `|front| = |back| = size`,
`offset ≤ size`): `flush()` is called iff `offset + needed > capacity`
before the write; afterwards the front buffer holds, at the pre-write
offset (0 after a flush, the old offset otherwise), the message key, then
the u64 ordering index when ordering is enabled, then the parameter bytes
in declared order; the offset advances by exactly `needed`, and all content
before the pre-write offset (and after the written span) is the unchanged
content of the buffer that was the front after the optional flush. -/
theorem streamMessage_spec (order : Bool) (key ordIdx : Nat) (params : List (List Nat))
    (b : SBuf) (hfront : b.front.length = b.size) (hback : b.back.length = b.size)
    (hoff : b.offset ≤ b.size)
    (hneed : 4 + (if order then 8 else 0) + (params.map List.length).sum ≤ b.size) :
    ((streamMessage order key ordIdx params b).2 = true ↔
      b.offset + (4 + (if order then 8 else 0) + (params.map List.length).sum) > b.size) ∧
    ((streamMessage order key ordIdx params b).1.offset
      = (if b.offset + (4 + (if order then 8 else 0) + (params.map List.length).sum) > b.size
          then 0 else b.offset)
        + (4 + (if order then 8 else 0) + (params.map List.length).sum)) ∧
    ((streamMessage order key ordIdx params b).1.front
      = (if b.offset + (4 + (if order then 8 else 0) + (params.map List.length).sum) > b.size
          then b.back else b.front).take
            (if b.offset + (4 + (if order then 8 else 0) + (params.map List.length).sum) > b.size
              then 0 else b.offset)
        ++ (leBytes 4 key ++ (if order then leBytes 8 ordIdx else []) ++ params.flatten)
        ++ (if b.offset + (4 + (if order then 8 else 0) + (params.map List.length).sum) > b.size
            then b.back else b.front).drop
              ((if b.offset + (4 + (if order then 8 else 0) + (params.map List.length).sum) > b.size
                then 0 else b.offset)
                + (4 + (if order then 8 else 0) + (params.map List.length).sum))) := by
  set needed := 4 + (if order then 8 else 0) + (params.map List.length).sum with hneeded
  have hpaylen : (leBytes 4 key ++ (if order then leBytes 8 ordIdx else []) ++
      params.flatten).length = needed := by
    rw [hneeded]
    simp only [List.length_append, length_leBytes, List.length_flatten]
    cases order <;> simp [length_leBytes]
  have heq : streamMessage order key ordIdx params b
      = (params.foldl (fun b p => swrite b p)
          (if order then swrite (swrite (checkFlush b needed).1 (leBytes 4 key)) (leBytes 8 ordIdx)
            else swrite (checkFlush b needed).1 (leBytes 4 key)),
        (checkFlush b needed).2) := rfl
  have hc2 : (checkFlush b needed).2 = decide (b.offset + needed > b.size) := by
    unfold checkFlush
    by_cases hov : b.offset + needed > b.size
    · rw [if_pos (by omega), decide_eq_true hov]
    · rw [if_neg (by omega), decide_eq_false hov]
  have hc1front : (checkFlush b needed).1.front
      = if b.offset + needed > b.size then b.back else b.front := by
    unfold checkFlush
    by_cases hov : b.offset + needed > b.size
    · rw [if_pos (by omega), if_pos hov]
      rfl
    · rw [if_neg (by omega), if_neg hov]
  have hc1offset : (checkFlush b needed).1.offset
      = if b.offset + needed > b.size then 0 else b.offset := by
    unfold checkFlush
    by_cases hov : b.offset + needed > b.size
    · rw [if_pos (by omega), if_pos hov]
      rfl
    · rw [if_neg (by omega), if_neg hov]
  have hc1len : (checkFlush b needed).1.front.length = b.size := by
    rw [hc1front]
    by_cases hov : b.offset + needed > b.size
    · rw [if_pos hov, hback]
    · rw [if_neg hov, hfront]
  have hfits : (checkFlush b needed).1.offset + needed ≤ (checkFlush b needed).1.front.length := by
    rw [hc1offset, hc1len]
    by_cases hov : b.offset + needed > b.size
    · rw [if_pos hov]
      omega
    · rw [if_neg hov]
      omega
  have hk4 : (leBytes 4 key).length = 4 := length_leBytes 4 key
  have ho8 : (leBytes 8 ordIdx).length = 8 := length_leBytes 8 ordIdx
  have hneedge : 4 + (if order then 8 else 0) ≤ needed := by
    rw [hneeded]
    omega
  have hw : (params.foldl (fun b p => swrite b p)
        (if order then swrite (swrite (checkFlush b needed).1 (leBytes 4 key)) (leBytes 8 ordIdx)
          else swrite (checkFlush b needed).1 (leBytes 4 key)))
      = swrite (checkFlush b needed).1
          (leBytes 4 key ++ (if order then leBytes 8 ordIdx else []) ++ params.flatten) := by
    have hwm : ∀ (bs : List Nat),
        (checkFlush b needed).1.offset + bs.length ≤ (checkFlush b needed).1.front.length →
        (writeMem (checkFlush b needed).1.front (checkFlush b needed).1.offset bs).length
          = (checkFlush b needed).1.front.length := by
      intro bs hbs
      unfold writeMem
      simp only [List.length_append, List.length_take, List.length_drop]
      omega
    cases order with
    | true =>
      rw [if_pos rfl, if_pos rfl]
      have hno : needed = 12 + (params.map List.length).sum := by
        rw [hneeded]
        simp
      rw [swrite_append _ _ _ (by rw [hk4]; omega)]
      have hlen12 : ((leBytes 4 key ++ leBytes 8 ordIdx)).length = 12 := by
        rw [List.length_append, hk4, ho8]
      rw [swrite_foldl params _ (by
        show (swrite (checkFlush b needed).1 (leBytes 4 key ++ leBytes 8 ordIdx)).offset
            + (params.map List.length).sum
          ≤ (swrite (checkFlush b needed).1 (leBytes 4 key ++ leBytes 8 ordIdx)).front.length
        unfold swrite
        dsimp only
        rw [hwm _ (by rw [hlen12]; omega), hlen12]
        omega)]
      rw [swrite_append _ _ _ (by rw [hlen12]; omega)]
    | false =>
      rw [if_neg (by simp), if_neg (by simp)]
      have hno : needed = 4 + (params.map List.length).sum := by
        rw [hneeded]
        simp
      rw [swrite_foldl params _ (by
        show (swrite (checkFlush b needed).1 (leBytes 4 key)).offset
            + (params.map List.length).sum
          ≤ (swrite (checkFlush b needed).1 (leBytes 4 key)).front.length
        unfold swrite
        dsimp only
        rw [hwm _ (by rw [hk4]; omega), hk4]
        omega)]
      rw [swrite_append _ _ _ (by rw [hk4]; omega)]
      rw [List.append_nil (leBytes 4 key)]
  rw [heq, hw]
  refine ⟨?_, ?_, ?_⟩
  · show (checkFlush b needed).2 = true ↔ b.offset + needed > b.size
    rw [hc2]
    exact ⟨of_decide_eq_true, decide_eq_true⟩
  · show (swrite (checkFlush b needed).1 _).offset = _
    unfold swrite
    rw [hpaylen, hc1offset]
  · show (swrite (checkFlush b needed).1 _).front = _
    unfold swrite writeMem
    rw [hpaylen, hc1front, hc1offset]

/-- Witness for C7: a buffer of size 16 at offset 10; an ordered message
with a 2-byte parameter needs 14 bytes, so the write flushes first and the
final offset is 14. -/
theorem streamMessage_spec_witness :
    (streamMessage true 7 3 [[1, 2]]
        ⟨16, List.replicate 16 0, 10, List.replicate 16 1, 0⟩).2 = true ∧
    (streamMessage true 7 3 [[1, 2]]
        ⟨16, List.replicate 16 0, 10, List.replicate 16 1, 0⟩).1.offset = 14 := by
  have h := streamMessage_spec true 7 3 [[1, 2]]
      ⟨16, List.replicate 16 0, 10, List.replicate 16 1, 0⟩
      (by decide) (by decide) (by decide) (by decide)
  refine ⟨h.1.mpr (by decide), ?_⟩
  rw [h.2.1]
  decide

/-! ### Claim C9: the filters

`Tree::traverse` walks the tree in pre-order; a per-node action decides
whether the filter function is applied (`Action::Apply`) and whether the
children are skipped (`Action::Terminate`). -/

/-- `Tree::Action` is a bitmask over `{Skip = 0, Apply = 1, Terminate = 2}`;
modelled as its two bits. -/
structure TAction where
  apply : Bool
  terminate : Bool

/-- The default action of the category/region/message filters:
`none(flags & Enabled) ? Action::Terminate : Action::Apply`. -/
def defaultAction (fl : Bool) : TAction :=
  if fl then ⟨true, false⟩ else ⟨false, true⟩

/-- The action argument as the filters pass it (it ignores the node). -/
def dAct : Bool → NTree → TAction := fun fl _ => defaultAction fl

mutual
/-- `Tree::traverse`, written recursively: read the node's flag, compute the
action, apply the function if `Apply`, then visit the children unless
`Terminate`. -/
def travVisit (f : Bool → NTree → Bool) (act : Bool → NTree → TAction) :
    NTree → List Bool → List Bool
  | .mk ty idx fc cat mh pr children, flags =>
    let flag := flags.getD idx false
    let a := act flag (NTree.mk ty idx fc cat mh pr children)
    let flags1 := if a.apply then flags.set idx (f flag (NTree.mk ty idx fc cat mh pr children))
      else flags
    if a.terminate then flags1 else travVisitList f act children flags1

def travVisitList (f : Bool → NTree → Bool) (act : Bool → NTree → TAction) :
    List NTree → List Bool → List Bool
  | [], flags => flags
  | c :: cs, flags => travVisitList f act cs (travVisit f act c flags)
end

mutual
/-- All arena indices in a subtree. -/
def idxSet : NTree → List Nat
  | .mk _ idx _ _ _ _ children => idx :: idxList children

def idxList : List NTree → List Nat
  | [] => []
  | c :: cs => idxSet c ++ idxList cs
end

/-- The loop of `Tree::filterStream`:
`nodes[i + 1] = f(nodes[i + 1], *(logNode.firstChild + i), i)` over the Log
root's children. -/
def filterStreamLoop (f : Bool → NTree → Nat → Bool) :
    List NTree → Nat → List Bool → List Bool
  | [], _, flags => flags
  | c :: cs, i, flags =>
    filterStreamLoop f cs (i + 1) (flags.set (i + 1) (f (flags.getD (i + 1) false) c i))

/-- `Tree::filterStream`: no traversal, just the loop over the root's
children. -/
def filterStream (f : Bool → NTree → Nat → Bool) (root : NTree) (flags : List Bool) :
    List Bool :=
  filterStreamLoop f root.children 0 flags

/-- `Tree::filterCategory` (default action): `f` on Message nodes'
categories, identity elsewhere. -/
def filterCategory (f : Bool → Nat → Bool) (root : NTree) (flags : List Bool) : List Bool :=
  travVisit (fun old n => if n.type = .message then f old n.category else old) dAct root flags

/-- `Tree::filterRegion` (default action): `f` on Region nodes, identity
elsewhere. -/
def filterRegion (f : Bool → NTree → Bool) (root : NTree) (flags : List Bool) : List Bool :=
  travVisit (fun old n => if n.type = .region then f old n else old) dAct root flags

/-- `FormatType::matches`: the query has the descriptor's length and agrees
pointwise up to the wildcard key `0`. -/
def ftMatches (params query : List Nat) : Bool :=
  query.length == params.length &&
    (List.range query.length).all
      (fun i => query.getD i 0 == 0 || query.getD i 0 == params.getD i 0)

/-- `Tree::filterMessageImpl` (default action): `f` on Message nodes whose
format descriptor matches hash, category and parameter query. -/
def filterMessage (messageHash category : Nat) (query : List Nat)
    (f : Bool → NTree → Bool) (root : NTree) (flags : List Bool) : List Bool :=
  travVisit
    (fun old n =>
      if n.type = .message ∧ n.category = category ∧ n.messageHash = messageHash ∧
          ftMatches n.params query = true then f old n
      else old)
    dAct root flags

mutual
theorem travVisit_length (f : Bool → NTree → Bool) (act : Bool → NTree → TAction)
    (t : NTree) (flags : List Bool) : (travVisit f act t flags).length = flags.length := by
  match t with
  | .mk ty idx fc cat mh pr children =>
    simp only [travVisit]
    split
    · split <;> simp
    · rw [travVisitList_length]
      split <;> simp

theorem travVisitList_length (f : Bool → NTree → Bool) (act : Bool → NTree → TAction)
    (ts : List NTree) (flags : List Bool) :
    (travVisitList f act ts flags).length = flags.length := by
  match ts with
  | [] => rfl
  | c :: cs =>
    rw [travVisitList, travVisitList_length, travVisit_length]
end

mutual
theorem travVisit_frame (f : Bool → NTree → Bool) (act : Bool → NTree → TAction)
    (t : NTree) (flags : List Bool) (m : Nat) (hm : m ∉ idxSet t) :
    (travVisit f act t flags)[m]? = flags[m]? := by
  match t with
  | .mk ty idx fc cat mh pr children =>
    rw [idxSet] at hm
    simp only [List.mem_cons, not_or] at hm
    simp only [travVisit]
    have hset : ∀ v : Bool,
        (if (act (flags.getD idx false) (NTree.mk ty idx fc cat mh pr children)).apply
          then flags.set idx v else flags)[m]? = flags[m]? := by
      intro v
      split
      · exact List.getElem?_set_ne (fun e => hm.1 e.symm)
      · rfl
    split
    · exact hset _
    · rw [travVisitList_frame f act children _ m hm.2]
      exact hset _

theorem travVisitList_frame (f : Bool → NTree → Bool) (act : Bool → NTree → TAction)
    (ts : List NTree) (flags : List Bool) (m : Nat) (hm : m ∉ idxList ts) :
    (travVisitList f act ts flags)[m]? = flags[m]? := by
  match ts with
  | [] => rfl
  | c :: cs =>
    rw [idxList] at hm
    simp only [List.mem_append, not_or] at hm
    rw [travVisitList, travVisitList_frame f act cs _ m hm.2,
      travVisit_frame f act c flags m hm.1]
end

mutual
theorem travVisit_congr (f : Bool → NTree → Bool) (act : Bool → NTree → TAction)
    (t : NTree) (fl fl' : List Bool) (hlen : fl.length = fl'.length)
    (h : ∀ m ∈ idxSet t, fl[m]? = fl'[m]?) :
    ∀ m ∈ idxSet t, (travVisit f act t fl)[m]? = (travVisit f act t fl')[m]? := by
  match t with
  | .mk ty idx fc cat mh pr children =>
    intro m hmem
    have hidx : fl[idx]? = fl'[idx]? := h idx (by rw [idxSet]; exact List.mem_cons_self _ _)
    have hflag : fl.getD idx false = fl'.getD idx false := by
      rw [List.getD_eq_getElem?_getD, List.getD_eq_getElem?_getD, hidx]
    simp only [travVisit, ← hflag]
    have hset : ∀ m ∈ idxSet (NTree.mk ty idx fc cat mh pr children),
        (if (act (fl.getD idx false) (NTree.mk ty idx fc cat mh pr children)).apply
            then fl.set idx (f (fl.getD idx false) (NTree.mk ty idx fc cat mh pr children))
            else fl)[m]?
          = (if (act (fl.getD idx false) (NTree.mk ty idx fc cat mh pr children)).apply
            then fl'.set idx (f (fl.getD idx false) (NTree.mk ty idx fc cat mh pr children))
            else fl')[m]? := by
      intro m' hm'
      split
      · by_cases hmi : m' = idx
        · subst hmi
          by_cases hlt : m' < fl.length
          · rw [List.getElem?_set_self hlt, List.getElem?_set_self (by omega)]
          · rw [List.set_eq_of_length_le (by omega), List.set_eq_of_length_le (by omega)]
            exact h m' hm'
        · rw [List.getElem?_set_ne (fun e => hmi e.symm),
            List.getElem?_set_ne (fun e => hmi e.symm)]
          exact h m' hm'
      · exact h m' hm'
    split
    · exact hset m hmem
    · rw [idxSet] at hmem
      have hlen1 : (if (act (fl.getD idx false) (NTree.mk ty idx fc cat mh pr children)).apply
          then fl.set idx (f (fl.getD idx false) (NTree.mk ty idx fc cat mh pr children))
          else fl).length
          = (if (act (fl.getD idx false) (NTree.mk ty idx fc cat mh pr children)).apply
          then fl'.set idx (f (fl.getD idx false) (NTree.mk ty idx fc cat mh pr children))
          else fl').length := by
        split <;> simp [hlen]
      rcases List.mem_cons.mp hmem with hmi | hmc
      · subst hmi
        by_cases hml : m ∈ idxList children
        · exact travVisitList_congr f act children _ _ hlen1
            (fun m' hm' => hset m' (by rw [idxSet]; exact List.mem_cons_of_mem _ hm')) m hml
        · rw [travVisitList_frame f act children _ m hml,
            travVisitList_frame f act children _ m hml]
          exact hset m (by rw [idxSet]; exact List.mem_cons_self _ _)
      · exact travVisitList_congr f act children _ _ hlen1
          (fun m' hm' => hset m' (by rw [idxSet]; exact List.mem_cons_of_mem _ hm')) m hmc

theorem travVisitList_congr (f : Bool → NTree → Bool) (act : Bool → NTree → TAction)
    (ts : List NTree) (fl fl' : List Bool) (hlen : fl.length = fl'.length)
    (h : ∀ m ∈ idxList ts, fl[m]? = fl'[m]?) :
    ∀ m ∈ idxList ts, (travVisitList f act ts fl)[m]? = (travVisitList f act ts fl')[m]? := by
  match ts with
  | [] => intro m hm; cases hm
  | c :: cs =>
    intro m hmem
    rw [idxList] at hmem
    simp only [travVisitList]
    have hAc : ∀ m' ∈ idxList cs, (travVisit f act c fl)[m']? = (travVisit f act c fl')[m']? := by
      intro m' hm'
      by_cases hmc : m' ∈ idxSet c
      · exact travVisit_congr f act c fl fl' hlen
          (fun q hq => h q (by rw [idxList]; exact List.mem_append_left _ hq)) m' hmc
      · rw [travVisit_frame f act c fl m' hmc, travVisit_frame f act c fl' m' hmc]
        exact h m' (by rw [idxList]; exact List.mem_append_right _ hm')
    have hlen1 : (travVisit f act c fl).length = (travVisit f act c fl').length := by
      rw [travVisit_length, travVisit_length, hlen]
    rcases List.mem_append.mp hmem with hmc | hml
    · by_cases hml' : m ∈ idxList cs
      · exact travVisitList_congr f act cs _ _ hlen1 hAc m hml'
      · rw [travVisitList_frame f act cs _ m hml', travVisitList_frame f act cs _ m hml']
        exact travVisit_congr f act c fl fl' hlen
          (fun q hq => h q (by rw [idxList]; exact List.mem_append_left _ hq)) m hmc
    · exact travVisitList_congr f act cs _ _ hlen1 hAc m hml
end

theorem dAct_false_apply (n : NTree) : (dAct false n).apply = false := rfl
theorem dAct_false_term (n : NTree) : (dAct false n).terminate = true := rfl
theorem dAct_true_apply (n : NTree) : (dAct true n).apply = true := rfl
theorem dAct_true_term (n : NTree) : (dAct true n).terminate = false := rfl

mutual
/-- With the default action and an idempotent per-node function, one
traversal is a fixed point of the next (distinct arena indices assumed). -/
theorem travD_idem (g : Bool → NTree → Bool) (hg : ∀ x n, g (g x n) n = g x n)
    (t : NTree) (fl : List Bool) (hnd : (idxSet t).Nodup) :
    travVisit g dAct t (travVisit g dAct t fl) = travVisit g dAct t fl := by
  match t with
  | .mk ty idx fc cat mh pr children =>
    rw [idxSet] at hnd
    obtain ⟨hidx, hnd'⟩ := List.nodup_cons.mp hnd
    cases hfl : fl.getD idx false with
    | false =>
      have h1 : travVisit g dAct (NTree.mk ty idx fc cat mh pr children) fl = fl := by
        simp only [travVisit, hfl]
        rw [dAct_false_term, if_pos rfl, dAct_false_apply, if_neg (by decide)]
      rw [h1]
      exact h1
    | true =>
      have hlt : idx < fl.length := by
        by_contra hge
        rw [getD_of_length_le fl idx false (by omega)] at hfl
        cases hfl
      set v := g true (NTree.mk ty idx fc cat mh pr children) with hv
      have h1 : travVisit g dAct (NTree.mk ty idx fc cat mh pr children) fl
          = travVisitList g dAct children (fl.set idx v) := by
        simp only [travVisit, hfl]
        rw [dAct_true_term, if_neg (by decide), dAct_true_apply, if_pos rfl, ← hv]
      set R := travVisitList g dAct children (fl.set idx v) with hR
      have hRidx : R.getD idx false = v := by
        rw [hR, List.getD_eq_getElem?_getD, travVisitList_frame g dAct children _ idx hidx,
          ← List.getD_eq_getElem?_getD, getD_set_self fl idx v false hlt]
      rw [h1]
      cases hvv : v with
      | false =>
        simp only [travVisit]
        rw [show R.getD idx false = false by rw [hRidx, hvv]]
        rw [dAct_false_term, if_pos rfl, dAct_false_apply, if_neg (by decide)]
      | true =>
        simp only [travVisit]
        rw [show R.getD idx false = true by rw [hRidx, hvv]]
        rw [dAct_true_term, if_neg (by decide), dAct_true_apply, if_pos rfl, ← hv]
        rw [set_of_getD R idx v false (by rw [hRidx])]
        rw [hR]
        exact travListD_idem g hg children (fl.set idx v) hnd'

theorem travListD_idem (g : Bool → NTree → Bool) (hg : ∀ x n, g (g x n) n = g x n)
    (ts : List NTree) (fl : List Bool) (hnd : (idxList ts).Nodup) :
    travVisitList g dAct ts (travVisitList g dAct ts fl) = travVisitList g dAct ts fl := by
  match ts with
  | [] => rfl
  | c :: cs =>
    rw [idxList] at hnd
    obtain ⟨hndc, hndcs, hdisj⟩ := List.nodup_append.mp hnd
    simp only [travVisitList]
    set A := travVisit g dAct c fl with hA
    set B := travVisitList g dAct cs A with hB
    have hcB : travVisit g dAct c B = B := by
      apply List.ext_getElem?
      intro m
      by_cases hmc : m ∈ idxSet c
      · have h1 : ∀ m' ∈ idxSet c, B[m']? = A[m']? := by
          intro m' hm'
          rw [hB]
          exact travVisitList_frame g dAct cs A m' (fun hc => hdisj hm' hc)
        have hup := travVisit_congr g dAct c B A
          (by rw [hB, travVisitList_length]) h1 m hmc
        rw [hup]
        have hAA : travVisit g dAct c A = A := by
          rw [hA]
          exact travD_idem g hg c fl hndc
        rw [hAA]
        exact (h1 m hmc).symm
      · exact travVisit_frame g dAct c B m hmc
    rw [hcB, hB]
    exact travListD_idem g hg cs A hndcs
end

theorem filterStreamLoop_length (f : Bool → NTree → Nat → Bool) :
    ∀ (cs : List NTree) (i : Nat) (fl : List Bool),
      (filterStreamLoop f cs i fl).length = fl.length := by
  intro cs
  induction cs with
  | nil => intro i fl; rfl
  | cons c cs ih =>
    intro i fl
    rw [filterStreamLoop, ih, List.length_set]

theorem filterStreamLoop_frame (f : Bool → NTree → Nat → Bool) :
    ∀ (cs : List NTree) (i : Nat) (fl : List Bool) (m : Nat), m ≤ i →
      (filterStreamLoop f cs i fl).getD m false = fl.getD m false := by
  intro cs
  induction cs with
  | nil => intro i fl m _; rfl
  | cons c cs ih =>
    intro i fl m hm
    rw [filterStreamLoop, ih (i + 1) _ m (by omega),
      getD_set_ne fl (i + 1) m _ false (by omega)]

theorem filterStreamLoop_idem (f : Bool → NTree → Nat → Bool)
    (hf : ∀ x n i, f (f x n i) n i = f x n i) :
    ∀ (cs : List NTree) (i : Nat) (fl : List Bool),
      filterStreamLoop f cs i (filterStreamLoop f cs i fl) = filterStreamLoop f cs i fl := by
  intro cs
  induction cs with
  | nil => intro i fl; rfl
  | cons c cs ih =>
    intro i fl
    simp only [filterStreamLoop]
    set old := fl.getD (i + 1) false with hold
    set v := f old c i with hv
    set fl1 := fl.set (i + 1) v with hfl1
    set R := filterStreamLoop f cs (i + 1) fl1 with hR
    have hX : R.getD (i + 1) false = fl1.getD (i + 1) false := by
      rw [hR]
      exact filterStreamLoop_frame f cs (i + 1) fl1 (i + 1) (le_refl _)
    by_cases hlt : i + 1 < fl.length
    · have h2 : fl1.getD (i + 1) false = v := by
        rw [hfl1]
        exact getD_set_self fl (i + 1) v false hlt
      have h3 : f (R.getD (i + 1) false) c i = v := by
        rw [hX, h2, hv]
        exact hf old c i
      rw [h3, set_of_getD R (i + 1) v false (by rw [hX, h2]), hR]
      exact ih (i + 1) fl1
    · have hfleq : fl1 = fl := by
        rw [hfl1]
        exact List.set_eq_of_length_le (by omega)
      have hRlen : R.length = fl.length := by
        rw [hR, filterStreamLoop_length, hfleq]
      have holdf : old = false := by
        rw [hold]
        exact getD_of_length_le fl (i + 1) false (by omega)
      have h3 : f (R.getD (i + 1) false) c i = v := by
        rw [hX, hfleq, getD_of_length_le fl (i + 1) false (by omega), hv, holdf]
      rw [h3, List.set_eq_of_length_le (by rw [hRlen]; omega), hR]
      exact ih (i + 1) fl1

/-- **C9 (counterexample to the claim as stated).** The claim quantifies
over every deterministic flag function; the deterministic toggle
`f(old) = !old` under `filterStream` applied twice does not equal one
application. -/
theorem Tree_filter_idem_counterexample :
    filterStream (fun old _ _ => !old) exLine5
        (filterStream (fun old _ _ => !old) exLine5 [true, true, true, true, true, true, true])
      ≠ filterStream (fun old _ _ => !old) exLine5 [true, true, true, true, true, true, true] := by
  decide

/-- **C9 (amended).** For every flag function `f` that is idempotent in its
flag argument (`f (f x …) … = f x …`), each filter with its default
traversal action applied twice yields the same flag array as applied once
(the traversal-based filters additionally assume the arena indices of the
tree are distinct, which holds of every analyzer-built arena). -/
theorem Tree_filter_idem :
    (∀ (f : Bool → NTree → Nat → Bool) (root : NTree) (flags : List Bool),
      (∀ x n i, f (f x n i) n i = f x n i) →
      filterStream f root (filterStream f root flags) = filterStream f root flags) ∧
    (∀ (f : Bool → Nat → Bool) (root : NTree) (flags : List Bool),
      (idxSet root).Nodup → (∀ x c, f (f x c) c = f x c) →
      filterCategory f root (filterCategory f root flags) = filterCategory f root flags) ∧
    (∀ (f : Bool → NTree → Bool) (root : NTree) (flags : List Bool),
      (idxSet root).Nodup → (∀ x n, f (f x n) n = f x n) →
      filterRegion f root (filterRegion f root flags) = filterRegion f root flags) ∧
    (∀ (mh cat : Nat) (query : List Nat) (f : Bool → NTree → Bool) (root : NTree)
        (flags : List Bool),
      (idxSet root).Nodup → (∀ x n, f (f x n) n = f x n) →
      filterMessage mh cat query f root (filterMessage mh cat query f root flags)
        = filterMessage mh cat query f root flags) := by
  refine ⟨?_, ?_, ?_, ?_⟩
  · intro f root flags hf
    exact filterStreamLoop_idem f hf root.children 0 flags
  · intro f root flags hnd hf
    refine travD_idem _ ?_ root flags hnd
    intro x n
    by_cases ht : n.type = NodeType.message
    · simp only [ht, if_pos]
      exact hf x n.category
    · simp only [ht, if_false, if_neg ht]
  · intro f root flags hnd hf
    refine travD_idem _ ?_ root flags hnd
    intro x n
    by_cases ht : n.type = NodeType.region
    · simp only [ht, if_pos]
      exact hf x n
    · simp only [ht, if_false, if_neg ht]
  · intro mh cat query f root flags hnd hf
    refine travD_idem _ ?_ root flags hnd
    intro x n
    by_cases ht : n.type = NodeType.message ∧ n.category = cat ∧ n.messageHash = mh ∧
        ftMatches n.params query = true
    · rw [if_pos ht, if_pos ht]
      exact hf x n
    · rw [if_neg ht, if_neg ht]

/-- Witness for C9 (amended) at a concrete tree, flag state and idempotent
function. -/
theorem Tree_filter_idem_witness :
    ((∀ (x : Bool) (n : NTree) (i : Nat), (fun (o : Bool) (_ : NTree) (_ : Nat) => o)
        ((fun (o : Bool) (_ : NTree) (_ : Nat) => o) x n i) n i
        = (fun (o : Bool) (_ : NTree) (_ : Nat) => o) x n i) ∧
      filterStream (fun o _ _ => o) exLine5
          (filterStream (fun o _ _ => o) exLine5 [true, false, true, false, true, false, true])
        = filterStream (fun o _ _ => o) exLine5 [true, false, true, false, true, false, true]) ∧
    ((idxSet exLine5).Nodup ∧
      filterCategory (fun _ _ => false) exLine5
          (filterCategory (fun _ _ => false) exLine5 [true, true, true, true, true, true, true])
        = filterCategory (fun _ _ => false) exLine5 [true, true, true, true, true, true, true]) :=
  ⟨⟨fun _ _ _ => rfl,
      Tree_filter_idem.1 (fun o _ _ => o) exLine5 _ (fun _ _ _ => rfl)⟩,
    ⟨by decide,
      Tree_filter_idem.2.1 (fun _ _ => false) exLine5 _ (by decide) (fun _ _ => rfl)⟩⟩

/-- Witness for C8 at concrete trees. -/
theorem Tree_combine_spec_witness :
    (TreeState.mk 1 [true, false]).analyzer = (TreeState.mk 1 [false, true]).analyzer ∧
    (TreeState.mk 1 [true, false]).nodes.length = (TreeState.mk 1 [false, true]).nodes.length ∧
    ∃ a' b', Tree.orEq (TreeState.mk 1 [true, false]) (TreeState.mk 1 [false, true]) = .ok a' ∧
      Tree.andEq (TreeState.mk 1 [true, false]) (TreeState.mk 1 [false, true]) = .ok b' ∧
      a'.analyzer = 1 ∧ b'.analyzer = 1 ∧
      a'.nodes.length = 2 ∧ b'.nodes.length = 2 ∧
      (∀ i, i < 2 →
        (a'.nodes.getD i false
          = ((TreeState.mk 1 [true, false]).nodes.getD i false
              || (TreeState.mk 1 [false, true]).nodes.getD i false)) ∧
        (b'.nodes.getD i false
          = ((TreeState.mk 1 [true, false]).nodes.getD i false
              && (TreeState.mk 1 [false, true]).nodes.getD i false))) :=
  ⟨rfl, rfl, Tree_combine_spec.2.1 (TreeState.mk 1 [true, false]) (TreeState.mk 1 [false, true])
    rfl rfl⟩

/-! ### Claim C3: `Log::~Log` drains the buffers in order

The destructor joins both background threads first; what remains is a
single-threaded epilogue over the state those threads left behind.  We model
that state and the epilogue's sequence of file operations. -/

/-- A stream as the destructor sees it: its u64 `index` and its double
buffer (front with `offset` pending bytes, back with `used` flushed
bytes). -/
structure StreamObj where
  index : Nat
  buffer : SBuf
deriving Repr, DecidableEq

/-- The log state after both threads are joined: the global front buffer
with its offset, the Consolidator's remaining `streams.queue` (pointers,
modelled by value since the epilogue only reads), and `streams.streams`
in creation order. -/
structure LogState where
  bufferFront : List Nat
  bufferOffset : Nat
  queue : List StreamObj
  streams : List StreamObj

/-- One file operation of the epilogue. -/
inductive LogEvent where
  | write (bs : List Nat)
  | closeFile
  | writeFormats
deriving Repr, DecidableEq

/-- `Log::~Log` after the two `join()`s, line by line: write
`buffer.front[0..buffer.offset)`; for each queued stream with
`buffer.used > 0` write its index, `used`, and `used` bytes of its back
buffer; for each stream with `buffer.offset > 0` write its index,
`offset`, and `offset` bytes of its front buffer; close the file; write
the format sidecar. -/
def logDestructor (st : LogState) : List LogEvent :=
  [LogEvent.write (st.bufferFront.take st.bufferOffset)]
  ++ (st.queue.flatMap fun s =>
        if 0 < s.buffer.used then
          [LogEvent.write (leBytes 8 s.index),
           LogEvent.write (leBytes 8 s.buffer.used),
           LogEvent.write (s.buffer.back.take s.buffer.used)]
        else [])
  ++ (st.streams.flatMap fun s =>
        if 0 < s.buffer.offset then
          [LogEvent.write (leBytes 8 s.index),
           LogEvent.write (leBytes 8 s.buffer.offset),
           LogEvent.write (s.buffer.front.take s.buffer.offset)]
        else [])
  ++ [LogEvent.closeFile, LogEvent.writeFormats]

/-- The byte sequence the claim says is appended, written from its words:
global front prefix, then per queued stream with a nonempty back buffer
the block `index · used · bytes` in queue order, then per stream with a
nonempty front buffer the block `index · offset · bytes` in creation
order. -/
def drainSpecBytes (st : LogState) : List Nat :=
  st.bufferFront.take st.bufferOffset
  ++ (st.queue.map fun s =>
        if 0 < s.buffer.used then
          leBytes 8 s.index ++ leBytes 8 s.buffer.used
            ++ s.buffer.back.take s.buffer.used
        else []).flatten
  ++ (st.streams.map fun s =>
        if 0 < s.buffer.offset then
          leBytes 8 s.index ++ leBytes 8 s.buffer.offset
            ++ s.buffer.front.take s.buffer.offset
        else []).flatten

theorem flatten_writes (f1 f2 f3 : StreamObj → List Nat)
    (c : StreamObj → Prop) [DecidablePred c] (l : List StreamObj) :
    ∃ ws : List (List Nat),
      (l.flatMap fun s =>
          if c s then
            [LogEvent.write (f1 s), LogEvent.write (f2 s), LogEvent.write (f3 s)]
          else [])
        = ws.map LogEvent.write ∧
      ws.flatten
        = (l.map fun s => if c s then f1 s ++ f2 s ++ f3 s else []).flatten := by
  induction l with
  | nil => exact ⟨[], rfl, rfl⟩
  | cons s l ih =>
    obtain ⟨ws, hmap, hflat⟩ := ih
    by_cases hc : c s
    · refine ⟨f1 s :: f2 s :: f3 s :: ws, ?_, ?_⟩
      · rw [List.flatMap_cons, if_pos hc, hmap]
        rfl
      · rw [List.map_cons, if_pos hc, List.flatten_cons, List.flatten_cons,
          List.flatten_cons, List.flatten_cons, hflat, List.append_assoc,
          List.append_assoc]
    · refine ⟨ws, ?_, ?_⟩
      · rw [List.flatMap_cons, if_neg hc, List.nil_append, hmap]
      · rw [hflat, List.map_cons, if_neg hc, List.flatten_cons, List.nil_append]

/-- **C3.** After both threads are joined, the destructor's file
operations are a sequence of writes, then a close, then the sidecar
write, and the bytes written are exactly: the global front buffer's first
`offset` bytes, then the `index · used · back-bytes` blocks of the queued
streams with `used > 0` in queue order, then the `index · offset ·
front-bytes` blocks of the streams with `offset > 0` in creation
order. -/
theorem Log_dtor_drain (st : LogState) :
    ∃ ws : List (List Nat),
      logDestructor st
        = ws.map LogEvent.write ++ [LogEvent.closeFile, LogEvent.writeFormats] ∧
      ws.flatten = drainSpecBytes st := by
  obtain ⟨qs, hq, hqf⟩ := flatten_writes
    (fun s => leBytes 8 s.index) (fun s => leBytes 8 s.buffer.used)
    (fun s => s.buffer.back.take s.buffer.used)
    (fun s => 0 < s.buffer.used) st.queue
  obtain ⟨fs, hf, hff⟩ := flatten_writes
    (fun s => leBytes 8 s.index) (fun s => leBytes 8 s.buffer.offset)
    (fun s => s.buffer.front.take s.buffer.offset)
    (fun s => 0 < s.buffer.offset) st.streams
  refine ⟨st.bufferFront.take st.bufferOffset :: (qs ++ fs), ?_, ?_⟩
  · simp only [List.map_cons, List.map_append]
    rw [← hq, ← hf]
    rfl
  · show st.bufferFront.take st.bufferOffset ++ (qs ++ fs).flatten = _
    rw [List.flatten_append, hqf, hff, ← List.append_assoc]
    rfl

/-! ## `Analyzer::readLogFile` (claims C1, C6, C10)

The log file is a sequence of blocks `<streamIndex: u64><blockSize: u64>
<blockSize bytes>`; block bytes are a sequence of messages, each starting
with a u32 `MessageKey`.  Keys 0, 1, 2 are the reserved
`MessageTypes::AnonymousRegionStart`, `NamedRegionStart` and `RegionEnd`;
any other key is a message whose payload size comes from the format map.
`readLogFile` makes two passes over the data: pass 1 counts children per
group (stream or region) into `groupNodes`, pass 2 materializes the node
arena.  The boundary checks (`assert(pos == blockEnd)`,
`assert(pos == data.end())`) and the named-region key check are `assert`s:
the `checked` flag makes them checks (debug); with `checked = false`
(release, `NDEBUG`) they are skipped.  Reads past the end of the data,
dereferencing the `find` result of an absent message key, and
out-of-range indexing are undefined behaviour in C++ and are modelled as
faults in both modes. -/

/-- `MessageTypes::AnonymousRegionStart`. -/
def AnonymousRegionStart : Nat := 0

/-- `MessageTypes::NamedRegionStart`. -/
def NamedRegionStart : Nat := 1

/-- `MessageTypes::RegionEnd`. -/
def RegionEnd : Nat := 2

/-- Read a `w`-byte little-endian value at byte offset `pos` of `data`
(`reinterpret_cast<T&>(*pos)`); `none` models a read past the end. -/
def readAt (w : Nat) (data : List Nat) (pos : Nat) : Option Nat :=
  (readLE w (data.drop pos)).map Prod.fst

theorem readAt_of_drop {w v pos : Nat} {data rest : List Nat}
    (h : data.drop pos = leBytes w v ++ rest) (hv : v < 2 ^ (8 * w)) :
    readAt w data pos = some v := by
  unfold readAt
  rw [h, readLE_leBytes_of_lt rest hv]
  rfl

theorem drop_add_of_drop {w pos : Nat} {data xs rest : List Nat}
    (h : data.drop pos = xs ++ rest) (hw : xs.length = w) :
    data.drop (pos + w) = rest := by
  rw [← List.drop_drop, h, ← hw, List.drop_left]

/-- Pass 1's per-group bookkeeping record (anonymous `struct GroupNode`). -/
structure GroupNode where
  key : Nat
  index : Nat
  parent : Nat
  groupChildCount : Nat
  messageChildCount : Nat
deriving Repr, DecidableEq

instance : Inhabited GroupNode := ⟨⟨0, 0, 0, 0, 0⟩⟩

/-- The state of pass 1: `groupNodes`, the running message and region
counts, and the per-stream `activeParentNode` (indices into
`groupNodes`). -/
structure P1State where
  groupNodes : List GroupNode
  messageCount : Nat
  regionCount : Nat
  activeParentNode : List Nat
deriving Repr, DecidableEq

/-- The faults of `readLogFile`, as modelled: `oob` (read or write past a
buffer, UB), `unknownKey` (dereferencing `formatTypes.find` at `end()`,
UB; for a named region, the `assert`), `streamIndex` (stream index out of
range of `activeParentNode`, UB), and the two cursor `assert`s
(`blockCursor`, `fileCursor`), which fire only when `checked`. -/
inductive PErr where
  | oob
  | unknownKey
  | streamIndex
  | blockCursor
  | fileCursor
deriving Repr, DecidableEq

/-- Pass 1 over one block (`while (pos < blockEnd)`): count a group child
and append a group node on a region start, pop to the parent group on a
region end, and count a message child (skipping its payload and optional
ordering index) otherwise.  `s` is the block's stream index, `p` the
current parent group (`parentNode`). -/
def processBlock1 (checked : Bool) (fmts : List (Nat × Nat)) (order : Bool)
    (data : List Nat) (blockEnd s : Nat) (pos : Nat) (st : P1State) (p : Nat) :
    Except PErr (Nat × P1State) :=
  if hlt : pos < blockEnd then
    match readAt 4 data pos with
    | none => .error .oob
    | some key =>
      if key = AnonymousRegionStart then
        let gn := st.groupNodes.getD p default
        let gs := st.groupNodes.set p
          ⟨gn.key, gn.index, gn.parent, gn.groupChildCount + 1, gn.messageChildCount⟩
        let newIndex := gs.length
        processBlock1 checked fmts order data blockEnd s (pos + 4)
          ⟨gs ++ [⟨0, newIndex, gn.index, 0, 0⟩], st.messageCount, st.regionCount + 1,
            st.activeParentNode.set s newIndex⟩ newIndex
      else if key = NamedRegionStart then
        match readAt 4 data (pos + 4) with
        | none => .error .oob
        | some key2 =>
          if checked ∧ (alookup fmts key2).isNone then .error .unknownKey
          else
            let gn := st.groupNodes.getD p default
            let gs := st.groupNodes.set p
              ⟨gn.key, gn.index, gn.parent, gn.groupChildCount + 1, gn.messageChildCount⟩
            let newIndex := gs.length
            processBlock1 checked fmts order data blockEnd s (pos + 8)
              ⟨gs ++ [⟨key2, newIndex, gn.index, 0, 0⟩], st.messageCount,
                st.regionCount + 1, st.activeParentNode.set s newIndex⟩ newIndex
      else if key = RegionEnd then
        let p2 := (st.groupNodes.getD p default).parent
        processBlock1 checked fmts order data blockEnd s (pos + 4)
          ⟨st.groupNodes, st.messageCount, st.regionCount,
            st.activeParentNode.set s ((st.groupNodes.getD p2 default).index)⟩ p2
      else
        match alookup fmts key with
        | none => .error .unknownKey
        | some messageSize =>
          let gn := st.groupNodes.getD p default
          processBlock1 checked fmts order data blockEnd s
            (pos + 4 + messageSize + (if order then 8 else 0))
            ⟨st.groupNodes.set p
                ⟨gn.key, gn.index, gn.parent, gn.groupChildCount,
                  gn.messageChildCount + 1⟩,
              st.messageCount + 1, st.regionCount, st.activeParentNode⟩ p
  else
    if checked ∧ pos ≠ blockEnd then .error .blockCursor else .ok (pos, st)
termination_by blockEnd - pos
decreasing_by all_goals omega

theorem processBlock1_le (checked : Bool) (fmts : List (Nat × Nat)) (order : Bool)
    (data : List Nat) (blockEnd s : Nat) : ∀ pos st p pos' st',
    processBlock1 checked fmts order data blockEnd s pos st p = .ok (pos', st') →
    pos ≤ pos' := by
  suffices main : ∀ n pos, blockEnd - pos = n → ∀ (st : P1State) (p pos' : Nat) (st' : P1State),
      processBlock1 checked fmts order data blockEnd s pos st p = .ok (pos', st') →
      pos ≤ pos' by
    intro pos st p pos' st' h
    exact main (blockEnd - pos) pos rfl st p pos' st' h
  intro n
  induction n using Nat.strong_induction_on with
  | _ n ih =>
  intro pos hn st p pos' st' h
  unfold processBlock1 at h
  by_cases hlt : pos < blockEnd
  · rw [dif_pos hlt] at h
    cases hk : readAt 4 data pos with
    | none => rw [hk] at h; simp at h
    | some key =>
      rw [hk] at h
      dsimp only at h
      by_cases h0 : key = AnonymousRegionStart
      · rw [if_pos h0] at h
        have := ih (blockEnd - (pos + 4)) (by omega) (pos + 4) rfl _ _ _ _ h
        omega
      · rw [if_neg h0] at h
        by_cases h1 : key = NamedRegionStart
        · rw [if_pos h1] at h
          cases hk2 : readAt 4 data (pos + 4) with
          | none => rw [hk2] at h; simp at h
          | some key2 =>
            rw [hk2] at h
            dsimp only at h
            by_cases hck : checked ∧ (alookup fmts key2).isNone
            · rw [if_pos hck] at h; simp at h
            · rw [if_neg hck] at h
              have := ih (blockEnd - (pos + 8)) (by omega) (pos + 8) rfl _ _ _ _ h
              omega
        · rw [if_neg h1] at h
          by_cases h2 : key = RegionEnd
          · rw [if_pos h2] at h
            have := ih (blockEnd - (pos + 4)) (by omega) (pos + 4) rfl _ _ _ _ h
            omega
          · rw [if_neg h2] at h
            cases hm : alookup fmts key with
            | none => rw [hm] at h; simp at h
            | some messageSize =>
              rw [hm] at h
              dsimp only at h
              have := ih (blockEnd - (pos + 4 + messageSize + (if order then 8 else 0)))
                (by omega) (pos + 4 + messageSize + (if order then 8 else 0)) rfl _ _ _ _ h
              omega
  · rw [dif_neg hlt] at h
    by_cases hc : checked ∧ pos ≠ blockEnd
    · rw [if_pos hc] at h; exact absurd h (by simp)
    · rw [if_neg hc] at h
      simp only [Except.ok.injEq, Prod.mk.injEq] at h
      omega

/-- Pass 1 over the whole file (`while (pos < data.end())`): read the
block header, look up the stream's active parent group, process the
block, and continue at the resulting cursor. -/
def processLog1 (checked : Bool) (fmts : List (Nat × Nat)) (order : Bool)
    (data : List Nat) (pos : Nat) (st : P1State) : Except PErr P1State :=
  if hlt : pos < data.length then
    match readAt 8 data pos with
    | none => .error .oob
    | some streamIndex =>
      match readAt 8 data (pos + 8) with
      | none => .error .oob
      | some blockSize =>
        if streamIndex < st.activeParentNode.length then
          match h : processBlock1 checked fmts order data (pos + 16 + blockSize)
              streamIndex (pos + 16) st (st.activeParentNode.getD streamIndex 0) with
          | .error e => .error e
          | .ok (pos', st') => processLog1 checked fmts order data pos' st'
        else .error .streamIndex
  else
    if checked ∧ pos ≠ data.length then .error .fileCursor else .ok st
termination_by data.length - pos
decreasing_by
  have := processBlock1_le checked fmts order data (pos + 16 + blockSize)
    streamIndex (pos + 16) st (st.activeParentNode.getD streamIndex 0) pos' st' h
  omega


/-- A node of the arena (`analyze/node.h` `struct Node`), with pointers
modelled as arena indices / byte offsets: `formatType` as the message
key, `parent`/`firstChild` as arena indices, `data` as a byte offset
into the log data.  `initCount` is a ghost counter of how many times the
slot was initialized by pass 2 (or by the root/stream setup); a
default-constructed node has `initCount = 0`. -/
structure NodeV where
  type : NodeType
  formatType : Option Nat
  index : Nat
  parent : Option Nat
  firstChild : Option Nat
  childCount : Nat
  data : Option Nat
  initCount : Nat
deriving Repr, DecidableEq

instance : Inhabited NodeV := ⟨⟨.log, none, 0, none, none, 0, none, 0⟩⟩

/-- The state of pass 2: the node arena, the cursor into `groupNodes`
(`nextGroupIndex`), the arena allocation cursor (`nextIndex`), and the
per-stream active parent (arena indices). -/
structure P2State where
  nodes : List NodeV
  nextGroupIndex : Nat
  nextIndex : Nat
  activeParentNode : List Nat
deriving Repr, DecidableEq

/-- The body of the stream-node initialization loop: set type and parent,
and when the stream's group has children, assign `firstChild = nextIndex`
and advance `nextIndex` by the child count. -/
def initStream (G : List GroupNode) (acc : List NodeV × Nat) (i : Nat) :
    List NodeV × Nat :=
  let c := (G.getD i default).groupChildCount + (G.getD i default).messageChildCount
  let n0 := acc.1.getD (i + 1) default
  (acc.1.set (i + 1)
      ⟨.stream, n0.formatType, n0.index, some 0,
        if c ≠ 0 then some acc.2 else n0.firstChild, n0.childCount, n0.data,
        n0.initCount + 1⟩,
    if c ≠ 0 then acc.2 + c else acc.2)

/-- `nodes.resize(1 + streamCount + regionCount + messageCount)`, root
initialization (`type = Log`, `firstChild = &nodes[1]`,
`childCount = streamCount`) and the stream-node loop; returns the arena
and the final `nextIndex`. -/
def setupNodes (sc regionCount messageCount : Nat) (G : List GroupNode) :
    List NodeV × Nat :=
  let nodes0 := List.replicate (1 + sc + regionCount + messageCount)
    (default : NodeV)
  let r0 := nodes0.getD 0 default
  let nodes1 := nodes0.set 0
    ⟨.log, r0.formatType, r0.index, r0.parent, some 1, sc, r0.data,
      r0.initCount + 1⟩
  (List.range sc).foldl (initStream G) (nodes1, 1 + sc)

/-- Pass 2 over one block: materialize a region node at
`parentNode->firstChild + parentNode->childCount++` on a region start
(reading the matching group's final child count through
`groupNodes[nextGroupIndex++]` to place its own `firstChild`), pop to the
parent node on a region end, and materialize a message node otherwise.
A null `firstChild`, a slot or group cursor out of range, and a null
parent on a region end dereference invalid pointers in the C++ and are
faults. -/
def processBlock2 (checked : Bool) (fmts : List (Nat × Nat)) (order : Bool)
    (data : List Nat) (G : List GroupNode) (blockEnd s : Nat) (pos : Nat)
    (st : P2State) (p : Nat) : Except PErr (Nat × P2State) :=
  if hlt : pos < blockEnd then
    match readAt 4 data pos with
    | none => .error .oob
    | some key =>
      if key = AnonymousRegionStart then
        let pn := st.nodes.getD p default
        match pn.firstChild with
        | none => .error .oob
        | some fc =>
          let slot := fc + pn.childCount
          if slot < st.nodes.length ∧ st.nextGroupIndex < G.length then
            let nodes1 := st.nodes.set p
              ⟨pn.type, pn.formatType, pn.index, pn.parent, pn.firstChild,
                pn.childCount + 1, pn.data, pn.initCount⟩
            let n0 := nodes1.getD slot default
            let gn := G.getD st.nextGroupIndex default
            let total := gn.groupChildCount + gn.messageChildCount
            let nodes2 := nodes1.set slot
              ⟨.region, n0.formatType, n0.index, some p,
                if 0 < total then some st.nextIndex else n0.firstChild,
                n0.childCount, n0.data, n0.initCount + 1⟩
            processBlock2 checked fmts order data G blockEnd s (pos + 4)
              ⟨nodes2, st.nextGroupIndex + 1,
                if 0 < total then st.nextIndex + total else st.nextIndex,
                st.activeParentNode.set s slot⟩ slot
          else .error .oob
      else if key = NamedRegionStart then
        match readAt 4 data (pos + 4) with
        | none => .error .oob
        | some key2 =>
          match alookup fmts key2 with
          | none => .error .unknownKey
          | some _ =>
            let pn := st.nodes.getD p default
            match pn.firstChild with
            | none => .error .oob
            | some fc =>
              let slot := fc + pn.childCount
              if slot < st.nodes.length ∧ st.nextGroupIndex < G.length then
                let nodes1 := st.nodes.set p
                  ⟨pn.type, pn.formatType, pn.index, pn.parent, pn.firstChild,
                    pn.childCount + 1, pn.data, pn.initCount⟩
                let n0 := nodes1.getD slot default
                let gn := G.getD st.nextGroupIndex default
                let total := gn.groupChildCount + gn.messageChildCount
                let nodes2 := nodes1.set slot
                  ⟨.region, some key2, n0.index, some p,
                    if 0 < total then some st.nextIndex else n0.firstChild,
                    n0.childCount, n0.data, n0.initCount + 1⟩
                processBlock2 checked fmts order data G blockEnd s (pos + 8)
                  ⟨nodes2, st.nextGroupIndex + 1,
                    if 0 < total then st.nextIndex + total else st.nextIndex,
                    st.activeParentNode.set s slot⟩ slot
              else .error .oob
      else if key = RegionEnd then
        match (st.nodes.getD p default).parent with
        | none => .error .oob
        | some pp =>
          processBlock2 checked fmts order data G blockEnd s (pos + 4)
            ⟨st.nodes, st.nextGroupIndex, st.nextIndex,
              st.activeParentNode.set s pp⟩ pp
      else
        match alookup fmts key with
        | none => .error .unknownKey
        | some messageSize =>
          let pn := st.nodes.getD p default
          match pn.firstChild with
          | none => .error .oob
          | some fc =>
            let slot := fc + pn.childCount
            if slot < st.nodes.length then
              let nodes1 := st.nodes.set p
                ⟨pn.type, pn.formatType, pn.index, pn.parent, pn.firstChild,
                  pn.childCount + 1, pn.data, pn.initCount⟩
              let n0 := nodes1.getD slot default
              match (if order then readAt 8 data (pos + 4) else some n0.index) with
              | none => .error .oob
              | some idx =>
                let pos2 := pos + 4 + (if order then 8 else 0)
                let nodes2 := nodes1.set slot
                  ⟨.message, some key, idx, some p, n0.firstChild, n0.childCount,
                    if 0 < messageSize then some pos2 else n0.data,
                    n0.initCount + 1⟩
                processBlock2 checked fmts order data G blockEnd s
                  (pos2 + messageSize)
                  ⟨nodes2, st.nextGroupIndex, st.nextIndex, st.activeParentNode⟩ p
            else .error .oob
  else
    if checked ∧ pos ≠ blockEnd then .error .blockCursor else .ok (pos, st)
termination_by blockEnd - pos
decreasing_by all_goals omega

theorem processBlock2_le (checked : Bool) (fmts : List (Nat × Nat)) (order : Bool)
    (data : List Nat) (G : List GroupNode) (blockEnd s : Nat) : ∀ pos st p pos' st',
    processBlock2 checked fmts order data G blockEnd s pos st p = .ok (pos', st') →
    pos ≤ pos' := by
  suffices main : ∀ n pos, blockEnd - pos = n →
      ∀ (st : P2State) (p pos' : Nat) (st' : P2State),
      processBlock2 checked fmts order data G blockEnd s pos st p = .ok (pos', st') →
      pos ≤ pos' by
    intro pos st p pos' st' h
    exact main (blockEnd - pos) pos rfl st p pos' st' h
  intro n
  induction n using Nat.strong_induction_on with
  | _ n ih =>
  intro pos hn st p pos' st' h
  unfold processBlock2 at h
  by_cases hlt : pos < blockEnd
  · rw [dif_pos hlt] at h
    cases hk : readAt 4 data pos with
    | none => rw [hk] at h; simp at h
    | some key =>
      rw [hk] at h
      dsimp only at h
      by_cases h0 : key = AnonymousRegionStart
      · rw [if_pos h0] at h
        cases hfc : (st.nodes.getD p default).firstChild with
        | none => rw [hfc] at h; simp at h
        | some fc =>
          rw [hfc] at h
          dsimp only at h
          by_cases hb : fc + (st.nodes.getD p default).childCount < st.nodes.length
              ∧ st.nextGroupIndex < G.length
          · rw [if_pos hb] at h
            have := ih (blockEnd - (pos + 4)) (by omega) (pos + 4) rfl _ _ _ _ h
            omega
          · rw [if_neg hb] at h; simp at h
      · rw [if_neg h0] at h
        by_cases h1 : key = NamedRegionStart
        · rw [if_pos h1] at h
          cases hk2 : readAt 4 data (pos + 4) with
          | none => rw [hk2] at h; simp at h
          | some key2 =>
            rw [hk2] at h
            dsimp only at h
            cases hfm : alookup fmts key2 with
            | none => rw [hfm] at h; simp at h
            | some sz =>
              rw [hfm] at h
              dsimp only at h
              cases hfc : (st.nodes.getD p default).firstChild with
              | none => rw [hfc] at h; simp at h
              | some fc =>
                rw [hfc] at h
                dsimp only at h
                by_cases hb : fc + (st.nodes.getD p default).childCount < st.nodes.length
                    ∧ st.nextGroupIndex < G.length
                · rw [if_pos hb] at h
                  have := ih (blockEnd - (pos + 8)) (by omega) (pos + 8) rfl _ _ _ _ h
                  omega
                · rw [if_neg hb] at h; simp at h
        · rw [if_neg h1] at h
          by_cases h2 : key = RegionEnd
          · rw [if_pos h2] at h
            cases hpp : (st.nodes.getD p default).parent with
            | none => rw [hpp] at h; simp at h
            | some pp =>
              rw [hpp] at h
              dsimp only at h
              have := ih (blockEnd - (pos + 4)) (by omega) (pos + 4) rfl _ _ _ _ h
              omega
          · rw [if_neg h2] at h
            cases hm : alookup fmts key with
            | none => rw [hm] at h; simp at h
            | some messageSize =>
              rw [hm] at h
              dsimp only at h
              cases hfc : (st.nodes.getD p default).firstChild with
              | none => rw [hfc] at h; simp at h
              | some fc =>
                rw [hfc] at h
                dsimp only at h
                by_cases hb : fc + (st.nodes.getD p default).childCount < st.nodes.length
                · rw [if_pos hb] at h
                  split at h
                  · simp at h
                  · have := ih (blockEnd - (pos + 4 + (if order = true then 8 else 0) + messageSize))
                      (by omega) (pos + 4 + (if order = true then 8 else 0) + messageSize)
                      rfl _ _ _ _ h
                    omega
                · rw [if_neg hb] at h; simp at h
  · rw [dif_neg hlt] at h
    by_cases hc : checked ∧ pos ≠ blockEnd
    · rw [if_pos hc] at h; simp at h
    · rw [if_neg hc] at h
      simp only [Except.ok.injEq, Prod.mk.injEq] at h
      omega

/-- Pass 2 over the whole file. -/
def processLog2 (checked : Bool) (fmts : List (Nat × Nat)) (order : Bool)
    (data : List Nat) (G : List GroupNode) (pos : Nat) (st : P2State) :
    Except PErr P2State :=
  if hlt : pos < data.length then
    match readAt 8 data pos with
    | none => .error .oob
    | some streamIndex =>
      match readAt 8 data (pos + 8) with
      | none => .error .oob
      | some blockSize =>
        if streamIndex < st.activeParentNode.length then
          match h : processBlock2 checked fmts order data G (pos + 16 + blockSize)
              streamIndex (pos + 16) st (st.activeParentNode.getD streamIndex 0) with
          | .error e => .error e
          | .ok (pos', st') => processLog2 checked fmts order data G pos' st'
        else .error .streamIndex
  else
    if checked ∧ pos ≠ data.length then .error .fileCursor else .ok st
termination_by data.length - pos
decreasing_by
  have := processBlock2_le checked fmts order data G (pos + 16 + blockSize)
    streamIndex (pos + 16) st (st.activeParentNode.getD streamIndex 0) pos' st' h
  omega

/-- `Analyzer::readLogFile`: pass 1 from fresh per-stream group nodes,
arena allocation and root/stream setup, then pass 2 from the stream
nodes. -/
def readLogFile (checked : Bool) (sc : Nat) (fmts : List (Nat × Nat))
    (order : Bool) (data : List Nat) : Except PErr (List NodeV) :=
  match processLog1 checked fmts order data 0
      ⟨(List.range sc).map (fun i => ⟨0, i, 0, 0, 0⟩), 0, 0, List.range sc⟩ with
  | .error e => .error e
  | .ok st1 =>
    let np := setupNodes sc st1.regionCount st1.messageCount st1.groupNodes
    match processLog2 checked fmts order data st1.groupNodes 0
        ⟨np.1, sc, np.2, (List.range sc).map (· + 1)⟩ with
    | .error e => .error e
    | .ok st2 => .ok st2.nodes

/-- `Analyzer::getStreamCount`: `nodes[0].childCount`, with the
out-of-bounds access on an empty arena surfaced as `none`. -/
def getStreamCount (nodes : List NodeV) : Option Nat :=
  if 0 < nodes.length then some (nodes.getD 0 default).childCount else none


/-! ### Structured logs

A well-formed log file is the encoding of a list of blocks, each a stream
index with a list of messages, exactly as the `Log`/`Stream` writer
produces them (claim C7 / C3): region markers are the reserved u32 keys,
a message is its u32 key, the optional u64 ordering index, and its
payload bytes. -/

/-- One message of a block. -/
inductive Msg where
  | anonStart
  | namedStart (key : Nat)
  | regionEnd
  | message (key ord : Nat) (payload : List Nat)
deriving Repr, DecidableEq

/-- The bytes of one message. -/
def encodeMsg (order : Bool) : Msg → List Nat
  | .anonStart => leBytes 4 AnonymousRegionStart
  | .namedStart k => leBytes 4 NamedRegionStart ++ leBytes 4 k
  | .regionEnd => leBytes 4 RegionEnd
  | .message k ord payload =>
      leBytes 4 k ++ (if order then leBytes 8 ord else []) ++ payload

def encodeMsgs (order : Bool) (msgs : List Msg) : List Nat :=
  (msgs.map (encodeMsg order)).flatten

/-- One block as flushed by the `Log` writer thread: stream index and
used byte count as u64, then the bytes. -/
structure Block where
  stream : Nat
  msgs : List Msg
deriving Repr, DecidableEq

def encodeBlock (order : Bool) (b : Block) : List Nat :=
  leBytes 8 b.stream ++ leBytes 8 (encodeMsgs order b.msgs).length
    ++ encodeMsgs order b.msgs

def encodeLog (order : Bool) (blocks : List Block) : List Nat :=
  (blocks.map (encodeBlock order)).flatten

/-- A message is well formed w.r.t. the format map: named-region and
message keys fit in a u32 and are registered, message keys avoid the
three reserved values, and the payload length is the format's
`messageSize`. -/
def WfMsg (fmts : List (Nat × Nat)) : Msg → Prop
  | .anonStart => True
  | .namedStart k => k < 2 ^ 32 ∧ (alookup fmts k).isSome = true
  | .regionEnd => True
  | .message k ord payload =>
      k < 2 ^ 32 ∧ ¬(k = 0 ∨ k = 1 ∨ k = 2) ∧
        alookup fmts k = some payload.length ∧ ord < 2 ^ 64

/-- Region markers never close more regions than are open: `d` open
regions, a region end needs `0 < d`. -/
def depthOk : Nat → List Msg → Prop
  | _, [] => True
  | d, .anonStart :: ms => depthOk (d + 1) ms
  | d, .namedStart _ :: ms => depthOk (d + 1) ms
  | d, .regionEnd :: ms => 0 < d ∧ depthOk (d - 1) ms
  | d, .message _ _ _ :: ms => depthOk d ms

/-- The messages of stream `s`, in file order. -/
def streamMsgs (s : Nat) (blocks : List Block) : List Msg :=
  (blocks.filter (fun b => b.stream == s)).flatMap Block.msgs

/-- A well-formed log: every block's stream exists and its size field
fits in a u64, every message is well formed, and region markers are
balanced per stream. -/
def WfLog (sc : Nat) (fmts : List (Nat × Nat)) (order : Bool)
    (blocks : List Block) : Prop :=
  sc < 2 ^ 64 ∧
  (∀ b ∈ blocks, b.stream < sc ∧ (encodeMsgs order b.msgs).length < 2 ^ 64 ∧
    ∀ m ∈ b.msgs, WfMsg fmts m) ∧
  (∀ s, s < sc → depthOk 0 (streamMsgs s blocks))

/-! ### The ghost tree

Both passes traverse the data in the same order; the ghost state records
the structure they discover: per-stream stacks of open groups, and per
group its children so far (`.reg g` for the region that became group `g`,
`.msg` for a message), its parent group, and its ordinal among the
parent's children.  Groups `0..streamCount` are the streams; regions get
fresh group indices in file order, exactly like `groupNodes`. -/

inductive GChild where
  | reg (g : Nat)
  | msg
deriving Repr, DecidableEq

structure Ghost where
  stks : List (List Nat)
  kids : List (List GChild)
  parentOf : List Nat
  ords : List Nat
deriving Repr, DecidableEq

def gInit (sc : Nat) : Ghost :=
  ⟨(List.range sc).map (fun s => [s]), List.replicate sc [],
    List.replicate sc 0, List.replicate sc 0⟩

/-- The active group of stream `s`. -/
def gActive (gs : Ghost) (s : Nat) : Nat := (gs.stks.getD s []).headD 0

/-- Open a region on stream `s`: record it as the next child of the
active group, give it the next group index with empty children, and push
it on the stream's stack. -/
def gOpen (gs : Ghost) (s : Nat) : Ghost :=
  ⟨gs.stks.set s (gs.kids.length :: gs.stks.getD s []),
   (gs.kids.set (gActive gs s)
      ((gs.kids.getD (gActive gs s) []) ++ [.reg gs.kids.length])) ++ [[]],
   gs.parentOf ++ [gActive gs s],
   gs.ords ++ [(gs.kids.getD (gActive gs s) []).length]⟩

def gstep (gs : Ghost) : Nat × Msg → Ghost
  | (s, .anonStart) => gOpen gs s
  | (s, .namedStart _) => gOpen gs s
  | (s, .regionEnd) =>
      ⟨gs.stks.set s ((gs.stks.getD s []).tail), gs.kids, gs.parentOf,
        gs.ords⟩
  | (s, .message _ _ _) =>
      ⟨gs.stks, gs.kids.set (gActive gs s)
          ((gs.kids.getD (gActive gs s) []) ++ [.msg]), gs.parentOf, gs.ords⟩

def GChild.isReg : GChild → Bool
  | .reg _ => true
  | .msg => false

def countReg (l : List GChild) : Nat := (l.filter GChild.isReg).length

def countMsg (l : List GChild) : Nat :=
  (l.filter (fun c => ! c.isReg)).length

/-- Total message count over all groups. -/
def msgTotal (kids : List (List GChild)) : Nat := (kids.map countMsg).sum

/-- Pass 1's state matches the ghost: counts per group, region and
message totals, and active parents. -/
def R1 (sc : Nat) (gs : Ghost) (st : P1State) : Prop :=
  st.groupNodes.length = gs.kids.length ∧
  st.activeParentNode.length = sc ∧
  st.messageCount = msgTotal gs.kids ∧
  st.regionCount + sc = gs.kids.length ∧
  (∀ s, s < sc → st.activeParentNode.getD s 0 = gActive gs s) ∧
  (∀ g, g < gs.kids.length →
    (st.groupNodes.getD g default).index = g ∧
    (st.groupNodes.getD g default).parent = gs.parentOf.getD g 0 ∧
    (st.groupNodes.getD g default).groupChildCount = countReg (gs.kids.getD g []) ∧
    (st.groupNodes.getD g default).messageChildCount = countMsg (gs.kids.getD g []))

/-- A stream stack is a chain through `parentOf` from the active group
down to the stream's own group `s`; pushed entries are region groups. -/
def StackWF (parentOf : List Nat) (sc s : Nat) : List Nat → Prop
  | [] => False
  | [g] => g = s
  | g :: g' :: r =>
      sc ≤ g ∧ g < parentOf.length ∧ parentOf.getD g 0 = g' ∧
        StackWF parentOf sc s (g' :: r)

/-- Internal consistency of the ghost: field lengths, stack chains, and
for every region group a parent created earlier that lists it at its
recorded ordinal. -/
def GhostWF (sc : Nat) (gs : Ghost) : Prop :=
  gs.stks.length = sc ∧
  gs.parentOf.length = gs.kids.length ∧
  gs.ords.length = gs.kids.length ∧
  sc ≤ gs.kids.length ∧
  (∀ s, s < sc → StackWF gs.parentOf sc s (gs.stks.getD s [])) ∧
  (∀ g, sc ≤ g → g < gs.kids.length →
    gs.parentOf.getD g 0 < g ∧
    (gs.kids.getD (gs.parentOf.getD g 0) []).getD (gs.ords.getD g 0) .msg
      = .reg g ∧
    gs.ords.getD g 0 < (gs.kids.getD (gs.parentOf.getD g 0) []).length)


/-! ### List and counting helpers -/

theorem getD_append_lt {α : Type} (l l' : List α) (i : Nat) (d : α)
    (h : i < l.length) : (l ++ l').getD i d = l.getD i d := by
  rw [List.getD_eq_getElem?_getD, List.getD_eq_getElem?_getD,
    List.getElem?_append_left h]

theorem getD_append_len {α : Type} (l : List α) (x : α) (d : α) :
    (l ++ [x]).getD l.length d = x := by
  rw [List.getD_eq_getElem?_getD, List.getElem?_append_right (Nat.le_refl _)]
  simp

theorem getD_append_of_len {α : Type} (l : List α) (x : α) (d : α) (n : Nat)
    (h : n = l.length) : (l ++ [x]).getD n d = x := by
  subst h
  exact getD_append_len l x d

theorem getD_replicate {α : Type} (n i : Nat) (a d : α) (h : i < n) :
    (List.replicate n a).getD i d = a := by
  rw [List.getD_eq_getElem?_getD, List.getElem?_replicate, if_pos h]
  rfl

theorem sum_set_getD (l : List Nat) : ∀ (i v : Nat), i < l.length →
    (l.set i v).sum + l.getD i 0 = l.sum + v := by
  induction l with
  | nil => intro i v h; simp at h
  | cons a l ih =>
    intro i v h
    cases i with
    | zero => simp [List.sum_cons]; omega
    | succ i =>
      rw [List.set_cons_succ, List.sum_cons, List.sum_cons, getD_cons_succ]
      have := ih i v (by simpa using Nat.lt_of_succ_lt_succ h)
      omega

theorem countReg_append_reg (K : List GChild) (g : Nat) :
    countReg (K ++ [.reg g]) = countReg K + 1 := by
  simp [countReg, List.filter_append, GChild.isReg]

theorem countReg_append_msg (K : List GChild) :
    countReg (K ++ [.msg]) = countReg K := by
  simp [countReg, List.filter_append, GChild.isReg]

theorem countMsg_append_reg (K : List GChild) (g : Nat) :
    countMsg (K ++ [.reg g]) = countMsg K := by
  simp [countMsg, List.filter_append, GChild.isReg]

theorem countMsg_append_msg (K : List GChild) :
    countMsg (K ++ [.msg]) = countMsg K + 1 := by
  simp [countMsg, List.filter_append, GChild.isReg]

theorem countReg_nil : countReg [] = 0 := rfl

theorem countMsg_nil : countMsg [] = 0 := rfl

theorem msgTotal_set (kids : List (List GChild)) (a : Nat) (K : List GChild)
    (h : a < kids.length) :
    msgTotal (kids.set a K) + countMsg (kids.getD a []) = msgTotal kids + countMsg K := by
  unfold msgTotal
  rw [List.map_set]
  have := sum_set_getD (kids.map countMsg) a (countMsg K) (by simpa using h)
  rw [List.getD_eq_getElem?_getD, List.getElem?_map] at this
  rw [List.getD_eq_getElem?_getD]
  cases hg : kids[a]? with
  | none => rw [List.getElem?_eq_none_iff] at hg; omega
  | some L => rw [hg] at this; simpa [hg] using this

theorem msgTotal_append (kids : List (List GChild)) (L : List GChild) :
    msgTotal (kids ++ [L]) = msgTotal kids + countMsg L := by
  simp [msgTotal]

theorem StackWF_extend (parentOf L : List Nat) (sc s : Nat) :
    ∀ l, StackWF parentOf sc s l → StackWF (parentOf ++ L) sc s l
  | [], h => h.elim
  | [g], h => h
  | g :: g' :: r, h => by
    obtain ⟨h1, h2, h3, h4⟩ := h
    refine ⟨h1, by rw [List.length_append]; omega, ?_,
      StackWF_extend parentOf L sc s (g' :: r) h4⟩
    rw [getD_append_lt _ _ _ _ h2]
    exact h3

theorem StackWF_head_lt (parentOf : List Nat) (sc s : Nat) (hs : s < sc)
    (hsc : sc ≤ parentOf.length) :
    ∀ l, StackWF parentOf sc s l → (l.headD 0) < parentOf.length
  | [], h => h.elim
  | [g], h => by rw [h]; simpa using Nat.lt_of_lt_of_le hs hsc
  | g :: g' :: r, h => by
    obtain ⟨-, h2, -, -⟩ := h
    simpa using h2

/-! ### Step lemmas for pass 1 -/

theorem processBlock1_done (checked : Bool) (fmts : List (Nat × Nat))
    (order : Bool) (data : List Nat) (s pos : Nat) (st : P1State) (p : Nat) :
    processBlock1 checked fmts order data pos s pos st p = .ok (pos, st) := by
  unfold processBlock1
  rw [dif_neg (Nat.lt_irrefl pos), if_neg (by simp)]

theorem processBlock1_step_anon (checked : Bool) (fmts : List (Nat × Nat))
    (order : Bool) (data : List Nat) (blockEnd s pos : Nat) (st : P1State) (p : Nat)
    (hlt : pos < blockEnd) (hk : readAt 4 data pos = some AnonymousRegionStart) :
    processBlock1 checked fmts order data blockEnd s pos st p
      = processBlock1 checked fmts order data blockEnd s (pos + 4)
          ⟨st.groupNodes.set p
              ⟨(st.groupNodes.getD p default).key, (st.groupNodes.getD p default).index,
                (st.groupNodes.getD p default).parent,
                (st.groupNodes.getD p default).groupChildCount + 1,
                (st.groupNodes.getD p default).messageChildCount⟩
            ++ [⟨0, st.groupNodes.length, (st.groupNodes.getD p default).index, 0, 0⟩],
            st.messageCount, st.regionCount + 1,
            st.activeParentNode.set s st.groupNodes.length⟩ st.groupNodes.length := by
  conv_lhs => rw [processBlock1]
  rw [dif_pos hlt, hk]
  dsimp only
  rw [if_pos rfl]
  simp only [List.length_set]

theorem processBlock1_step_named (checked : Bool) (fmts : List (Nat × Nat))
    (order : Bool) (data : List Nat) (blockEnd s pos key2 : Nat) (st : P1State) (p : Nat)
    (hlt : pos < blockEnd) (hk : readAt 4 data pos = some NamedRegionStart)
    (hk2 : readAt 4 data (pos + 4) = some key2)
    (hreg : (alookup fmts key2).isSome = true) :
    processBlock1 checked fmts order data blockEnd s pos st p
      = processBlock1 checked fmts order data blockEnd s (pos + 8)
          ⟨st.groupNodes.set p
              ⟨(st.groupNodes.getD p default).key, (st.groupNodes.getD p default).index,
                (st.groupNodes.getD p default).parent,
                (st.groupNodes.getD p default).groupChildCount + 1,
                (st.groupNodes.getD p default).messageChildCount⟩
            ++ [⟨key2, st.groupNodes.length, (st.groupNodes.getD p default).index, 0, 0⟩],
            st.messageCount, st.regionCount + 1,
            st.activeParentNode.set s st.groupNodes.length⟩ st.groupNodes.length := by
  conv_lhs => rw [processBlock1]
  rw [dif_pos hlt, hk]
  dsimp only
  rw [if_neg (by decide), if_pos rfl, hk2]
  dsimp only
  have hnone : (alookup fmts key2).isNone = false := by
    cases halo : alookup fmts key2 with
    | none => rw [halo] at hreg; simp at hreg
    | some v => rfl
  rw [if_neg (by rw [hnone]; simp)]
  simp only [List.length_set]

theorem processBlock1_step_end (checked : Bool) (fmts : List (Nat × Nat))
    (order : Bool) (data : List Nat) (blockEnd s pos : Nat) (st : P1State) (p : Nat)
    (hlt : pos < blockEnd) (hk : readAt 4 data pos = some RegionEnd) :
    processBlock1 checked fmts order data blockEnd s pos st p
      = processBlock1 checked fmts order data blockEnd s (pos + 4)
          ⟨st.groupNodes, st.messageCount, st.regionCount,
            st.activeParentNode.set s
              ((st.groupNodes.getD ((st.groupNodes.getD p default).parent) default).index)⟩
          ((st.groupNodes.getD p default).parent) := by
  conv_lhs => rw [processBlock1]
  rw [dif_pos hlt, hk]
  dsimp only
  rw [if_neg (by decide), if_neg (by decide), if_pos rfl]

theorem processBlock1_step_msg (checked : Bool) (fmts : List (Nat × Nat))
    (order : Bool) (data : List Nat) (blockEnd s pos key messageSize : Nat)
    (st : P1State) (p : Nat)
    (hlt : pos < blockEnd) (hk : readAt 4 data pos = some key)
    (hne : ¬(key = 0 ∨ key = 1 ∨ key = 2))
    (hm : alookup fmts key = some messageSize) :
    processBlock1 checked fmts order data blockEnd s pos st p
      = processBlock1 checked fmts order data blockEnd s
          (pos + 4 + messageSize + (if order then 8 else 0))
          ⟨st.groupNodes.set p
              ⟨(st.groupNodes.getD p default).key, (st.groupNodes.getD p default).index,
                (st.groupNodes.getD p default).parent,
                (st.groupNodes.getD p default).groupChildCount,
                (st.groupNodes.getD p default).messageChildCount + 1⟩,
            st.messageCount + 1, st.regionCount, st.activeParentNode⟩ p := by
  conv_lhs => rw [processBlock1]
  rw [dif_pos hlt, hk]
  dsimp only
  rw [if_neg (show ¬(key = AnonymousRegionStart) from fun hc => hne (Or.inl hc)),
    if_neg (show ¬(key = NamedRegionStart) from fun hc => hne (Or.inr (Or.inl hc))),
    if_neg (show ¬(key = RegionEnd) from fun hc => hne (Or.inr (Or.inr hc))), hm]


/-! ### Ghost-step lemmas -/

/-- All of one block's messages, stepped on stream `s`. -/
def gsteps (s : Nat) (gs : Ghost) (msgs : List Msg) : Ghost :=
  msgs.foldl (fun g m => gstep g (s, m)) gs

theorem gsteps_cons (s : Nat) (gs : Ghost) (m : Msg) (ms : List Msg) :
    gsteps s gs (m :: ms) = gsteps s (gstep gs (s, m)) ms := rfl

theorem encodeMsgs_cons (order : Bool) (m : Msg) (ms : List Msg) :
    encodeMsgs order (m :: ms) = encodeMsg order m ++ encodeMsgs order ms := by
  simp [encodeMsgs]

theorem gstep_stks_length (gs : Ghost) (e : Nat × Msg) :
    (gstep gs e).stks.length = gs.stks.length := by
  obtain ⟨s, m⟩ := e
  cases m <;> simp [gstep, gOpen]

theorem gstep_stks_ne (gs : Ghost) (s s' : Nat) (m : Msg) (h : s ≠ s') :
    (gstep gs (s, m)).stks.getD s' [] = gs.stks.getD s' [] := by
  cases m with
  | anonStart => exact getD_set_ne _ _ _ _ _ h
  | namedStart k => exact getD_set_ne _ _ _ _ _ h
  | regionEnd => exact getD_set_ne _ _ _ _ _ h
  | message k o pl => rfl

theorem gsteps_stks_length (s : Nat) : ∀ (msgs : List Msg) (gs : Ghost),
    (gsteps s gs msgs).stks.length = gs.stks.length := by
  intro msgs
  induction msgs with
  | nil => intro gs; rfl
  | cons m ms ih =>
    intro gs
    rw [gsteps_cons, ih, gstep_stks_length]

theorem gsteps_stks_ne (s s' : Nat) (h : s ≠ s') : ∀ (msgs : List Msg) (gs : Ghost),
    (gsteps s gs msgs).stks.getD s' [] = gs.stks.getD s' [] := by
  intro msgs
  induction msgs with
  | nil => intro gs; rfl
  | cons m ms ih =>
    intro gs
    rw [gsteps_cons, ih, gstep_stks_ne _ _ _ _ h]

theorem StackWF_ne_nil {parentOf : List Nat} {sc s : Nat} {l : List Nat}
    (h : StackWF parentOf sc s l) : l ≠ [] := by
  cases l with
  | nil => exact h.elim
  | cons g r => exact fun hc => List.noConfusion hc

theorem gOpen_stks_self (gs : Ghost) (s : Nat) (hs : s < gs.stks.length) :
    (gOpen gs s).stks.getD s [] = gs.kids.length :: gs.stks.getD s [] :=
  getD_set_self _ _ _ _ hs

/-- Opening a region preserves the ghost invariant. -/
theorem gOpen_WF (sc : Nat) (gs : Ghost) (s : Nat) (hs : s < sc)
    (h : GhostWF sc gs) : GhostWF sc (gOpen gs s) := by
  obtain ⟨hsl, hpl, hol, hscl, hstk, hgrp⟩ := h
  have hhead : gActive gs s < gs.parentOf.length :=
    StackWF_head_lt gs.parentOf sc s hs (by omega) _ (hstk s hs)
  have ha : gActive gs s < gs.kids.length := by omega
  have hkidslen : ((gs.kids.set (gActive gs s)
      ((gs.kids.getD (gActive gs s) []) ++ [GChild.reg gs.kids.length])) ++ [[]]).length
      = gs.kids.length + 1 := by
    simp
  unfold GhostWF gOpen
  dsimp only
  refine ⟨by simpa using hsl, ?_, ?_, ?_, ?_, ?_⟩
  · rw [hkidslen, List.length_append, hpl]
    rfl
  · rw [hkidslen, List.length_append, hol]
    rfl
  · rw [hkidslen]
    omega
  · intro s' hs'
    by_cases hss : s' = s
    · subst hss
      rw [getD_set_self _ _ _ _ (by omega)]
      have hstk' := hstk s' hs'
      cases hst : gs.stks.getD s' [] with
      | nil => exact absurd hst (StackWF_ne_nil hstk')
      | cons g r =>
        rw [hst] at hstk'
        refine ⟨hscl, by simp only [List.length_append, List.length_cons,
          List.length_nil]; omega, ?_,
          StackWF_extend _ _ _ _ _ hstk'⟩
        have hg : gActive gs s' = g := by unfold gActive; rw [hst]; rfl
        rw [show gs.kids.length = gs.parentOf.length from hpl.symm, getD_append_len,
          hg]
    · rw [getD_set_ne _ _ _ _ _ (fun he => hss he.symm)]
      exact StackWF_extend _ _ _ _ _ (hstk s' hs')
  · intro g hsg hg
    rw [hkidslen] at hg
    have e3a : (((gs.kids.set (gActive gs s)
        ((gs.kids.getD (gActive gs s) []) ++ [GChild.reg gs.kids.length])) ++ [[]]).getD
          (gActive gs s) [])
        = (gs.kids.getD (gActive gs s) []) ++ [GChild.reg gs.kids.length] := by
      rw [getD_append_lt _ _ _ _ (by simpa using ha), getD_set_self _ _ _ _ ha]
    by_cases hgl : g = gs.kids.length
    · subst hgl
      have e1 : (gs.parentOf ++ [gActive gs s]).getD gs.kids.length 0 = gActive gs s := by
        rw [show gs.kids.length = gs.parentOf.length from hpl.symm, getD_append_len]
      have e2 : (gs.ords ++ [(gs.kids.getD (gActive gs s) []).length]).getD
          gs.kids.length 0 = (gs.kids.getD (gActive gs s) []).length := by
        rw [show gs.kids.length = gs.ords.length from hol.symm, getD_append_len]
      refine ⟨?_, ?_, ?_⟩
      · show (gs.parentOf ++ [gActive gs s]).getD gs.kids.length 0 < gs.kids.length
        rw [e1]
        exact ha
      · rw [e1, e2, e3a, getD_append_len]
      · rw [e1, e2, e3a, List.length_append]
        simp
    · have hgL : g < gs.kids.length := by omega
      have e1 : (gs.parentOf ++ [gActive gs s]).getD g 0 = gs.parentOf.getD g 0 :=
        getD_append_lt _ _ _ _ (by omega)
      have e2 : (gs.ords ++ [(gs.kids.getD (gActive gs s) []).length]).getD g 0
          = gs.ords.getD g 0 :=
        getD_append_lt _ _ _ _ (by omega)
      obtain ⟨o1, o2, o3⟩ := hgrp g hsg hgL
      have hpi : gs.parentOf.getD g 0 < gs.kids.length := by omega
      by_cases hpa : gs.parentOf.getD g 0 = gActive gs s
      · have e3 : (((gs.kids.set (gActive gs s)
            ((gs.kids.getD (gActive gs s) []) ++ [GChild.reg gs.kids.length])) ++ [[]]).getD
              (gs.parentOf.getD g 0) [])
            = (gs.kids.getD (gActive gs s) []) ++ [GChild.reg gs.kids.length] := by
          rw [hpa, e3a]
        rw [hpa] at o2 o3
        refine ⟨by rw [e1]; exact o1, ?_, ?_⟩
        · rw [e1, e2, e3, getD_append_lt _ _ _ _ o3]
          exact o2
        · rw [e1, e2, e3, List.length_append]
          omega
      · have e3 : (((gs.kids.set (gActive gs s)
            ((gs.kids.getD (gActive gs s) []) ++ [GChild.reg gs.kids.length])) ++ [[]]).getD
              (gs.parentOf.getD g 0) [])
            = gs.kids.getD (gs.parentOf.getD g 0) [] := by
          rw [getD_append_lt _ _ _ _ (by simpa using hpi),
            getD_set_ne _ _ _ _ _ (fun he => hpa he.symm)]
        refine ⟨by rw [e1]; exact o1, ?_, ?_⟩
        · rw [e1, e2, e3]
          exact o2
        · rw [e1, e2, e3]
          exact o3

theorem length_encodeMsg_anon (order : Bool) :
    (encodeMsg order .anonStart).length = 4 := by
  simp [encodeMsg, length_leBytes]

theorem length_encodeMsg_named (order : Bool) (k : Nat) :
    (encodeMsg order (.namedStart k)).length = 8 := by
  simp [encodeMsg, length_leBytes]

theorem length_encodeMsg_end (order : Bool) :
    (encodeMsg order .regionEnd).length = 4 := by
  simp [encodeMsg, length_leBytes]

theorem length_encodeMsg_msg (order : Bool) (k o : Nat) (pl : List Nat) :
    (encodeMsg order (.message k o pl)).length
      = 4 + (if order then 8 else 0) + pl.length := by
  cases order <;> simp [encodeMsg, length_leBytes] <;> omega

/-- A message step preserves the ghost invariant. -/
theorem gMsg_WF (sc : Nat) (gs : Ghost) (s k o : Nat) (pl : List Nat) (hs : s < sc)
    (h : GhostWF sc gs) : GhostWF sc (gstep gs (s, .message k o pl)) := by
  obtain ⟨hsl, hpl, hol, hscl, hstk, hgrp⟩ := h
  have ha : gActive gs s < gs.kids.length := by
    have hh : gActive gs s < gs.parentOf.length :=
      StackWF_head_lt gs.parentOf sc s hs (by omega) _ (hstk s hs)
    omega
  unfold gstep GhostWF
  dsimp only
  refine ⟨hsl, by simpa using hpl, by simpa using hol, by simpa using hscl, hstk, ?_⟩
  intro g hsg hg
  rw [List.length_set] at hg
  obtain ⟨o1, o2, o3⟩ := hgrp g hsg hg
  by_cases hpa : gs.parentOf.getD g 0 = gActive gs s
  · have e3 : (gs.kids.set (gActive gs s)
        ((gs.kids.getD (gActive gs s) []) ++ [GChild.msg])).getD (gs.parentOf.getD g 0) []
        = (gs.kids.getD (gActive gs s) []) ++ [GChild.msg] := by
      rw [hpa, getD_set_self _ _ _ _ ha]
    rw [hpa] at o2 o3
    refine ⟨o1, ?_, ?_⟩
    · rw [e3, getD_append_lt _ _ _ _ o3]
      exact o2
    · rw [e3, List.length_append]
      omega
  · have e3 : (gs.kids.set (gActive gs s)
        ((gs.kids.getD (gActive gs s) []) ++ [GChild.msg])).getD (gs.parentOf.getD g 0) []
        = gs.kids.getD (gs.parentOf.getD g 0) [] :=
      getD_set_ne _ _ _ _ _ (fun he => hpa he.symm)
    exact ⟨o1, by rw [e3]; exact o2, by rw [e3]; exact o3⟩

/-- A region-end step preserves the ghost invariant when the stream has
an open region. -/
theorem gEnd_WF (sc : Nat) (gs : Ghost) (s : Nat) (hs : s < sc)
    (h2 : 2 ≤ (gs.stks.getD s []).length)
    (h : GhostWF sc gs) : GhostWF sc (gstep gs (s, .regionEnd)) := by
  obtain ⟨hsl, hpl, hol, hscl, hstk, hgrp⟩ := h
  unfold gstep GhostWF
  dsimp only
  refine ⟨by simpa using hsl, hpl, hol, hscl, ?_, hgrp⟩
  intro s' hs'
  by_cases hss : s' = s
  · subst hss
    rw [getD_set_self _ _ _ _ (by omega)]
    have hstk' := hstk s' hs'
    cases hst : gs.stks.getD s' [] with
    | nil => rw [hst] at h2; simp at h2
    | cons g r =>
      rw [hst] at hstk' h2
      cases r with
      | nil => simp at h2
      | cons g' r' => exact hstk'.2.2.2
  · rw [getD_set_ne _ _ _ _ _ (fun he => hss he.symm)]
    exact hstk s' hs'


theorem gstep_anon (gs : Ghost) (s : Nat) : gstep gs (s, .anonStart) = gOpen gs s := rfl

theorem gstep_named (gs : Ghost) (s k : Nat) :
    gstep gs (s, .namedStart k) = gOpen gs s := rfl

theorem gOpen_kids (gs : Ghost) (s : Nat) :
    (gOpen gs s).kids = (gs.kids.set (gActive gs s)
      ((gs.kids.getD (gActive gs s) []) ++ [GChild.reg gs.kids.length])) ++ [[]] := rfl

theorem gOpen_parentOf (gs : Ghost) (s : Nat) :
    (gOpen gs s).parentOf = gs.parentOf ++ [gActive gs s] := rfl

theorem gOpen_stks (gs : Ghost) (s : Nat) :
    (gOpen gs s).stks = gs.stks.set s (gs.kids.length :: gs.stks.getD s []) := rfl

theorem gActive_open_self (gs : Ghost) (s : Nat) (hs : s < gs.stks.length) :
    gActive (gOpen gs s) s = gs.kids.length := by
  unfold gActive
  rw [gOpen_stks, getD_set_self _ _ _ _ hs, List.headD_cons]

theorem gActive_open_ne (gs : Ghost) (s s' : Nat) (h : s ≠ s') :
    gActive (gOpen gs s) s' = gActive gs s' := by
  unfold gActive
  rw [gOpen_stks, getD_set_ne _ _ _ _ _ h]

theorem gstep_end_kids (gs : Ghost) (s : Nat) :
    (gstep gs (s, .regionEnd)).kids = gs.kids := rfl

theorem gstep_end_parentOf (gs : Ghost) (s : Nat) :
    (gstep gs (s, .regionEnd)).parentOf = gs.parentOf := rfl

theorem gstep_end_stks (gs : Ghost) (s : Nat) :
    (gstep gs (s, .regionEnd)).stks = gs.stks.set s ((gs.stks.getD s []).tail) := rfl

theorem gActive_end_self (gs : Ghost) (s : Nat) (hs : s < gs.stks.length) :
    gActive (gstep gs (s, .regionEnd)) s = (gs.stks.getD s []).tail.headD 0 := by
  unfold gActive
  rw [gstep_end_stks, getD_set_self _ _ _ _ hs]

theorem gActive_end_ne (gs : Ghost) (s s' : Nat) (h : s ≠ s') :
    gActive (gstep gs (s, .regionEnd)) s' = gActive gs s' := by
  unfold gActive
  rw [gstep_end_stks, getD_set_ne _ _ _ _ _ h]

theorem gstep_msg_kids (gs : Ghost) (s k o : Nat) (pl : List Nat) :
    (gstep gs (s, .message k o pl)).kids
      = gs.kids.set (gActive gs s) ((gs.kids.getD (gActive gs s) []) ++ [GChild.msg]) := rfl

theorem gstep_msg_parentOf (gs : Ghost) (s k o : Nat) (pl : List Nat) :
    (gstep gs (s, .message k o pl)).parentOf = gs.parentOf := rfl

theorem gstep_msg_stks (gs : Ghost) (s k o : Nat) (pl : List Nat) :
    (gstep gs (s, .message k o pl)).stks = gs.stks := rfl

/-- Pass 1's state update on a region start matches the ghost `gOpen`
(the new group node's `key` field is irrelevant to `R1`). -/
theorem R1_open (sc : Nat) (gs : Ghost) (st : P1State) (s k : Nat) (hs : s < sc)
    (hgwf : GhostWF sc gs) (hr1 : R1 sc gs st) :
    R1 sc (gOpen gs s)
      ⟨st.groupNodes.set (gActive gs s)
          ⟨(st.groupNodes.getD (gActive gs s) default).key,
            (st.groupNodes.getD (gActive gs s) default).index,
            (st.groupNodes.getD (gActive gs s) default).parent,
            (st.groupNodes.getD (gActive gs s) default).groupChildCount + 1,
            (st.groupNodes.getD (gActive gs s) default).messageChildCount⟩
        ++ [⟨k, st.groupNodes.length,
              (st.groupNodes.getD (gActive gs s) default).index, 0, 0⟩],
        st.messageCount, st.regionCount + 1,
        st.activeParentNode.set s st.groupNodes.length⟩ := by
  obtain ⟨hsl, hpl, hol, hscl, hstk, hgrp⟩ := hgwf
  obtain ⟨hgl, hal, hmc, hrc, hact, hgrpR⟩ := hr1
  have hh : gActive gs s < gs.parentOf.length :=
    StackWF_head_lt gs.parentOf sc s hs (by omega) _ (hstk s hs)
  have ha : gActive gs s < gs.kids.length := by omega
  have haN : gActive gs s < st.groupNodes.length := by omega
  obtain ⟨hidxa, hpara, hgcca, hmcca⟩ := hgrpR (gActive gs s) ha
  unfold R1
  dsimp only
  refine ⟨?_, ?_, ?_, ?_, ?_, ?_⟩
  · rw [gOpen_kids]
    simp only [List.length_append, List.length_set, List.length_cons, List.length_nil]
    omega
  · simpa using hal
  · rw [gOpen_kids, msgTotal_append, countMsg_nil]
    have h3 := msgTotal_set gs.kids (gActive gs s)
      ((gs.kids.getD (gActive gs s) []) ++ [GChild.reg gs.kids.length]) ha
    rw [countMsg_append_reg] at h3
    omega
  · rw [gOpen_kids]
    simp only [List.length_append, List.length_set, List.length_cons, List.length_nil]
    omega
  · intro s' hs'
    by_cases hss : s' = s
    · subst hss
      rw [getD_set_self _ _ _ _ (by omega), gActive_open_self gs s' (by omega)]
      omega
    · rw [getD_set_ne _ _ _ _ _ (fun he => hss he.symm),
        gActive_open_ne gs s s' (fun he => hss he.symm)]
      exact hact s' hs'
  · intro g hg
    rw [gOpen_kids] at hg
    simp only [List.length_append, List.length_set, List.length_cons,
      List.length_nil] at hg
    rw [gOpen_kids, gOpen_parentOf]
    have hNSlen : (st.groupNodes.set (gActive gs s)
        ⟨(st.groupNodes.getD (gActive gs s) default).key,
          (st.groupNodes.getD (gActive gs s) default).index,
          (st.groupNodes.getD (gActive gs s) default).parent,
          (st.groupNodes.getD (gActive gs s) default).groupChildCount + 1,
          (st.groupNodes.getD (gActive gs s) default).messageChildCount⟩).length
        = st.groupNodes.length := List.length_set _ _ _
    have hkSlen : (gs.kids.set (gActive gs s)
        ((gs.kids.getD (gActive gs s) []) ++ [GChild.reg gs.kids.length])).length
        = gs.kids.length := List.length_set _ _ _
    by_cases hgL : g = gs.kids.length
    · rw [getD_append_of_len _ _ _ _ (by omega), getD_append_of_len _ _ _ _ (by omega),
        getD_append_of_len _ _ _ _ (by omega)]
      dsimp only
      refine ⟨by omega, hidxa, rfl, rfl⟩
    · have hgLt : g < gs.kids.length := by omega
      rw [getD_append_lt _ _ _ _ (by omega), getD_append_lt _ _ _ _ (by omega),
        getD_append_lt _ _ _ _ (by omega)]
      by_cases hga : g = gActive gs s
      · subst hga
        rw [getD_set_self _ _ _ _ haN, getD_set_self _ _ _ _ ha]
        dsimp only
        rw [countReg_append_reg, countMsg_append_reg]
        exact ⟨hidxa, hpara, by omega, hmcca⟩
      · rw [getD_set_ne _ _ _ _ _ (fun he => hga he.symm),
          getD_set_ne _ _ _ _ _ (fun he => hga he.symm)]
        exact hgrpR g hgLt


theorem gActive_msg (gs : Ghost) (s k o : Nat) (pl : List Nat) (s' : Nat) :
    gActive (gstep gs (s, .message k o pl)) s' = gActive gs s' := rfl

/-- Pass 1's state update on a message matches the ghost message step. -/
theorem R1_msg (sc : Nat) (gs : Ghost) (st : P1State) (s k o : Nat) (pl : List Nat)
    (hs : s < sc) (hgwf : GhostWF sc gs) (hr1 : R1 sc gs st) :
    R1 sc (gstep gs (s, .message k o pl))
      ⟨st.groupNodes.set (gActive gs s)
          ⟨(st.groupNodes.getD (gActive gs s) default).key,
            (st.groupNodes.getD (gActive gs s) default).index,
            (st.groupNodes.getD (gActive gs s) default).parent,
            (st.groupNodes.getD (gActive gs s) default).groupChildCount,
            (st.groupNodes.getD (gActive gs s) default).messageChildCount + 1⟩,
        st.messageCount + 1, st.regionCount, st.activeParentNode⟩ := by
  obtain ⟨hsl, hpl, hol, hscl, hstk, hgrp⟩ := hgwf
  obtain ⟨hgl, hal, hmc, hrc, hact, hgrpR⟩ := hr1
  have hh : gActive gs s < gs.parentOf.length :=
    StackWF_head_lt gs.parentOf sc s hs (by omega) _ (hstk s hs)
  have ha : gActive gs s < gs.kids.length := by omega
  have haN : gActive gs s < st.groupNodes.length := by omega
  obtain ⟨hidxa, hpara, hgcca, hmcca⟩ := hgrpR (gActive gs s) ha
  unfold R1
  dsimp only
  refine ⟨?_, hal, ?_, ?_, ?_, ?_⟩
  · rw [gstep_msg_kids]
    simp only [List.length_set]
    exact hgl
  · rw [gstep_msg_kids]
    have h3 := msgTotal_set gs.kids (gActive gs s)
      ((gs.kids.getD (gActive gs s) []) ++ [GChild.msg]) ha
    rw [countMsg_append_msg] at h3
    omega
  · rw [gstep_msg_kids]
    simp only [List.length_set]
    exact hrc
  · intro s' hs'
    rw [gActive_msg]
    exact hact s' hs'
  · intro g hg
    rw [gstep_msg_kids] at hg ⊢
    rw [List.length_set] at hg
    rw [gstep_msg_parentOf]
    by_cases hga : g = gActive gs s
    · subst hga
      rw [getD_set_self _ _ _ _ haN, getD_set_self _ _ _ _ ha]
      dsimp only
      rw [countReg_append_msg, countMsg_append_msg]
      exact ⟨hidxa, hpara, hgcca, by omega⟩
    · rw [getD_set_ne _ _ _ _ _ (fun he => hga he.symm),
        getD_set_ne _ _ _ _ _ (fun he => hga he.symm)]
      exact hgrpR g hg

/-- Pass 1's state update on a region end matches the ghost pop, when
the stream has an open region. -/
theorem R1_end (sc : Nat) (gs : Ghost) (st : P1State) (s : Nat)
    (hs : s < sc) (h2 : 2 ≤ (gs.stks.getD s []).length)
    (hgwf : GhostWF sc gs) (hr1 : R1 sc gs st) :
    R1 sc (gstep gs (s, .regionEnd))
      ⟨st.groupNodes, st.messageCount, st.regionCount,
        st.activeParentNode.set s
          ((st.groupNodes.getD
            ((st.groupNodes.getD (gActive gs s) default).parent) default).index)⟩ := by
  obtain ⟨hsl, hpl, hol, hscl, hstk, hgrp⟩ := hgwf
  obtain ⟨hgl, hal, hmc, hrc, hact, hgrpR⟩ := hr1
  have hstk' := hstk s hs
  have ha : gActive gs s < gs.kids.length := by
    have hh : gActive gs s < gs.parentOf.length :=
      StackWF_head_lt gs.parentOf sc s hs (by omega) _ hstk'
    omega
  obtain ⟨hidxa, hpara, hgcca, hmcca⟩ := hgrpR (gActive gs s) ha
  unfold R1
  dsimp only
  rw [gstep_end_kids, gstep_end_parentOf]
  refine ⟨hgl, by simpa using hal, hmc, hrc, ?_, hgrpR⟩
  intro s' hs'
  by_cases hss : s' = s
  · subst hss
    rw [getD_set_self _ _ _ _ (by omega), gActive_end_self gs s' (by omega)]
    cases hst : gs.stks.getD s' [] with
    | nil => rw [hst] at h2; simp at h2
    | cons g r =>
      rw [hst] at hstk' h2
      cases r with
      | nil => simp at h2
      | cons g2 r2 =>
        obtain ⟨hg1, hg2, hg3, hg4⟩ := hstk'
        have hgact : gActive gs s' = g := by unfold gActive; rw [hst]; rfl
        have hg2k : g2 < gs.kids.length := by
          have hh2 : g2 < gs.parentOf.length :=
            StackWF_head_lt gs.parentOf sc s' hs' (by omega) _ hg4
          omega
        obtain ⟨hidx2, -, -, -⟩ := hgrpR g2 hg2k
        rw [hpara, hgact, hg3, hidx2]
        rfl
  · rw [getD_set_ne _ _ _ _ _ (fun he => hss he.symm),
      gActive_end_ne gs s s' (fun he => hss he.symm)]
    exact hact s' hs'


/-- Pass 1 over one block's encoded messages: it consumes exactly the
block's bytes, cannot fail, and transforms the state as the ghost steps
do. -/
theorem processBlock1_sim (checked : Bool) (fmts : List (Nat × Nat)) (order : Bool)
    (data : List Nat) (sc : Nat) :
    ∀ (msgs K : List Msg) (rest : List Nat) (pos s : Nat) (gs : Ghost) (st : P1State),
    data.drop pos = encodeMsgs order msgs ++ rest →
    (∀ m ∈ msgs, WfMsg fmts m) →
    s < sc →
    GhostWF sc gs → R1 sc gs st →
    depthOk ((gs.stks.getD s []).length - 1) (msgs ++ K) →
    ∃ st' : P1State,
      processBlock1 checked fmts order data (pos + (encodeMsgs order msgs).length)
          s pos st (gActive gs s)
        = .ok (pos + (encodeMsgs order msgs).length, st') ∧
      GhostWF sc (gsteps s gs msgs) ∧ R1 sc (gsteps s gs msgs) st' ∧
      depthOk (((gsteps s gs msgs).stks.getD s []).length - 1) K := by
  intro msgs
  induction msgs with
  | nil =>
    intro K rest pos s gs st hdrop hwf hs hgwf hr1 hdep
    refine ⟨st, ?_, hgwf, hr1, hdep⟩
    rw [show pos + (encodeMsgs order []).length = pos from by simp [encodeMsgs]]
    exact processBlock1_done checked fmts order data s pos st (gActive gs s)
  | cons m ms ih =>
    intro K rest pos s gs st hdrop hwf hs hgwf hr1 hdep
    have hwfm : WfMsg fmts m := hwf m (List.mem_cons_self m ms)
    have hwf' : ∀ x ∈ ms, WfMsg fmts x := fun x hx => hwf x (List.mem_cons_of_mem m hx)
    have hgl := hr1.1
    obtain ⟨hsl, hpl, hol, hscl, hstk, hgrp⟩ := hgwf
    have hne : gs.stks.getD s [] ≠ [] := StackWF_ne_nil (hstk s hs)
    have hslen : 1 ≤ (gs.stks.getD s []).length := by
      cases hcon : gs.stks.getD s [] with
      | nil => exact absurd hcon hne
      | cons a l => simp
    cases m with
    | anonStart =>
      have hdropm : data.drop pos
          = leBytes 4 AnonymousRegionStart ++ (encodeMsgs order ms ++ rest) := by
        rw [hdrop, encodeMsgs_cons]
        simp only [encodeMsg, List.append_assoc]
      have hk : readAt 4 data pos = some AnonymousRegionStart :=
        readAt_of_drop hdropm (by decide)
      have hlen : (encodeMsgs order (Msg.anonStart :: ms)).length
          = 4 + (encodeMsgs order ms).length := by
        rw [encodeMsgs_cons, List.length_append, length_encodeMsg_anon]
      have hdrop2 : data.drop (pos + 4) = encodeMsgs order ms ++ rest :=
        drop_add_of_drop hdropm (length_leBytes 4 _)
      have hgwf' : GhostWF sc (gOpen gs s) :=
        gOpen_WF sc gs s hs ⟨hsl, hpl, hol, hscl, hstk, hgrp⟩
      have hr1' := R1_open sc gs st s 0 hs ⟨hsl, hpl, hol, hscl, hstk, hgrp⟩ hr1
      have hdep' : depthOk (((gOpen gs s).stks.getD s []).length - 1) (ms ++ K) := by
        rw [gOpen_stks, getD_set_self _ _ _ _ (by omega), List.length_cons]
        have hd : depthOk ((gs.stks.getD s []).length - 1 + 1) (ms ++ K) := hdep
        rwa [show (gs.stks.getD s []).length - 1 + 1 = (gs.stks.getD s []).length
          from by omega] at hd
      obtain ⟨st', heq, hA, hB, hC⟩ :=
        ih K rest (pos + 4) s (gOpen gs s) _ hdrop2 hwf' hs hgwf' hr1' hdep'
      refine ⟨st', ?_, hA, hB, hC⟩
      rw [show pos + (encodeMsgs order (Msg.anonStart :: ms)).length
          = pos + 4 + (encodeMsgs order ms).length from by omega]
      rw [processBlock1_step_anon checked fmts order data _ s pos st (gActive gs s)
        (by omega) hk]
      rw [show gActive (gOpen gs s) s = st.groupNodes.length from by
        rw [gActive_open_self gs s (by omega)]; omega] at heq
      exact heq
    | namedStart k =>
      have hdropm : data.drop pos
          = leBytes 4 NamedRegionStart
            ++ (leBytes 4 k ++ (encodeMsgs order ms ++ rest)) := by
        rw [hdrop, encodeMsgs_cons]
        simp only [encodeMsg, List.append_assoc]
      have hk : readAt 4 data pos = some NamedRegionStart :=
        readAt_of_drop hdropm (by decide)
      have hdropk : data.drop (pos + 4)
          = leBytes 4 k ++ (encodeMsgs order ms ++ rest) :=
        drop_add_of_drop hdropm (length_leBytes 4 _)
      have hk2 : readAt 4 data (pos + 4) = some k :=
        readAt_of_drop hdropk (by exact hwfm.1)
      have hlen : (encodeMsgs order (Msg.namedStart k :: ms)).length
          = 8 + (encodeMsgs order ms).length := by
        rw [encodeMsgs_cons, List.length_append, length_encodeMsg_named]
      have hdrop2 : data.drop (pos + 8) = encodeMsgs order ms ++ rest := by
        have h := drop_add_of_drop hdropk (length_leBytes 4 k)
        rwa [show pos + 4 + 4 = pos + 8 from by omega] at h
      have hgwf' : GhostWF sc (gOpen gs s) :=
        gOpen_WF sc gs s hs ⟨hsl, hpl, hol, hscl, hstk, hgrp⟩
      have hr1' := R1_open sc gs st s k hs ⟨hsl, hpl, hol, hscl, hstk, hgrp⟩ hr1
      have hdep' : depthOk (((gOpen gs s).stks.getD s []).length - 1) (ms ++ K) := by
        rw [gOpen_stks, getD_set_self _ _ _ _ (by omega), List.length_cons]
        have hd : depthOk ((gs.stks.getD s []).length - 1 + 1) (ms ++ K) := hdep
        rwa [show (gs.stks.getD s []).length - 1 + 1 = (gs.stks.getD s []).length
          from by omega] at hd
      obtain ⟨st', heq, hA, hB, hC⟩ :=
        ih K rest (pos + 8) s (gOpen gs s) _ hdrop2 hwf' hs hgwf' hr1' hdep'
      refine ⟨st', ?_, hA, hB, hC⟩
      rw [show pos + (encodeMsgs order (Msg.namedStart k :: ms)).length
          = pos + 8 + (encodeMsgs order ms).length from by omega]
      rw [processBlock1_step_named checked fmts order data _ s pos k st (gActive gs s)
        (by omega) hk hk2 hwfm.2]
      rw [show gActive (gOpen gs s) s = st.groupNodes.length from by
        rw [gActive_open_self gs s (by omega)]; omega] at heq
      exact heq
    | regionEnd =>
      have hdropm : data.drop pos
          = leBytes 4 RegionEnd ++ (encodeMsgs order ms ++ rest) := by
        rw [hdrop, encodeMsgs_cons]
        simp only [encodeMsg, List.append_assoc]
      have hk : readAt 4 data pos = some RegionEnd :=
        readAt_of_drop hdropm (by decide)
      have hlen : (encodeMsgs order (Msg.regionEnd :: ms)).length
          = 4 + (encodeMsgs order ms).length := by
        rw [encodeMsgs_cons, List.length_append, length_encodeMsg_end]
      have hdrop2 : data.drop (pos + 4) = encodeMsgs order ms ++ rest :=
        drop_add_of_drop hdropm (length_leBytes 4 _)
      have hdd : 0 < (gs.stks.getD s []).length - 1 ∧
          depthOk ((gs.stks.getD s []).length - 1 - 1) (ms ++ K) := hdep
      have h2 : 2 ≤ (gs.stks.getD s []).length := by omega
      have hgwf' : GhostWF sc (gstep gs (s, .regionEnd)) :=
        gEnd_WF sc gs s hs h2 ⟨hsl, hpl, hol, hscl, hstk, hgrp⟩
      have hr1' := R1_end sc gs st s hs h2 ⟨hsl, hpl, hol, hscl, hstk, hgrp⟩ hr1
      have hdep' : depthOk
          ((((gstep gs (s, .regionEnd)).stks.getD s []).length - 1)) (ms ++ K) := by
        rw [gstep_end_stks, getD_set_self _ _ _ _ (by omega), List.length_tail]
        exact hdd.2
      obtain ⟨st', heq, hA, hB, hC⟩ :=
        ih K rest (pos + 4) s (gstep gs (s, .regionEnd)) _ hdrop2 hwf' hs hgwf' hr1' hdep'
      refine ⟨st', ?_, hA, hB, hC⟩
      rw [show pos + (encodeMsgs order (Msg.regionEnd :: ms)).length
          = pos + 4 + (encodeMsgs order ms).length from by omega]
      rw [processBlock1_step_end checked fmts order data _ s pos st (gActive gs s)
        (by omega) hk]
      have hpnew : gActive (gstep gs (s, .regionEnd)) s
          = (st.groupNodes.getD (gActive gs s) default).parent := by
        rw [gActive_end_self gs s (by omega)]
        cases hst : gs.stks.getD s [] with
        | nil => rw [hst] at h2; simp at h2
        | cons g r =>
          cases r with
          | nil => rw [hst] at h2; simp at h2
          | cons g2 r2 =>
            have hgact : gActive gs s = g := by unfold gActive; rw [hst]; rfl
            have hchain := hstk s hs
            rw [hst] at hchain
            obtain ⟨-, hglt, hg3, -⟩ := hchain
            have hgk : g < gs.kids.length := by omega
            obtain ⟨-, hpar, -, -⟩ := hr1.2.2.2.2.2 g hgk
            rw [hgact, hpar, hg3]
            rfl
      rw [hpnew] at heq
      exact heq
    | message key o payload =>
      have hdropm : data.drop pos
          = leBytes 4 key ++ ((if order then leBytes 8 o else [])
            ++ (payload ++ (encodeMsgs order ms ++ rest))) := by
        rw [hdrop, encodeMsgs_cons]
        simp only [encodeMsg, List.append_assoc]
      have hk : readAt 4 data pos = some key :=
        readAt_of_drop hdropm (by exact hwfm.1)
      have hm : alookup fmts key = some payload.length := hwfm.2.2.1
      have hIlen : (if order then leBytes 8 o else []).length
          = (if order then 8 else 0) := by
        cases order <;> simp [length_leBytes]
      have hlen : (encodeMsgs order (Msg.message key o payload :: ms)).length
          = 4 + (if order then 8 else 0) + payload.length
            + (encodeMsgs order ms).length := by
        rw [encodeMsgs_cons, List.length_append, length_encodeMsg_msg]
      have hdropI : data.drop (pos + 4)
          = (if order then leBytes 8 o else [])
            ++ (payload ++ (encodeMsgs order ms ++ rest)) :=
        drop_add_of_drop hdropm (length_leBytes 4 key)
      have hdropP : data.drop (pos + 4 + (if order then 8 else 0))
          = payload ++ (encodeMsgs order ms ++ rest) :=
        drop_add_of_drop hdropI hIlen
      have hdrop2 : data.drop (pos + 4 + payload.length + (if order then 8 else 0))
          = encodeMsgs order ms ++ rest := by
        have h := drop_add_of_drop hdropP rfl
        rwa [show pos + 4 + (if order then 8 else 0) + payload.length
          = pos + 4 + payload.length + (if order then 8 else 0) from by omega] at h
      have hgwf' : GhostWF sc (gstep gs (s, .message key o payload)) :=
        gMsg_WF sc gs s key o payload hs ⟨hsl, hpl, hol, hscl, hstk, hgrp⟩
      have hr1' := R1_msg sc gs st s key o payload hs
        ⟨hsl, hpl, hol, hscl, hstk, hgrp⟩ hr1
      have hdep' : depthOk
          ((((gstep gs (s, .message key o payload)).stks.getD s []).length - 1))
          (ms ++ K) := hdep
      obtain ⟨st', heq, hA, hB, hC⟩ :=
        ih K rest (pos + 4 + payload.length + (if order then 8 else 0)) s
          (gstep gs (s, .message key o payload)) _ hdrop2 hwf' hs hgwf' hr1' hdep'
      refine ⟨st', ?_, hA, hB, hC⟩
      rw [show pos + (encodeMsgs order (Msg.message key o payload :: ms)).length
          = pos + 4 + payload.length + (if order then 8 else 0)
            + (encodeMsgs order ms).length from by omega]
      rw [processBlock1_step_msg checked fmts order data _ s pos key payload.length
        st (gActive gs s) (by omega) hk hwfm.2.1 hm]
      exact heq


/-- The ghost state after a whole list of blocks. -/
def gTrace (gs : Ghost) (blocks : List Block) : Ghost :=
  blocks.foldl (fun g b => gsteps b.stream g b.msgs) gs

theorem gTrace_cons (gs : Ghost) (b : Block) (bs : List Block) :
    gTrace gs (b :: bs) = gTrace (gsteps b.stream gs b.msgs) bs := rfl

theorem streamMsgs_cons_self (b : Block) (bs : List Block) :
    streamMsgs b.stream (b :: bs) = b.msgs ++ streamMsgs b.stream bs := by
  unfold streamMsgs
  rw [List.filter_cons, if_pos (by simp)]
  rw [List.flatMap_cons]

theorem streamMsgs_cons_ne (s : Nat) (b : Block) (bs : List Block) (h : b.stream ≠ s) :
    streamMsgs s (b :: bs) = streamMsgs s bs := by
  unfold streamMsgs
  rw [List.filter_cons, if_neg (by simpa using h)]

set_option maxHeartbeats 1000000 in
theorem processLog1_done (checked : Bool) (fmts : List (Nat × Nat)) (order : Bool)
    (data : List Nat) (pos : Nat) (st : P1State) (h : pos = data.length) :
    processLog1 checked fmts order data pos st = .ok st := by
  unfold processLog1
  rw [dif_neg (by omega), if_neg (by simp [h])]

set_option maxHeartbeats 1000000 in
theorem processLog1_step (checked : Bool) (fmts : List (Nat × Nat)) (order : Bool)
    (data : List Nat) (pos sI bSz pos' : Nat) (st st' : P1State)
    (hlt : pos < data.length)
    (hsr : readAt 8 data pos = some sI)
    (hbr : readAt 8 data (pos + 8) = some bSz)
    (hg : sI < st.activeParentNode.length)
    (hblk : processBlock1 checked fmts order data (pos + 16 + bSz) sI (pos + 16) st
      (st.activeParentNode.getD sI 0) = .ok (pos', st')) :
    processLog1 checked fmts order data pos st
      = processLog1 checked fmts order data pos' st' := by
  conv_lhs => rw [processLog1]
  rw [dif_pos hlt, hsr, hbr]
  dsimp only
  rw [if_pos hg]
  split
  · next e heq2 => rw [heq2] at hblk; exact absurd hblk (by simp)
  · next a b heq2 =>
    rw [heq2] at hblk
    simp only [Except.ok.injEq, Prod.mk.injEq] at hblk
    rw [hblk.1, hblk.2]

/-- Pass 1 over a whole well-formed encoded log: it cannot fail (in
either mode) and its final state matches the ghost trace. -/
theorem processLog1_sim (checked : Bool) (fmts : List (Nat × Nat)) (order : Bool)
    (sc : Nat) (hsc : sc < 2 ^ 64) (data : List Nat) :
    ∀ (blocks : List Block) (pos : Nat) (gs : Ghost) (st : P1State),
    data.drop pos = encodeLog order blocks →
    pos ≤ data.length →
    (∀ b ∈ blocks, b.stream < sc ∧ (encodeMsgs order b.msgs).length < 2 ^ 64 ∧
      ∀ m ∈ b.msgs, WfMsg fmts m) →
    GhostWF sc gs → R1 sc gs st →
    (∀ s, s < sc → depthOk ((gs.stks.getD s []).length - 1) (streamMsgs s blocks)) →
    ∃ st' : P1State,
      processLog1 checked fmts order data pos st = .ok st' ∧
      GhostWF sc (gTrace gs blocks) ∧ R1 sc (gTrace gs blocks) st' := by
  intro blocks
  induction blocks with
  | nil =>
    intro pos gs st hdrop hpos hwf hgwf hr1 hdeps
    have hlen : data.length - pos = 0 := by
      have h := congrArg List.length hdrop
      rw [List.length_drop] at h
      simpa [encodeLog] using h
    exact ⟨st, processLog1_done checked fmts order data pos st (by omega), hgwf, hr1⟩
  | cons b bs ih =>
    intro pos gs st hdrop hpos hwf hgwf hr1 hdeps
    obtain ⟨hbs, hbig, hbwf⟩ := hwf b (List.mem_cons_self b bs)
    have hwf' : ∀ x ∈ bs, x.stream < sc ∧ (encodeMsgs order x.msgs).length < 2 ^ 64 ∧
        ∀ m ∈ x.msgs, WfMsg fmts m := fun x hx => hwf x (List.mem_cons_of_mem b hx)
    have hdropb : data.drop pos
        = leBytes 8 b.stream ++ (leBytes 8 (encodeMsgs order b.msgs).length
          ++ (encodeMsgs order b.msgs ++ encodeLog order bs)) := by
      rw [hdrop]
      show encodeLog order (b :: bs) = _
      unfold encodeLog
      rw [List.map_cons, List.flatten_cons]
      unfold encodeBlock
      simp only [List.append_assoc]
    have hsr : readAt 8 data pos = some b.stream :=
      readAt_of_drop hdropb (by have : (2 : Nat) ^ (8 * 8) = 2 ^ 64 := by norm_num
                                rw [this]; omega)
    have hdropsz : data.drop (pos + 8)
        = leBytes 8 (encodeMsgs order b.msgs).length
          ++ (encodeMsgs order b.msgs ++ encodeLog order bs) :=
      drop_add_of_drop hdropb (length_leBytes 8 _)
    have hbr : readAt 8 data (pos + 8) = some (encodeMsgs order b.msgs).length :=
      readAt_of_drop hdropsz (by have : (2 : Nat) ^ (8 * 8) = 2 ^ 64 := by norm_num
                                 rw [this]; omega)
    have hdropm : data.drop (pos + 16)
        = encodeMsgs order b.msgs ++ encodeLog order bs := by
      have h := drop_add_of_drop hdropsz (length_leBytes 8 _)
      rwa [show pos + 8 + 8 = pos + 16 from by omega] at h
    have hlt : pos < data.length := by
      have h := congrArg List.length hdropb
      rw [List.length_drop] at h
      simp only [List.length_append, length_leBytes] at h
      omega
    have hpos' : pos + 16 + (encodeMsgs order b.msgs).length ≤ data.length := by
      have h := congrArg List.length hdropb
      rw [List.length_drop] at h
      simp only [List.length_append, length_leBytes] at h
      omega
    have hal := hr1.2.1
    have hact := hr1.2.2.2.2.1
    have hdepb : depthOk ((gs.stks.getD b.stream []).length - 1)
        (b.msgs ++ streamMsgs b.stream bs) := by
      have h := hdeps b.stream hbs
      rwa [streamMsgs_cons_self] at h
    obtain ⟨st1, heq, hgwf', hr1', hdep'⟩ := processBlock1_sim checked fmts order data sc
      b.msgs (streamMsgs b.stream bs) (encodeLog order bs) (pos + 16) b.stream gs st
      hdropm hbwf hbs hgwf hr1 hdepb
    have hstep := processLog1_step checked fmts order data pos b.stream
      (encodeMsgs order b.msgs).length (pos + 16 + (encodeMsgs order b.msgs).length)
      st st1 hlt hsr hbr (by omega)
      (by rw [hact b.stream hbs]; exact heq)
    have hdrop' : data.drop (pos + 16 + (encodeMsgs order b.msgs).length)
        = encodeLog order bs :=
      drop_add_of_drop hdropm rfl
    have hdeps' : ∀ s, s < sc →
        depthOk (((gsteps b.stream gs b.msgs).stks.getD s []).length - 1)
          (streamMsgs s bs) := by
      intro s hs
      by_cases hss : s = b.stream
      · subst hss
        exact hdep'
      · rw [gsteps_stks_ne b.stream s (fun he => hss he.symm)]
        have h := hdeps s hs
        rwa [streamMsgs_cons_ne s b bs (fun he => hss he.symm)] at h
    obtain ⟨st2, heq2, hgwf2, hr12⟩ := ih (pos + 16 + (encodeMsgs order b.msgs).length)
      (gsteps b.stream gs b.msgs) st1 hdrop' hpos' hwf' hgwf' hr1' hdeps'
    exact ⟨st2, by rw [hstep]; exact heq2, hgwf2, hr12⟩


/-! ### The arena layout

Pass 2 allocates child ranges in group order: group `g`'s children occupy
the arena slice starting at `fcOf g`, of length the group's final child
count.  `nuF` is the arena slot of a group's own node. -/

/-- First child slot of group `g`, from the final per-group child counts
`F` (the final ghost `kids`). -/
def fcOf (sc : Nat) (F : List (List GChild)) (g : Nat) : Nat :=
  1 + sc + ((F.map List.length).take g).sum

/-- Total arena size: `1 + streamCount + Σ child counts`. -/
def NArena (sc : Nat) (F : List (List GChild)) : Nat := fcOf sc F F.length

/-- Arena slot of group `g`'s node: stream nodes right after the root,
region nodes at their ordinal inside the parent's child slice. -/
def nuF (sc : Nat) (F : List (List GChild)) (P O : List Nat) (g : Nat) : Nat :=
  if g < sc then 1 + g else fcOf sc F (P.getD g 0) + O.getD g 0

theorem sum_take_succ (l : List Nat) : ∀ (g : Nat), g < l.length →
    (l.take (g + 1)).sum = (l.take g).sum + l.getD g 0 := by
  induction l with
  | nil => intro g h; simp at h
  | cons a l ih =>
    intro g h
    cases g with
    | zero => simp
    | succ g =>
      rw [List.take_succ_cons, List.take_succ_cons, List.sum_cons, List.sum_cons,
        getD_cons_succ, ih g (by simpa using Nat.lt_of_succ_lt_succ h)]
      omega

theorem getD_map_length (F : List (List GChild)) (g : Nat) (h : g < F.length) :
    (F.map List.length).getD g 0 = (F.getD g []).length := by
  rw [List.getD_eq_getElem?_getD, List.getD_eq_getElem?_getD, List.getElem?_map]
  cases hg : F[g]? with
  | none => rw [List.getElem?_eq_none_iff] at hg; omega
  | some L => rfl

theorem fcOf_succ (sc : Nat) (F : List (List GChild)) (g : Nat) (h : g < F.length) :
    fcOf sc F (g + 1) = fcOf sc F g + (F.getD g []).length := by
  unfold fcOf
  rw [sum_take_succ _ g (by simpa using h), getD_map_length F g h]
  omega

theorem fcOf_le_succ (sc : Nat) (F : List (List GChild)) (g : Nat) :
    fcOf sc F g ≤ fcOf sc F (g + 1) := by
  by_cases h : g < F.length
  · rw [fcOf_succ sc F g h]
    omega
  · unfold fcOf
    rw [List.take_of_length_le (by simpa using Nat.le_of_not_lt h),
      List.take_of_length_le (by simp; omega)]

theorem fcOf_mono (sc : Nat) (F : List (List GChild)) :
    ∀ (d g : Nat), fcOf sc F g ≤ fcOf sc F (g + d) := by
  intro d
  induction d with
  | zero => intro g; exact Nat.le_refl _
  | succ d ih =>
    intro g
    calc fcOf sc F g ≤ fcOf sc F (g + d) := ih g
      _ ≤ fcOf sc F (g + d + 1) := fcOf_le_succ sc F (g + d)

theorem fcOf_mono_le (sc : Nat) (F : List (List GChild)) {g g' : Nat} (h : g ≤ g') :
    fcOf sc F g ≤ fcOf sc F g' := by
  have := fcOf_mono sc F (g' - g) g
  rwa [show g + (g' - g) = g' from by omega] at this

theorem fcOf_ge (sc : Nat) (F : List (List GChild)) (g : Nat) :
    1 + sc ≤ fcOf sc F g := by
  unfold fcOf
  omega

/-- Slots `fcOf g + c` of distinct groups (with `c` inside the group's
final count) are distinct. -/
theorem cellSlot_lt (sc : Nat) (F : List (List GChild)) {g1 g2 c1 : Nat}
    (h12 : g1 < g2) (hg1 : g1 < F.length) (hc1 : c1 < (F.getD g1 []).length) :
    fcOf sc F g1 + c1 < fcOf sc F g2 := by
  have h1 : fcOf sc F g1 + c1 < fcOf sc F (g1 + 1) := by
    rw [fcOf_succ sc F g1 hg1]
    omega
  have h2 : fcOf sc F (g1 + 1) ≤ fcOf sc F g2 := fcOf_mono_le sc F (by omega)
  omega

theorem cellSlot_inj (sc : Nat) (F : List (List GChild)) {g1 g2 c1 c2 : Nat}
    (hg1 : g1 < F.length) (hg2 : g2 < F.length)
    (hc1 : c1 < (F.getD g1 []).length) (hc2 : c2 < (F.getD g2 []).length)
    (h : fcOf sc F g1 + c1 = fcOf sc F g2 + c2) : g1 = g2 ∧ c1 = c2 := by
  rcases Nat.lt_trichotomy g1 g2 with hlt | heq | hgt
  · have := cellSlot_lt sc F hlt hg1 hc1
    have h2 : fcOf sc F g2 ≤ fcOf sc F g2 + c2 := by omega
    omega
  · subst heq
    exact ⟨rfl, by omega⟩
  · have := cellSlot_lt sc F hgt hg2 hc2
    omega

theorem cellSlot_lt_N (sc : Nat) (F : List (List GChild)) {g c : Nat}
    (hg : g < F.length) (hc : c < (F.getD g []).length) :
    fcOf sc F g + c < NArena sc F := by
  unfold NArena
  by_cases hg1 : g + 1 = F.length
  · rw [← hg1, fcOf_succ sc F g hg]
    omega
  · have h1 : fcOf sc F g + c < fcOf sc F (g + 1) := by
      rw [fcOf_succ sc F g hg]; omega
    have h2 : fcOf sc F (g + 1) ≤ fcOf sc F F.length := fcOf_mono_le sc F (by omega)
    omega

/-- Every slot after the root and stream nodes lies in exactly one
group's child slice. -/
theorem slot_coverage (sc : Nat) (F : List (List GChild)) :
    ∀ (n j : Nat), n ≤ F.length → 1 + sc ≤ j → j < fcOf sc F n →
    ∃ g, g < n ∧ fcOf sc F g ≤ j ∧ j < fcOf sc F g + (F.getD g []).length := by
  intro n
  induction n with
  | zero =>
    intro j hn hj hlt
    unfold fcOf at hlt
    simp at hlt
    omega
  | succ n ih =>
    intro j hn hj hlt
    by_cases hc : j < fcOf sc F n
    · obtain ⟨g, hg, h1, h2⟩ := ih j (by omega) hj hc
      exact ⟨g, by omega, h1, h2⟩
    · refine ⟨n, by omega, by omega, ?_⟩
      rw [fcOf_succ sc F n (by omega)] at hlt
      omega


/-! ### Ghost monotonicity, backward links, and counts -/

/-- Prefix order between ghost states: groups only gain children, and a
group's parent and ordinal never change. -/
def GhostLe (gs gs' : Ghost) : Prop :=
  gs.kids.length ≤ gs'.kids.length ∧
  (∀ g, g < gs.kids.length → gs.kids.getD g [] <+: gs'.kids.getD g []) ∧
  (∀ g, g < gs.kids.length → gs.parentOf.getD g 0 = gs'.parentOf.getD g 0 ∧
    gs.ords.getD g 0 = gs'.ords.getD g 0)

theorem GhostLe_refl (gs : Ghost) : GhostLe gs gs :=
  ⟨Nat.le_refl _, fun g _ => List.prefix_refl _, fun g _ => ⟨rfl, rfl⟩⟩

theorem GhostLe_trans {a b c : Ghost} (h1 : GhostLe a b) (h2 : GhostLe b c) :
    GhostLe a c := by
  obtain ⟨l1, p1, e1⟩ := h1
  obtain ⟨l2, p2, e2⟩ := h2
  refine ⟨by omega, fun g hg => (p1 g hg).trans (p2 g (by omega)), fun g hg => ?_⟩
  obtain ⟨a1, a2⟩ := e1 g hg
  obtain ⟨b1, b2⟩ := e2 g (by omega)
  exact ⟨a1.trans b1, a2.trans b2⟩

theorem gOpen_le (gs : Ghost) (s : Nat)
    (hp : gs.parentOf.length = gs.kids.length)
    (ho : gs.ords.length = gs.kids.length)
    (ha : gActive gs s < gs.kids.length) : GhostLe gs (gOpen gs s) := by
  refine ⟨by rw [gOpen_kids]; simp, ?_, ?_⟩
  · intro g hg
    rw [gOpen_kids, getD_append_lt _ _ _ _ (by simpa using hg)]
    by_cases hga : g = gActive gs s
    · subst hga
      rw [getD_set_self _ _ _ _ ha]
      exact List.prefix_append _ _
    · rw [getD_set_ne _ _ _ _ _ (fun he => hga he.symm)]
  · intro g hg
    rw [gOpen_parentOf]
    constructor
    · rw [getD_append_lt _ _ _ _ (by omega)]
    · show gs.ords.getD g 0
        = (gs.ords ++ [(gs.kids.getD (gActive gs s) []).length]).getD g 0
      rw [getD_append_lt _ _ _ _ (by omega)]

theorem gEnd_le (gs : Ghost) (s : Nat) : GhostLe gs (gstep gs (s, .regionEnd)) :=
  ⟨Nat.le_refl _, fun g _ => List.prefix_refl _, fun g _ => ⟨rfl, rfl⟩⟩

theorem gMsg_le (gs : Ghost) (s k o : Nat) (pl : List Nat)
    (ha : gActive gs s < gs.kids.length) :
    GhostLe gs (gstep gs (s, .message k o pl)) := by
  refine ⟨by rw [gstep_msg_kids]; simp, ?_, fun g _ => ⟨rfl, rfl⟩⟩
  intro g hg
  rw [gstep_msg_kids]
  by_cases hga : g = gActive gs s
  · subst hga
    rw [getD_set_self _ _ _ _ ha]
    exact List.prefix_append _ _
  · rw [getD_set_ne _ _ _ _ _ (fun he => hga he.symm)]

/-- Backward links: every `.reg g'` child cell belongs to the region that
recorded it. -/
def GhostBW (sc : Nat) (gs : Ghost) : Prop :=
  ∀ g c g', g < gs.kids.length → c < (gs.kids.getD g []).length →
    (gs.kids.getD g []).getD c .msg = .reg g' →
    sc ≤ g' ∧ g' < gs.kids.length ∧ gs.parentOf.getD g' 0 = g ∧
      gs.ords.getD g' 0 = c

theorem gOpen_BW (sc : Nat) (gs : Ghost) (s : Nat) (hs : s < sc)
    (hwf : GhostWF sc gs) (hbw : GhostBW sc gs) : GhostBW sc (gOpen gs s) := by
  obtain ⟨hsl, hpl, hol, hscl, hstk, hgrp⟩ := hwf
  have ha : gActive gs s < gs.kids.length := by
    have hh : gActive gs s < gs.parentOf.length :=
      StackWF_head_lt gs.parentOf sc s hs (by omega) _ (hstk s hs)
    omega
  intro g c g' hg hc hval
  rw [gOpen_kids] at hg hc hval
  simp only [List.length_append, List.length_set, List.length_cons,
    List.length_nil] at hg
  by_cases hgL : g = gs.kids.length
  · rw [getD_append_of_len _ _ _ _ (by simp; omega)] at hc
    simp at hc
  · have hgLt : g < gs.kids.length := by omega
    rw [getD_append_lt _ _ _ _ (by simpa using hgLt)] at hc hval
    rw [gOpen_parentOf]
    by_cases hga : g = gActive gs s
    · subst hga
      rw [getD_set_self _ _ _ _ ha] at hc hval
      rw [List.length_append, List.length_cons, List.length_nil] at hc
      by_cases hcl : c < (gs.kids.getD (gActive gs s) []).length
      · rw [getD_append_lt _ _ _ _ hcl] at hval
        obtain ⟨b1, b2, b3, b4⟩ := hbw _ c g' ha hcl hval
        refine ⟨b1, by rw [gOpen_kids]; simp; omega, ?_, ?_⟩
        · rw [getD_append_lt _ _ _ _ (by omega)]
          exact b3
        · show (gs.ords ++ [(gs.kids.getD (gActive gs s) []).length]).getD g' 0 = c
          rw [getD_append_lt _ _ _ _ (by omega)]
          exact b4
      · have hceq : c = (gs.kids.getD (gActive gs s) []).length := by omega
        rw [getD_append_of_len _ _ _ _ hceq] at hval
        have hg' : g' = gs.kids.length := by
          cases hval
          rfl
        subst hg'
        refine ⟨hscl, by rw [gOpen_kids]; simp, ?_, ?_⟩
        · rw [getD_append_of_len _ _ _ _ (by omega)]
        · show (gs.ords ++ [(gs.kids.getD (gActive gs s) []).length]).getD
            gs.kids.length 0 = c
          rw [getD_append_of_len _ _ _ _ (by omega)]
          omega
    · rw [getD_set_ne _ _ _ _ _ (fun he => hga he.symm)] at hc hval
      obtain ⟨b1, b2, b3, b4⟩ := hbw g c g' hgLt hc hval
      refine ⟨b1, by rw [gOpen_kids]; simp; omega, ?_, ?_⟩
      · rw [getD_append_lt _ _ _ _ (by omega)]
        exact b3
      · show (gs.ords ++ [(gs.kids.getD (gActive gs s) []).length]).getD g' 0 = c
        rw [getD_append_lt _ _ _ _ (by omega)]
        exact b4

theorem gMsg_BW (sc : Nat) (gs : Ghost) (s k o : Nat) (pl : List Nat) (hs : s < sc)
    (hwf : GhostWF sc gs) (hbw : GhostBW sc gs) :
    GhostBW sc (gstep gs (s, .message k o pl)) := by
  obtain ⟨hsl, hpl, hol, hscl, hstk, hgrp⟩ := hwf
  have ha : gActive gs s < gs.kids.length := by
    have hh : gActive gs s < gs.parentOf.length :=
      StackWF_head_lt gs.parentOf sc s hs (by omega) _ (hstk s hs)
    omega
  intro g c g' hg hc hval
  rw [gstep_msg_kids] at hg hc hval
  rw [List.length_set] at hg
  rw [gstep_msg_parentOf]
  by_cases hga : g = gActive gs s
  · subst hga
    rw [getD_set_self _ _ _ _ ha] at hc hval
    rw [List.length_append, List.length_cons, List.length_nil] at hc
    by_cases hcl : c < (gs.kids.getD (gActive gs s) []).length
    · rw [getD_append_lt _ _ _ _ hcl] at hval
      obtain ⟨b1, b2, b3, b4⟩ := hbw _ c g' ha hcl hval
      exact ⟨b1, by rw [gstep_msg_kids]; simpa using b2, b3, b4⟩
    · have hceq : c = (gs.kids.getD (gActive gs s) []).length := by omega
      rw [getD_append_of_len _ _ _ _ hceq] at hval
      exact absurd hval (by simp)
  · rw [getD_set_ne _ _ _ _ _ (fun he => hga he.symm)] at hc hval
    obtain ⟨b1, b2, b3, b4⟩ := hbw g c g' hg hc hval
    exact ⟨b1, by rw [gstep_msg_kids]; simpa using b2, b3, b4⟩

theorem gEnd_BW (sc : Nat) (gs : Ghost) (s : Nat) (hbw : GhostBW sc gs) :
    GhostBW sc (gstep gs (s, .regionEnd)) := hbw

/-- Total region-children count over all groups. -/
def regTotal (kids : List (List GChild)) : Nat := (kids.map countReg).sum

theorem regTotal_set (kids : List (List GChild)) (a : Nat) (K : List GChild)
    (h : a < kids.length) :
    regTotal (kids.set a K) + countReg (kids.getD a []) = regTotal kids + countReg K := by
  unfold regTotal
  rw [List.map_set]
  have := sum_set_getD (kids.map countReg) a (countReg K) (by simpa using h)
  rw [List.getD_eq_getElem?_getD, List.getElem?_map] at this
  rw [List.getD_eq_getElem?_getD]
  cases hg : kids[a]? with
  | none => rw [List.getElem?_eq_none_iff] at hg; omega
  | some L => rw [hg] at this; simpa [hg] using this

theorem regTotal_append (kids : List (List GChild)) (L : List GChild) :
    regTotal (kids ++ [L]) = regTotal kids + countReg L := by
  simp [regTotal]

def Msg.isStart : Msg → Bool
  | .anonStart => true
  | .namedStart _ => true
  | _ => false

def Msg.isMsg : Msg → Bool
  | .message _ _ _ => true
  | _ => false

def startCount (msgs : List Msg) : Nat := (msgs.filter Msg.isStart).length

def msgCount (msgs : List Msg) : Nat := (msgs.filter Msg.isMsg).length

/-- Region markers opened over a whole log. -/
def regionCountOf (blocks : List Block) : Nat :=
  (blocks.map (fun b => startCount b.msgs)).sum

/-- Messages over a whole log. -/
def messageCountOf (blocks : List Block) : Nat :=
  (blocks.map (fun b => msgCount b.msgs)).sum


theorem startCount_cons (m : Msg) (ms : List Msg) :
    startCount (m :: ms) = (if m.isStart then 1 else 0) + startCount ms := by
  unfold startCount
  rw [List.filter_cons]
  by_cases h : m.isStart
  · rw [if_pos h, if_pos h, List.length_cons]; omega
  · rw [if_neg h, if_neg (by simpa using h)]; omega

theorem msgCount_cons (m : Msg) (ms : List Msg) :
    msgCount (m :: ms) = (if m.isMsg then 1 else 0) + msgCount ms := by
  unfold msgCount
  rw [List.filter_cons]
  by_cases h : m.isMsg
  · rw [if_pos h, if_pos h, List.length_cons]; omega
  · rw [if_neg h, if_neg (by simpa using h)]; omega

/-- All pure-ghost facts carried along a block's messages: invariant
preservation, monotonicity, backward links, and the group/message
counts. -/
theorem ghostE_msgs (sc : Nat) : ∀ (msgs K : List Msg) (s : Nat) (gs : Ghost),
    s < sc → GhostWF sc gs →
    depthOk ((gs.stks.getD s []).length - 1) (msgs ++ K) →
    GhostWF sc (gsteps s gs msgs) ∧
    depthOk (((gsteps s gs msgs).stks.getD s []).length - 1) K ∧
    GhostLe gs (gsteps s gs msgs) ∧
    (GhostBW sc gs → GhostBW sc (gsteps s gs msgs)) ∧
    (gsteps s gs msgs).kids.length = gs.kids.length + startCount msgs ∧
    msgTotal (gsteps s gs msgs).kids = msgTotal gs.kids + msgCount msgs ∧
    regTotal (gsteps s gs msgs).kids = regTotal gs.kids + startCount msgs := by
  intro msgs
  induction msgs with
  | nil =>
    intro K s gs hs hgwf hdep
    exact ⟨hgwf, hdep, GhostLe_refl gs, fun h => h, by simp [gsteps, startCount],
      by simp [gsteps, msgCount], by simp [gsteps, startCount]⟩
  | cons m ms ih =>
    intro K s gs hs hgwf hdep
    obtain ⟨hsl, hpl, hol, hscl, hstk, hgrp⟩ := hgwf
    have ha : gActive gs s < gs.kids.length := by
      have hh : gActive gs s < gs.parentOf.length :=
        StackWF_head_lt gs.parentOf sc s hs (by omega) _ (hstk s hs)
      omega
    have hne : gs.stks.getD s [] ≠ [] := StackWF_ne_nil (hstk s hs)
    have hslen : 1 ≤ (gs.stks.getD s []).length := by
      cases hcon : gs.stks.getD s [] with
      | nil => exact absurd hcon hne
      | cons a l => simp
    have hkey : ∀ (m' : Msg), gstep gs (s, m') = gstep gs (s, m') := fun _ => rfl
    cases m with
    | anonStart =>
      have hgwf1 : GhostWF sc (gOpen gs s) :=
        gOpen_WF sc gs s hs ⟨hsl, hpl, hol, hscl, hstk, hgrp⟩
      have hdep1 : depthOk (((gOpen gs s).stks.getD s []).length - 1) (ms ++ K) := by
        rw [gOpen_stks, getD_set_self _ _ _ _ (by omega), List.length_cons]
        have hd : depthOk ((gs.stks.getD s []).length - 1 + 1) (ms ++ K) := hdep
        rwa [show (gs.stks.getD s []).length - 1 + 1 = (gs.stks.getD s []).length
          from by omega] at hd
      obtain ⟨w1, w2, w3, w4, w5, w6, w7⟩ := ih K s (gOpen gs s) hs hgwf1 hdep1
      have hle1 : GhostLe gs (gOpen gs s) := gOpen_le gs s hpl hol ha
      have hkids1 : (gOpen gs s).kids.length = gs.kids.length + 1 := by
        rw [gOpen_kids]; simp
      have hmt1 : msgTotal (gOpen gs s).kids = msgTotal gs.kids := by
        rw [gOpen_kids, msgTotal_append, countMsg_nil]
        have h3 := msgTotal_set gs.kids (gActive gs s)
          ((gs.kids.getD (gActive gs s) []) ++ [GChild.reg gs.kids.length]) ha
        rw [countMsg_append_reg] at h3
        omega
      have hrt1 : regTotal (gOpen gs s).kids = regTotal gs.kids + 1 := by
        rw [gOpen_kids, regTotal_append, countReg_nil]
        have h3 := regTotal_set gs.kids (gActive gs s)
          ((gs.kids.getD (gActive gs s) []) ++ [GChild.reg gs.kids.length]) ha
        rw [countReg_append_reg] at h3
        omega
      refine ⟨w1, w2, GhostLe_trans hle1 w3,
        fun hbw => w4 (gOpen_BW sc gs s hs ⟨hsl, hpl, hol, hscl, hstk, hgrp⟩ hbw),
        ?_, ?_, ?_⟩
      · rw [gsteps_cons, startCount_cons]
        show (gsteps s (gOpen gs s) ms).kids.length = _
        rw [w5, hkids1]
        simp [Msg.isStart]
        omega
      · rw [gsteps_cons, msgCount_cons]
        show msgTotal (gsteps s (gOpen gs s) ms).kids = _
        rw [w6, hmt1]
        simp [Msg.isMsg]
      · rw [gsteps_cons, startCount_cons]
        show regTotal (gsteps s (gOpen gs s) ms).kids = _
        rw [w7, hrt1]
        simp [Msg.isStart]
        omega
    | namedStart k =>
      have hgwf1 : GhostWF sc (gOpen gs s) :=
        gOpen_WF sc gs s hs ⟨hsl, hpl, hol, hscl, hstk, hgrp⟩
      have hdep1 : depthOk (((gOpen gs s).stks.getD s []).length - 1) (ms ++ K) := by
        rw [gOpen_stks, getD_set_self _ _ _ _ (by omega), List.length_cons]
        have hd : depthOk ((gs.stks.getD s []).length - 1 + 1) (ms ++ K) := hdep
        rwa [show (gs.stks.getD s []).length - 1 + 1 = (gs.stks.getD s []).length
          from by omega] at hd
      obtain ⟨w1, w2, w3, w4, w5, w6, w7⟩ := ih K s (gOpen gs s) hs hgwf1 hdep1
      have hle1 : GhostLe gs (gOpen gs s) := gOpen_le gs s hpl hol ha
      have hkids1 : (gOpen gs s).kids.length = gs.kids.length + 1 := by
        rw [gOpen_kids]; simp
      have hmt1 : msgTotal (gOpen gs s).kids = msgTotal gs.kids := by
        rw [gOpen_kids, msgTotal_append, countMsg_nil]
        have h3 := msgTotal_set gs.kids (gActive gs s)
          ((gs.kids.getD (gActive gs s) []) ++ [GChild.reg gs.kids.length]) ha
        rw [countMsg_append_reg] at h3
        omega
      have hrt1 : regTotal (gOpen gs s).kids = regTotal gs.kids + 1 := by
        rw [gOpen_kids, regTotal_append, countReg_nil]
        have h3 := regTotal_set gs.kids (gActive gs s)
          ((gs.kids.getD (gActive gs s) []) ++ [GChild.reg gs.kids.length]) ha
        rw [countReg_append_reg] at h3
        omega
      refine ⟨w1, w2, GhostLe_trans hle1 w3,
        fun hbw => w4 (gOpen_BW sc gs s hs ⟨hsl, hpl, hol, hscl, hstk, hgrp⟩ hbw),
        ?_, ?_, ?_⟩
      · rw [gsteps_cons, startCount_cons]
        show (gsteps s (gOpen gs s) ms).kids.length = _
        rw [w5, hkids1]
        simp [Msg.isStart]
        omega
      · rw [gsteps_cons, msgCount_cons]
        show msgTotal (gsteps s (gOpen gs s) ms).kids = _
        rw [w6, hmt1]
        simp [Msg.isMsg]
      · rw [gsteps_cons, startCount_cons]
        show regTotal (gsteps s (gOpen gs s) ms).kids = _
        rw [w7, hrt1]
        simp [Msg.isStart]
        omega
    | regionEnd =>
      have hdd : 0 < (gs.stks.getD s []).length - 1 ∧
          depthOk ((gs.stks.getD s []).length - 1 - 1) (ms ++ K) := hdep
      have h2 : 2 ≤ (gs.stks.getD s []).length := by omega
      have hgwf1 : GhostWF sc (gstep gs (s, .regionEnd)) :=
        gEnd_WF sc gs s hs h2 ⟨hsl, hpl, hol, hscl, hstk, hgrp⟩
      have hdep1 : depthOk
          ((((gstep gs (s, .regionEnd)).stks.getD s []).length - 1)) (ms ++ K) := by
        rw [gstep_end_stks, getD_set_self _ _ _ _ (by omega), List.length_tail]
        exact hdd.2
      obtain ⟨w1, w2, w3, w4, w5, w6, w7⟩ :=
        ih K s (gstep gs (s, .regionEnd)) hs hgwf1 hdep1
      refine ⟨w1, w2, GhostLe_trans (gEnd_le gs s) w3,
        fun hbw => w4 (gEnd_BW sc gs s hbw), ?_, ?_, ?_⟩
      · rw [gsteps_cons, startCount_cons, w5, gstep_end_kids]
        simp [Msg.isStart]
      · rw [gsteps_cons, msgCount_cons, w6, gstep_end_kids]
        simp [Msg.isMsg]
      · rw [gsteps_cons, startCount_cons, w7, gstep_end_kids]
        simp [Msg.isStart]
    | message k o pl =>
      have hgwf1 : GhostWF sc (gstep gs (s, .message k o pl)) :=
        gMsg_WF sc gs s k o pl hs ⟨hsl, hpl, hol, hscl, hstk, hgrp⟩
      have hdep1 : depthOk
          ((((gstep gs (s, .message k o pl)).stks.getD s []).length - 1))
          (ms ++ K) := hdep
      obtain ⟨w1, w2, w3, w4, w5, w6, w7⟩ :=
        ih K s (gstep gs (s, .message k o pl)) hs hgwf1 hdep1
      have hmt1 : msgTotal (gstep gs (s, .message k o pl)).kids
          = msgTotal gs.kids + 1 := by
        rw [gstep_msg_kids]
        have h3 := msgTotal_set gs.kids (gActive gs s)
          ((gs.kids.getD (gActive gs s) []) ++ [GChild.msg]) ha
        rw [countMsg_append_msg] at h3
        omega
      have hrt1 : regTotal (gstep gs (s, .message k o pl)).kids
          = regTotal gs.kids := by
        rw [gstep_msg_kids]
        have h3 := regTotal_set gs.kids (gActive gs s)
          ((gs.kids.getD (gActive gs s) []) ++ [GChild.msg]) ha
        rw [countReg_append_msg] at h3
        omega
      refine ⟨w1, w2, GhostLe_trans (gMsg_le gs s k o pl ha) w3,
        fun hbw => w4 (gMsg_BW sc gs s k o pl hs ⟨hsl, hpl, hol, hscl, hstk, hgrp⟩ hbw),
        ?_, ?_, ?_⟩
      · rw [gsteps_cons, startCount_cons, w5]
        show _ = gs.kids.length + ((if false = true then 1 else 0) + startCount ms)
        rw [gstep_msg_kids]
        simp
      · rw [gsteps_cons, msgCount_cons, w6, hmt1]
        simp [Msg.isMsg]
        omega
      · rw [gsteps_cons, startCount_cons, w7, hrt1]
        simp [Msg.isStart]

/-- The same facts over a whole list of blocks. -/
theorem ghostE_blocks (sc : Nat) : ∀ (blocks : List Block) (gs : Ghost),
    GhostWF sc gs →
    (∀ b ∈ blocks, b.stream < sc) →
    (∀ s, s < sc → depthOk ((gs.stks.getD s []).length - 1) (streamMsgs s blocks)) →
    GhostWF sc (gTrace gs blocks) ∧
    GhostLe gs (gTrace gs blocks) ∧
    (GhostBW sc gs → GhostBW sc (gTrace gs blocks)) ∧
    (gTrace gs blocks).kids.length = gs.kids.length + regionCountOf blocks ∧
    msgTotal (gTrace gs blocks).kids = msgTotal gs.kids + messageCountOf blocks ∧
    regTotal (gTrace gs blocks).kids = regTotal gs.kids + regionCountOf blocks := by
  intro blocks
  induction blocks with
  | nil =>
    intro gs hgwf hbs hdeps
    exact ⟨hgwf, GhostLe_refl gs, fun h => h, by simp [gTrace, regionCountOf],
      by simp [gTrace, messageCountOf], by simp [gTrace, regionCountOf]⟩
  | cons b bs ih =>
    intro gs hgwf hbs hdeps
    have hbsc : b.stream < sc := hbs b (List.mem_cons_self b bs)
    have hdepb : depthOk ((gs.stks.getD b.stream []).length - 1)
        (b.msgs ++ streamMsgs b.stream bs) := by
      have h := hdeps b.stream hbsc
      rwa [streamMsgs_cons_self] at h
    obtain ⟨w1, w2, w3, w4, w5, w6, w7⟩ :=
      ghostE_msgs sc b.msgs (streamMsgs b.stream bs) b.stream gs hbsc hgwf hdepb
    have hdeps' : ∀ s, s < sc →
        depthOk (((gsteps b.stream gs b.msgs).stks.getD s []).length - 1)
          (streamMsgs s bs) := by
      intro s hs
      by_cases hss : s = b.stream
      · subst hss
        exact w2
      · rw [gsteps_stks_ne b.stream s (fun he => hss he.symm)]
        have h := hdeps s hs
        rwa [streamMsgs_cons_ne s b bs (fun he => hss he.symm)] at h
    obtain ⟨v1, v2, v3, v4, v5, v6⟩ := ih (gsteps b.stream gs b.msgs) w1
      (fun x hx => hbs x (List.mem_cons_of_mem b hx)) hdeps'
    refine ⟨v1, GhostLe_trans w3 v2, fun hbw => v3 (w4 hbw), ?_, ?_, ?_⟩
    · rw [gTrace_cons, v4, w5]
      unfold regionCountOf
      rw [List.map_cons, List.sum_cons]
      omega
    · rw [gTrace_cons, v5, w6]
      unfold messageCountOf
      rw [List.map_cons, List.sum_cons]
      omega
    · rw [gTrace_cons, v6, w7]
      unfold regionCountOf
      rw [List.map_cons, List.sum_cons]
      omega


/-! ### Step lemmas for pass 2 -/

theorem processBlock2_done (checked : Bool) (fmts : List (Nat × Nat)) (order : Bool)
    (data : List Nat) (G : List GroupNode) (s pos : Nat) (st : P2State) (p : Nat) :
    processBlock2 checked fmts order data G pos s pos st p = .ok (pos, st) := by
  unfold processBlock2
  rw [dif_neg (Nat.lt_irrefl pos), if_neg (by simp)]

theorem processBlock2_step_anon (checked : Bool) (fmts : List (Nat × Nat))
    (order : Bool) (data : List Nat) (G : List GroupNode) (blockEnd s pos fc : Nat)
    (st : P2State) (p : Nat)
    (hlt : pos < blockEnd) (hk : readAt 4 data pos = some AnonymousRegionStart)
    (hfc : (st.nodes.getD p default).firstChild = some fc)
    (hguard : fc + (st.nodes.getD p default).childCount < st.nodes.length ∧
      st.nextGroupIndex < G.length) :
    processBlock2 checked fmts order data G blockEnd s pos st p
      = processBlock2 checked fmts order data G blockEnd s (pos + 4)
          ⟨(st.nodes.set p
              ⟨(st.nodes.getD p default).type, (st.nodes.getD p default).formatType,
                (st.nodes.getD p default).index, (st.nodes.getD p default).parent,
                (st.nodes.getD p default).firstChild,
                (st.nodes.getD p default).childCount + 1,
                (st.nodes.getD p default).data, (st.nodes.getD p default).initCount⟩).set
            (fc + (st.nodes.getD p default).childCount)
            ⟨.region,
              ((st.nodes.set p
                ⟨(st.nodes.getD p default).type, (st.nodes.getD p default).formatType,
                  (st.nodes.getD p default).index, (st.nodes.getD p default).parent,
                  (st.nodes.getD p default).firstChild,
                  (st.nodes.getD p default).childCount + 1,
                  (st.nodes.getD p default).data,
                  (st.nodes.getD p default).initCount⟩).getD
                    (fc + (st.nodes.getD p default).childCount) default).formatType,
              ((st.nodes.set p
                ⟨(st.nodes.getD p default).type, (st.nodes.getD p default).formatType,
                  (st.nodes.getD p default).index, (st.nodes.getD p default).parent,
                  (st.nodes.getD p default).firstChild,
                  (st.nodes.getD p default).childCount + 1,
                  (st.nodes.getD p default).data,
                  (st.nodes.getD p default).initCount⟩).getD
                    (fc + (st.nodes.getD p default).childCount) default).index,
              some p,
              if 0 < (G.getD st.nextGroupIndex default).groupChildCount
                  + (G.getD st.nextGroupIndex default).messageChildCount
                then some st.nextIndex
                else ((st.nodes.set p
                  ⟨(st.nodes.getD p default).type, (st.nodes.getD p default).formatType,
                    (st.nodes.getD p default).index, (st.nodes.getD p default).parent,
                    (st.nodes.getD p default).firstChild,
                    (st.nodes.getD p default).childCount + 1,
                    (st.nodes.getD p default).data,
                    (st.nodes.getD p default).initCount⟩).getD
                      (fc + (st.nodes.getD p default).childCount) default).firstChild,
              ((st.nodes.set p
                ⟨(st.nodes.getD p default).type, (st.nodes.getD p default).formatType,
                  (st.nodes.getD p default).index, (st.nodes.getD p default).parent,
                  (st.nodes.getD p default).firstChild,
                  (st.nodes.getD p default).childCount + 1,
                  (st.nodes.getD p default).data,
                  (st.nodes.getD p default).initCount⟩).getD
                    (fc + (st.nodes.getD p default).childCount) default).childCount,
              ((st.nodes.set p
                ⟨(st.nodes.getD p default).type, (st.nodes.getD p default).formatType,
                  (st.nodes.getD p default).index, (st.nodes.getD p default).parent,
                  (st.nodes.getD p default).firstChild,
                  (st.nodes.getD p default).childCount + 1,
                  (st.nodes.getD p default).data,
                  (st.nodes.getD p default).initCount⟩).getD
                    (fc + (st.nodes.getD p default).childCount) default).data,
              ((st.nodes.set p
                ⟨(st.nodes.getD p default).type, (st.nodes.getD p default).formatType,
                  (st.nodes.getD p default).index, (st.nodes.getD p default).parent,
                  (st.nodes.getD p default).firstChild,
                  (st.nodes.getD p default).childCount + 1,
                  (st.nodes.getD p default).data,
                  (st.nodes.getD p default).initCount⟩).getD
                    (fc + (st.nodes.getD p default).childCount) default).initCount + 1⟩,
            st.nextGroupIndex + 1,
            if 0 < (G.getD st.nextGroupIndex default).groupChildCount
                + (G.getD st.nextGroupIndex default).messageChildCount
              then st.nextIndex + ((G.getD st.nextGroupIndex default).groupChildCount
                + (G.getD st.nextGroupIndex default).messageChildCount)
              else st.nextIndex,
            st.activeParentNode.set s (fc + (st.nodes.getD p default).childCount)⟩
          (fc + (st.nodes.getD p default).childCount) := by
  conv_lhs => rw [processBlock2]
  rw [dif_pos hlt, hk]
  dsimp only
  rw [if_pos rfl, hfc]
  dsimp only
  rw [if_pos hguard]


theorem processBlock2_step_named (checked : Bool) (fmts : List (Nat × Nat))
    (order : Bool) (data : List Nat) (G : List GroupNode)
    (blockEnd s pos key2 sz fc : Nat) (st : P2State) (p : Nat)
    (hlt : pos < blockEnd) (hk : readAt 4 data pos = some NamedRegionStart)
    (hk2 : readAt 4 data (pos + 4) = some key2)
    (halo : alookup fmts key2 = some sz)
    (hfc : (st.nodes.getD p default).firstChild = some fc)
    (hguard : fc + (st.nodes.getD p default).childCount < st.nodes.length ∧
      st.nextGroupIndex < G.length) :
    processBlock2 checked fmts order data G blockEnd s pos st p
      = processBlock2 checked fmts order data G blockEnd s (pos + 8)
          ⟨(st.nodes.set p
              ⟨(st.nodes.getD p default).type, (st.nodes.getD p default).formatType,
                  (st.nodes.getD p default).index, (st.nodes.getD p default).parent,
                  (st.nodes.getD p default).firstChild,
                  (st.nodes.getD p default).childCount + 1,
                  (st.nodes.getD p default).data,
                  (st.nodes.getD p default).initCount⟩).set
            (fc + (st.nodes.getD p default).childCount)
            ⟨.region, some key2,
              ((st.nodes.set p
                ⟨(st.nodes.getD p default).type, (st.nodes.getD p default).formatType,
                  (st.nodes.getD p default).index, (st.nodes.getD p default).parent,
                  (st.nodes.getD p default).firstChild,
                  (st.nodes.getD p default).childCount + 1,
                  (st.nodes.getD p default).data,
                  (st.nodes.getD p default).initCount⟩).getD
                    (fc + (st.nodes.getD p default).childCount) default).index,
              some p,
              if 0 < (G.getD st.nextGroupIndex default).groupChildCount
                + (G.getD st.nextGroupIndex default).messageChildCount
                then some st.nextIndex
                else ((st.nodes.set p
                ⟨(st.nodes.getD p default).type, (st.nodes.getD p default).formatType,
                  (st.nodes.getD p default).index, (st.nodes.getD p default).parent,
                  (st.nodes.getD p default).firstChild,
                  (st.nodes.getD p default).childCount + 1,
                  (st.nodes.getD p default).data,
                  (st.nodes.getD p default).initCount⟩).getD
                    (fc + (st.nodes.getD p default).childCount) default).firstChild,
              ((st.nodes.set p
                ⟨(st.nodes.getD p default).type, (st.nodes.getD p default).formatType,
                  (st.nodes.getD p default).index, (st.nodes.getD p default).parent,
                  (st.nodes.getD p default).firstChild,
                  (st.nodes.getD p default).childCount + 1,
                  (st.nodes.getD p default).data,
                  (st.nodes.getD p default).initCount⟩).getD
                    (fc + (st.nodes.getD p default).childCount) default).childCount,
              ((st.nodes.set p
                ⟨(st.nodes.getD p default).type, (st.nodes.getD p default).formatType,
                  (st.nodes.getD p default).index, (st.nodes.getD p default).parent,
                  (st.nodes.getD p default).firstChild,
                  (st.nodes.getD p default).childCount + 1,
                  (st.nodes.getD p default).data,
                  (st.nodes.getD p default).initCount⟩).getD
                    (fc + (st.nodes.getD p default).childCount) default).data,
              ((st.nodes.set p
                ⟨(st.nodes.getD p default).type, (st.nodes.getD p default).formatType,
                  (st.nodes.getD p default).index, (st.nodes.getD p default).parent,
                  (st.nodes.getD p default).firstChild,
                  (st.nodes.getD p default).childCount + 1,
                  (st.nodes.getD p default).data,
                  (st.nodes.getD p default).initCount⟩).getD
                    (fc + (st.nodes.getD p default).childCount) default).initCount + 1⟩,
            st.nextGroupIndex + 1,
            if 0 < (G.getD st.nextGroupIndex default).groupChildCount
                + (G.getD st.nextGroupIndex default).messageChildCount
              then st.nextIndex + ((G.getD st.nextGroupIndex default).groupChildCount
                + (G.getD st.nextGroupIndex default).messageChildCount)
              else st.nextIndex,
            st.activeParentNode.set s (fc + (st.nodes.getD p default).childCount)⟩
          (fc + (st.nodes.getD p default).childCount) := by
  conv_lhs => rw [processBlock2]
  rw [dif_pos hlt, hk]
  dsimp only
  rw [if_neg (by decide), if_pos rfl, hk2]
  dsimp only
  rw [halo]
  dsimp only
  rw [hfc]
  dsimp only
  rw [if_pos hguard]

theorem processBlock2_step_end (checked : Bool) (fmts : List (Nat × Nat))
    (order : Bool) (data : List Nat) (G : List GroupNode) (blockEnd s pos pp : Nat)
    (st : P2State) (p : Nat)
    (hlt : pos < blockEnd) (hk : readAt 4 data pos = some RegionEnd)
    (hpp : (st.nodes.getD p default).parent = some pp) :
    processBlock2 checked fmts order data G blockEnd s pos st p
      = processBlock2 checked fmts order data G blockEnd s (pos + 4)
          ⟨st.nodes, st.nextGroupIndex, st.nextIndex,
            st.activeParentNode.set s pp⟩ pp := by
  conv_lhs => rw [processBlock2]
  rw [dif_pos hlt, hk]
  dsimp only
  rw [if_neg (by decide), if_neg (by decide), if_pos rfl, hpp]

theorem processBlock2_step_msgT (checked : Bool) (fmts : List (Nat × Nat))
    (order : Bool) (data : List Nat) (G : List GroupNode)
    (blockEnd s pos key messageSize idx fc : Nat) (st : P2State) (p : Nat)
    (ho : order = true)
    (hlt : pos < blockEnd) (hk : readAt 4 data pos = some key)
    (hne : ¬(key = 0 ∨ key = 1 ∨ key = 2))
    (hm : alookup fmts key = some messageSize)
    (hfc : (st.nodes.getD p default).firstChild = some fc)
    (hguard : fc + (st.nodes.getD p default).childCount < st.nodes.length)
    (hidx : readAt 8 data (pos + 4) = some idx) :
    processBlock2 checked fmts order data G blockEnd s pos st p
      = processBlock2 checked fmts order data G blockEnd s
          (pos + 4 + (if order then 8 else 0) + messageSize)
          ⟨(st.nodes.set p
              ⟨(st.nodes.getD p default).type, (st.nodes.getD p default).formatType,
                  (st.nodes.getD p default).index, (st.nodes.getD p default).parent,
                  (st.nodes.getD p default).firstChild,
                  (st.nodes.getD p default).childCount + 1,
                  (st.nodes.getD p default).data,
                  (st.nodes.getD p default).initCount⟩).set
            (fc + (st.nodes.getD p default).childCount)
            ⟨.message, some key, idx, some p,
              ((st.nodes.set p
                ⟨(st.nodes.getD p default).type, (st.nodes.getD p default).formatType,
                  (st.nodes.getD p default).index, (st.nodes.getD p default).parent,
                  (st.nodes.getD p default).firstChild,
                  (st.nodes.getD p default).childCount + 1,
                  (st.nodes.getD p default).data,
                  (st.nodes.getD p default).initCount⟩).getD
                    (fc + (st.nodes.getD p default).childCount) default).firstChild,
              ((st.nodes.set p
                ⟨(st.nodes.getD p default).type, (st.nodes.getD p default).formatType,
                  (st.nodes.getD p default).index, (st.nodes.getD p default).parent,
                  (st.nodes.getD p default).firstChild,
                  (st.nodes.getD p default).childCount + 1,
                  (st.nodes.getD p default).data,
                  (st.nodes.getD p default).initCount⟩).getD
                    (fc + (st.nodes.getD p default).childCount) default).childCount,
              if 0 < messageSize then some (pos + 4 + (if order then 8 else 0))
                else ((st.nodes.set p
                ⟨(st.nodes.getD p default).type, (st.nodes.getD p default).formatType,
                  (st.nodes.getD p default).index, (st.nodes.getD p default).parent,
                  (st.nodes.getD p default).firstChild,
                  (st.nodes.getD p default).childCount + 1,
                  (st.nodes.getD p default).data,
                  (st.nodes.getD p default).initCount⟩).getD
                    (fc + (st.nodes.getD p default).childCount) default).data,
              ((st.nodes.set p
                ⟨(st.nodes.getD p default).type, (st.nodes.getD p default).formatType,
                  (st.nodes.getD p default).index, (st.nodes.getD p default).parent,
                  (st.nodes.getD p default).firstChild,
                  (st.nodes.getD p default).childCount + 1,
                  (st.nodes.getD p default).data,
                  (st.nodes.getD p default).initCount⟩).getD
                    (fc + (st.nodes.getD p default).childCount) default).initCount + 1⟩,
            st.nextGroupIndex, st.nextIndex, st.activeParentNode⟩ p := by
  subst ho
  conv_lhs => rw [processBlock2]
  rw [dif_pos hlt, hk]
  dsimp only
  rw [if_neg (show ¬(key = AnonymousRegionStart) from fun hc => hne (Or.inl hc)),
    if_neg (show ¬(key = NamedRegionStart) from fun hc => hne (Or.inr (Or.inl hc))),
    if_neg (show ¬(key = RegionEnd) from fun hc => hne (Or.inr (Or.inr hc))), hm]
  dsimp only
  rw [hfc]
  dsimp only
  rw [if_pos hguard]
  rw [if_pos rfl, hidx]

theorem processBlock2_step_msgF (checked : Bool) (fmts : List (Nat × Nat))
    (order : Bool) (data : List Nat) (G : List GroupNode)
    (blockEnd s pos key messageSize fc : Nat) (st : P2State) (p : Nat)
    (ho : order = false)
    (hlt : pos < blockEnd) (hk : readAt 4 data pos = some key)
    (hne : ¬(key = 0 ∨ key = 1 ∨ key = 2))
    (hm : alookup fmts key = some messageSize)
    (hfc : (st.nodes.getD p default).firstChild = some fc)
    (hguard : fc + (st.nodes.getD p default).childCount < st.nodes.length) :
    processBlock2 checked fmts order data G blockEnd s pos st p
      = processBlock2 checked fmts order data G blockEnd s
          (pos + 4 + (if order then 8 else 0) + messageSize)
          ⟨(st.nodes.set p
              ⟨(st.nodes.getD p default).type, (st.nodes.getD p default).formatType,
                  (st.nodes.getD p default).index, (st.nodes.getD p default).parent,
                  (st.nodes.getD p default).firstChild,
                  (st.nodes.getD p default).childCount + 1,
                  (st.nodes.getD p default).data,
                  (st.nodes.getD p default).initCount⟩).set
            (fc + (st.nodes.getD p default).childCount)
            ⟨.message, some key,
              ((st.nodes.set p
                ⟨(st.nodes.getD p default).type, (st.nodes.getD p default).formatType,
                  (st.nodes.getD p default).index, (st.nodes.getD p default).parent,
                  (st.nodes.getD p default).firstChild,
                  (st.nodes.getD p default).childCount + 1,
                  (st.nodes.getD p default).data,
                  (st.nodes.getD p default).initCount⟩).getD
                    (fc + (st.nodes.getD p default).childCount) default).index,
              some p,
              ((st.nodes.set p
                ⟨(st.nodes.getD p default).type, (st.nodes.getD p default).formatType,
                  (st.nodes.getD p default).index, (st.nodes.getD p default).parent,
                  (st.nodes.getD p default).firstChild,
                  (st.nodes.getD p default).childCount + 1,
                  (st.nodes.getD p default).data,
                  (st.nodes.getD p default).initCount⟩).getD
                    (fc + (st.nodes.getD p default).childCount) default).firstChild,
              ((st.nodes.set p
                ⟨(st.nodes.getD p default).type, (st.nodes.getD p default).formatType,
                  (st.nodes.getD p default).index, (st.nodes.getD p default).parent,
                  (st.nodes.getD p default).firstChild,
                  (st.nodes.getD p default).childCount + 1,
                  (st.nodes.getD p default).data,
                  (st.nodes.getD p default).initCount⟩).getD
                    (fc + (st.nodes.getD p default).childCount) default).childCount,
              if 0 < messageSize then some (pos + 4 + (if order then 8 else 0))
                else ((st.nodes.set p
                ⟨(st.nodes.getD p default).type, (st.nodes.getD p default).formatType,
                  (st.nodes.getD p default).index, (st.nodes.getD p default).parent,
                  (st.nodes.getD p default).firstChild,
                  (st.nodes.getD p default).childCount + 1,
                  (st.nodes.getD p default).data,
                  (st.nodes.getD p default).initCount⟩).getD
                    (fc + (st.nodes.getD p default).childCount) default).data,
              ((st.nodes.set p
                ⟨(st.nodes.getD p default).type, (st.nodes.getD p default).formatType,
                  (st.nodes.getD p default).index, (st.nodes.getD p default).parent,
                  (st.nodes.getD p default).firstChild,
                  (st.nodes.getD p default).childCount + 1,
                  (st.nodes.getD p default).data,
                  (st.nodes.getD p default).initCount⟩).getD
                    (fc + (st.nodes.getD p default).childCount) default).initCount + 1⟩,
            st.nextGroupIndex, st.nextIndex, st.activeParentNode⟩ p := by
  subst ho
  conv_lhs => rw [processBlock2]
  rw [dif_pos hlt, hk]
  dsimp only
  rw [if_neg (show ¬(key = AnonymousRegionStart) from fun hc => hne (Or.inl hc)),
    if_neg (show ¬(key = NamedRegionStart) from fun hc => hne (Or.inr (Or.inl hc))),
    if_neg (show ¬(key = RegionEnd) from fun hc => hne (Or.inr (Or.inr hc))), hm]
  dsimp only
  rw [hfc]
  dsimp only
  rw [if_pos hguard]
  rw [if_neg (by simp)]


theorem prefix_getD {α : Type} {l l' : List α} (h : l <+: l') {i : Nat} (d : α)
    (hi : i < l.length) : l'.getD i d = l.getD i d := by
  obtain ⟨t, ht⟩ := h
  rw [← ht, getD_append_lt _ _ _ _ hi]

theorem nuF_lt_N (sc : Nat) (gsF : Ghost) (hfin : GhostWF sc gsF) (g : Nat)
    (hg : g < gsF.kids.length) :
    nuF sc gsF.kids gsF.parentOf gsF.ords g < NArena sc gsF.kids := by
  obtain ⟨-, hpl, hol, hscl, -, hgrp⟩ := hfin
  unfold nuF
  by_cases hgs : g < sc
  · rw [if_pos hgs]
    have h1 : 1 + sc ≤ fcOf sc gsF.kids gsF.kids.length := fcOf_ge sc gsF.kids _
    unfold NArena
    omega
  · rw [if_neg hgs]
    obtain ⟨o1, o2, o3⟩ := hgrp g (by omega) hg
    exact cellSlot_lt_N sc gsF.kids (by omega) o3

theorem nuF_inj (sc : Nat) (gsF : Ghost) (hfin : GhostWF sc gsF) (g1 g2 : Nat)
    (h1 : g1 < gsF.kids.length) (h2 : g2 < gsF.kids.length)
    (heq : nuF sc gsF.kids gsF.parentOf gsF.ords g1
      = nuF sc gsF.kids gsF.parentOf gsF.ords g2) : g1 = g2 := by
  obtain ⟨-, hpl, hol, hscl, -, hgrp⟩ := hfin
  unfold nuF at heq
  by_cases ha : g1 < sc <;> by_cases hb : g2 < sc
  · rw [if_pos ha, if_pos hb] at heq
    omega
  · rw [if_pos ha, if_neg hb] at heq
    have := fcOf_ge sc gsF.kids (gsF.parentOf.getD g2 0)
    omega
  · rw [if_neg ha, if_pos hb] at heq
    have := fcOf_ge sc gsF.kids (gsF.parentOf.getD g1 0)
    omega
  · rw [if_neg ha, if_neg hb] at heq
    obtain ⟨a1, a2, a3⟩ := hgrp g1 (by omega) h1
    obtain ⟨b1, b2, b3⟩ := hgrp g2 (by omega) h2
    obtain ⟨hpe, hoe⟩ := cellSlot_inj sc gsF.kids (by omega) (by omega) a3 b3 heq
    rw [hpe, hoe] at a2
    rw [a2] at b2
    exact GChild.reg.inj b2

/-- A group-node slot that coincides with a child cell names the region
occupying that cell. -/
theorem nuF_eq_cell (sc : Nat) (gsF : Ghost) (hfin : GhostWF sc gsF)
    (g c g' : Nat) (hg : g < gsF.kids.length) (hc : c < (gsF.kids.getD g []).length)
    (hg' : g' < gsF.kids.length)
    (heq : nuF sc gsF.kids gsF.parentOf gsF.ords g' = fcOf sc gsF.kids g + c) :
    sc ≤ g' ∧ gsF.parentOf.getD g' 0 = g ∧ gsF.ords.getD g' 0 = c := by
  obtain ⟨-, hpl, hol, hscl, -, hgrp⟩ := hfin
  unfold nuF at heq
  by_cases ha : g' < sc
  · rw [if_pos ha] at heq
    have h1 := fcOf_ge sc gsF.kids g
    omega
  · rw [if_neg ha] at heq
    obtain ⟨a1, a2, a3⟩ := hgrp g' (by omega) hg'
    obtain ⟨hpe, hoe⟩ := cellSlot_inj sc gsF.kids (by omega) hg a3 hc heq
    exact ⟨by omega, hpe, hoe⟩

theorem NodeV_default_eq :
    (default : NodeV) = ⟨.log, none, 0, none, none, 0, none, 0⟩ := rfl

/-- The pass-2 invariant, relative to the final ghost `gsF`: allocation
cursors follow the ghost, the root and every materialized group node and
message node have their final field values (with the current child
counts), and untouched slots still hold default-constructed nodes. -/
def R2 (sc : Nat) (gsF : Ghost) (gs : Ghost) (st : P2State) : Prop :=
  st.nodes.length = NArena sc gsF.kids ∧
  st.nextGroupIndex = gs.kids.length ∧
  st.nextIndex = fcOf sc gsF.kids gs.kids.length ∧
  st.activeParentNode.length = sc ∧
  (∀ s, s < sc → st.activeParentNode.getD s 0
    = nuF sc gsF.kids gsF.parentOf gsF.ords (gActive gs s)) ∧
  st.nodes.getD 0 default = ⟨.log, none, 0, none, some 1, sc, none, 1⟩ ∧
  (∀ g, g < gs.kids.length → ∃ ft,
    st.nodes.getD (nuF sc gsF.kids gsF.parentOf gsF.ords g) default
      = ⟨(if g < sc then NodeType.stream else NodeType.region), ft, 0,
          some (if g < sc then 0
            else nuF sc gsF.kids gsF.parentOf gsF.ords (gsF.parentOf.getD g 0)),
          (if (gsF.kids.getD g []).length ≠ 0 then some (fcOf sc gsF.kids g)
            else none),
          (gs.kids.getD g []).length, none, 1⟩) ∧
  (∀ g c, g < gs.kids.length → c < (gs.kids.getD g []).length →
    (gs.kids.getD g []).getD c .msg = .msg → ∃ ft idx dt,
    st.nodes.getD (fcOf sc gsF.kids g + c) default
      = ⟨.message, ft, idx, some (nuF sc gsF.kids gsF.parentOf gsF.ords g),
          none, 0, dt, 1⟩) ∧
  (∀ j, j < NArena sc gsF.kids → 1 + sc ≤ j →
    (∀ g, g < gs.kids.length →
      ¬(fcOf sc gsF.kids g ≤ j ∧
        j < fcOf sc gsF.kids g + (gs.kids.getD g []).length)) →
    st.nodes.getD j default = default)


theorem nuF_pos (sc : Nat) (gsF : Ghost) (g : Nat) :
    1 ≤ nuF sc gsF.kids gsF.parentOf gsF.ords g := by
  unfold nuF
  by_cases h : g < sc
  · rw [if_pos h]; omega
  · rw [if_neg h]
    have := fcOf_ge sc gsF.kids (gsF.parentOf.getD g 0)
    omega

/-- Every child is a region or a message. -/
theorem countReg_add_countMsg : ∀ (l : List GChild),
    countReg l + countMsg l = l.length := by
  intro l
  induction l with
  | nil => rfl
  | cons c l ih =>
    unfold countReg countMsg at ih ⊢
    rw [List.filter_cons, List.filter_cons, List.length_cons]
    cases c with
    | reg g =>
      rw [if_pos (by simp [GChild.isReg]), if_neg (by simp [GChild.isReg]),
        List.length_cons]
      omega
    | msg =>
      rw [if_neg (by simp [GChild.isReg]), if_pos (by simp [GChild.isReg]),
        List.length_cons]
      omega

/-- The next child cell of a group whose final count is not yet reached
is still unclaimed. -/
theorem slot_unclaimed (sc : Nat) (gsF gs : Ghost) (st : P2State)
    (hr2 : R2 sc gsF gs st) (a : Nat)
    (hlen : gs.kids.length ≤ gsF.kids.length)
    (ha : a < gs.kids.length)
    (henlt : (gs.kids.getD a []).length < (gsF.kids.getD a []).length)
    (hKle : ∀ g, g < gs.kids.length →
      (gs.kids.getD g []).length ≤ (gsF.kids.getD g []).length) :
    st.nodes.getD (fcOf sc gsF.kids a + (gs.kids.getD a []).length) default
      = default := by
  obtain ⟨n1, n2, n3, n4, n5, n6, n7, n8, n9⟩ := hr2
  refine n9 _ (cellSlot_lt_N sc gsF.kids (by omega) henlt)
    (by have := fcOf_ge sc gsF.kids a; omega) ?_
  rintro g hg ⟨hr1, hr2c⟩
  have hgle := hKle g hg
  have hcl : fcOf sc gsF.kids a + (gs.kids.getD a []).length - fcOf sc gsF.kids g
      < (gsF.kids.getD g []).length := by omega
  obtain ⟨he1, he2⟩ := cellSlot_inj sc gsF.kids (by omega) (by omega) hcl henlt
    (by omega)
  subst he1
  omega

/-- Materializing a region preserves the pass-2 invariant. -/
theorem R2_open_sem (sc : Nat) (gsF : Ghost) (gs : Ghost) (st : P2State) (s : Nat)
    (ft ftN : Option Nat)
    (hfin : GhostWF sc gsF) (hs : s < sc) (hwf : GhostWF sc gs)
    (hr2 : R2 sc gsF gs st)
    (hle : GhostLe (gOpen gs s) gsF)
    (hpn : st.nodes.getD (nuF sc gsF.kids gsF.parentOf gsF.ords (gActive gs s)) default
      = ⟨(if gActive gs s < sc then NodeType.stream else NodeType.region), ft, 0,
          some (if gActive gs s < sc then 0
            else nuF sc gsF.kids gsF.parentOf gsF.ords
              (gsF.parentOf.getD (gActive gs s) 0)),
          (if (gsF.kids.getD (gActive gs s) []).length ≠ 0
            then some (fcOf sc gsF.kids (gActive gs s)) else none),
          (gs.kids.getD (gActive gs s) []).length, none, 1⟩) :
    R2 sc gsF (gOpen gs s)
      ⟨(st.nodes.set (nuF sc gsF.kids gsF.parentOf gsF.ords (gActive gs s))
          ⟨(if gActive gs s < sc then NodeType.stream else NodeType.region), ft, 0,
            some (if gActive gs s < sc then 0
              else nuF sc gsF.kids gsF.parentOf gsF.ords
                (gsF.parentOf.getD (gActive gs s) 0)),
            (if (gsF.kids.getD (gActive gs s) []).length ≠ 0
              then some (fcOf sc gsF.kids (gActive gs s)) else none),
            (gs.kids.getD (gActive gs s) []).length + 1, none, 1⟩).set
        (fcOf sc gsF.kids (gActive gs s) + (gs.kids.getD (gActive gs s) []).length)
        ⟨.region, ftN, 0, some (nuF sc gsF.kids gsF.parentOf gsF.ords (gActive gs s)),
          (if 0 < (gsF.kids.getD gs.kids.length []).length
            then some (fcOf sc gsF.kids gs.kids.length) else none),
          0, none, 1⟩,
        gs.kids.length + 1,
        (if 0 < (gsF.kids.getD gs.kids.length []).length
          then fcOf sc gsF.kids gs.kids.length + (gsF.kids.getD gs.kids.length []).length
          else fcOf sc gsF.kids gs.kids.length),
        st.activeParentNode.set s
          (fcOf sc gsF.kids (gActive gs s) + (gs.kids.getD (gActive gs s) []).length)⟩ := by
  obtain ⟨hsl, hpl, hol, hscl, hstk, hgrp⟩ := hwf
  have hFwf := hfin
  obtain ⟨-, Fpl, Fol, Fscl, -, Fgrp⟩ := hfin
  obtain ⟨n1, n2, n3, n4, n5, n6, n7, n8, n9⟩ := hr2
  obtain ⟨hle1, hle2, hle3⟩ := hle
  have ha : gActive gs s < gs.kids.length := by
    have hh : gActive gs s < gs.parentOf.length :=
      StackWF_head_lt gs.parentOf sc s hs (by omega) _ (hstk s hs)
    omega
  have hlen1 : gs.kids.length + 1 ≤ gsF.kids.length := by
    have h := hle1
    rw [gOpen_kids] at h
    simpa using h
  have haF : gActive gs s < gsF.kids.length := by omega
  have hpref : (gs.kids.getD (gActive gs s) []) ++ [GChild.reg gs.kids.length]
      <+: gsF.kids.getD (gActive gs s) [] := by
    have h := hle2 (gActive gs s) (by rw [gOpen_kids]; simp; omega)
    rw [gOpen_kids, getD_append_lt _ _ _ _ (by simpa using ha),
      getD_set_self _ _ _ _ ha] at h
    exact h
  have henlt : (gs.kids.getD (gActive gs s) []).length
      < (gsF.kids.getD (gActive gs s) []).length := by
    have h := hpref.length_le
    rw [List.length_append, List.length_cons, List.length_nil] at h
    omega
  have hcellA : (gsF.kids.getD (gActive gs s) []).getD
      (gs.kids.getD (gActive gs s) []).length .msg = .reg gs.kids.length := by
    rw [prefix_getD hpref _ (by simp)]
    exact getD_append_of_len _ _ _ _ rfl
  have hPg : gsF.parentOf.getD gs.kids.length 0 = gActive gs s := by
    have h := (hle3 gs.kids.length (by rw [gOpen_kids]; simp)).1
    rw [gOpen_parentOf, getD_append_of_len _ _ _ _ (by omega)] at h
    exact h.symm
  have hOg : gsF.ords.getD gs.kids.length 0
      = (gs.kids.getD (gActive gs s) []).length := by
    have h := (hle3 gs.kids.length (by rw [gOpen_kids]; simp)).2
    rw [show (gOpen gs s).ords
        = gs.ords ++ [(gs.kids.getD (gActive gs s) []).length] from rfl,
      getD_append_of_len _ _ _ _ (by omega)] at h
    exact h.symm
  have hPold : ∀ g, g < gs.kids.length →
      gs.parentOf.getD g 0 = gsF.parentOf.getD g 0 := by
    intro g hg
    have h := (hle3 g (by rw [gOpen_kids]; simp; omega)).1
    rw [gOpen_parentOf, getD_append_lt _ _ _ _ (by omega)] at h
    exact h
  have hOold : ∀ g, g < gs.kids.length →
      gs.ords.getD g 0 = gsF.ords.getD g 0 := by
    intro g hg
    have h := (hle3 g (by rw [gOpen_kids]; simp; omega)).2
    rw [show (gOpen gs s).ords
        = gs.ords ++ [(gs.kids.getD (gActive gs s) []).length] from rfl,
      getD_append_lt _ _ _ _ (by omega)] at h
    exact h
  have hKold : ∀ g, g < gs.kids.length →
      gs.kids.getD g [] <+: gsF.kids.getD g [] := by
    intro g hg
    by_cases hga : g = gActive gs s
    · subst hga
      exact (List.prefix_append _ _).trans hpref
    · have h := hle2 g (by rw [gOpen_kids]; simp; omega)
      rw [gOpen_kids, getD_append_lt _ _ _ _ (by simpa using hg),
        getD_set_ne _ _ _ _ _ (fun he => hga he.symm)] at h
      exact h
  have hccle : ∀ g, g < gs.kids.length →
      (gs.kids.getD g []).length ≤ (gsF.kids.getD g []).length :=
    fun g hg => (hKold g hg).length_le
  have hcur2fin : ∀ g c, g < gs.kids.length → c < (gs.kids.getD g []).length →
      (gsF.kids.getD g []).getD c .msg = (gs.kids.getD g []).getD c .msg :=
    fun g c hg hc => prefix_getD (hKold g hg) _ hc
  have hnua_lt : nuF sc gsF.kids gsF.parentOf gsF.ords (gActive gs s)
      < NArena sc gsF.kids := nuF_lt_N sc gsF hFwf _ haF
  have hslot_lt : fcOf sc gsF.kids (gActive gs s)
      + (gs.kids.getD (gActive gs s) []).length < NArena sc gsF.kids :=
    cellSlot_lt_N sc gsF.kids haF henlt
  have hslot_ge : 1 + sc ≤ fcOf sc gsF.kids (gActive gs s)
      + (gs.kids.getD (gActive gs s) []).length := by
    have := fcOf_ge sc gsF.kids (gActive gs s)
    omega
  have hslot_ne : ∀ g, g < gsF.kids.length → g ≠ gs.kids.length →
      nuF sc gsF.kids gsF.parentOf gsF.ords g
        ≠ fcOf sc gsF.kids (gActive gs s) + (gs.kids.getD (gActive gs s) []).length := by
    intro g hg hne heq
    obtain ⟨w1, w2, w3⟩ := nuF_eq_cell sc gsF hFwf (gActive gs s)
      (gs.kids.getD (gActive gs s) []).length g haF henlt hg heq
    obtain ⟨f1, f2, f3⟩ := Fgrp g w1 hg
    rw [w2, w3, hcellA] at f2
    exact hne (GChild.reg.inj f2).symm
  have hnna : nuF sc gsF.kids gsF.parentOf gsF.ords (gActive gs s)
      ≠ fcOf sc gsF.kids (gActive gs s) + (gs.kids.getD (gActive gs s) []).length :=
    hslot_ne (gActive gs s) haF (by omega)
  have hgstar : nuF sc gsF.kids gsF.parentOf gsF.ords gs.kids.length
      = fcOf sc gsF.kids (gActive gs s) + (gs.kids.getD (gActive gs s) []).length := by
    unfold nuF
    rw [if_neg (by omega), hPg, hOg]
  have hkop : ∀ g, g < gs.kids.length → g ≠ gActive gs s →
      (gOpen gs s).kids.getD g [] = gs.kids.getD g [] := by
    intro g hg hga
    rw [gOpen_kids, getD_append_lt _ _ _ _ (by simpa using hg),
      getD_set_ne _ _ _ _ _ (fun he => hga he.symm)]
  have hkopa : (gOpen gs s).kids.getD (gActive gs s) []
      = (gs.kids.getD (gActive gs s) []) ++ [GChild.reg gs.kids.length] := by
    rw [gOpen_kids, getD_append_lt _ _ _ _ (by simpa using ha),
      getD_set_self _ _ _ _ ha]
  have hkopn : (gOpen gs s).kids.getD gs.kids.length [] = [] := by
    rw [gOpen_kids, getD_append_of_len _ _ _ _ (by simp)]
  have hkoplen : (gOpen gs s).kids.length = gs.kids.length + 1 := by
    rw [gOpen_kids]; simp
  unfold R2
  dsimp only
  refine ⟨?_, ?_, ?_, ?_, ?_, ?_, ?_, ?_, ?_⟩
  · simp only [List.length_set]
    exact n1
  · rw [hkoplen]
  · rw [hkoplen]
    by_cases hz : 0 < (gsF.kids.getD gs.kids.length []).length
    · rw [if_pos hz, fcOf_succ sc gsF.kids gs.kids.length (by omega)]
    · rw [if_neg hz, fcOf_succ sc gsF.kids gs.kids.length (by omega)]
      omega
  · simpa using n4
  · intro s' hs'
    by_cases hss : s' = s
    · subst hss
      rw [getD_set_self _ _ _ _ (by omega), gActive_open_self gs s' (by omega), hgstar]
    · rw [getD_set_ne _ _ _ _ _ (fun he => hss he.symm),
        gActive_open_ne gs s s' (fun he => hss he.symm)]
      exact n5 s' hs'
  · rw [getD_set_ne _ _ _ _ _ (by omega), getD_set_ne _ _ _ _ _ (by
      have := nuF_pos sc gsF (gActive gs s)
      omega)]
    exact n6
  · intro g hg
    rw [hkoplen] at hg
    by_cases hgn : g = gs.kids.length
    · subst hgn
      refine ⟨ftN, ?_⟩
      rw [hgstar, getD_set_self _ _ _ _ (by rw [List.length_set]; omega)]
      rw [hkopn]
      have hns : ¬ gs.kids.length < sc := by omega
      rw [if_neg hns, if_neg hns, hPg]
      by_cases hz : (gsF.kids.getD gs.kids.length []).length = 0
      · rw [if_neg (by omega), if_neg (by simpa using hz)]
        rfl
      · rw [if_pos (by omega), if_pos hz]
        rfl
    · have hgl : g < gs.kids.length := by omega
      by_cases hga : g = gActive gs s
      · subst hga
        refine ⟨ft, ?_⟩
        rw [getD_set_ne _ _ _ _ _ (fun he => hnna he.symm),
          getD_set_self _ _ _ _ (by omega), hkopa]
        simp
      · obtain ⟨ft2, hft2⟩ := n7 g hgl
        refine ⟨ft2, ?_⟩
        rw [getD_set_ne _ _ _ _ _ (fun he => hslot_ne g (by omega) hgn he.symm),
          getD_set_ne _ _ _ _ _ (fun he =>
            hga (nuF_inj sc gsF hFwf _ _ haF (by omega) he).symm)]
        rw [hkop g hgl hga]
        exact hft2
  · intro g c hg hc hval
    rw [hkoplen] at hg
    by_cases hgn : g = gs.kids.length
    · subst hgn
      rw [hkopn] at hc
      simp at hc
    · have hgl : g < gs.kids.length := by omega
      by_cases hga : g = gActive gs s
      · subst hga
        rw [hkopa] at hc hval
        simp only [List.length_append, List.length_cons, List.length_nil] at hc
        by_cases hcl : c < (gs.kids.getD (gActive gs s) []).length
        · rw [getD_append_lt _ _ _ _ hcl] at hval
          obtain ⟨ft2, idx2, dt2, hft2⟩ := n8 _ c hgl hcl hval
          refine ⟨ft2, idx2, dt2, ?_⟩
          rw [getD_set_ne _ _ _ _ _ (by omega),
            getD_set_ne _ _ _ _ _ (by
              intro he
              obtain ⟨w1, w2, w3⟩ := nuF_eq_cell sc gsF hFwf (gActive gs s) c
                (gActive gs s) haF (by omega) haF he
              obtain ⟨f1, f2, f3⟩ := Fgrp (gActive gs s) w1 haF
              rw [w2, w3] at f2
              rw [hcur2fin _ c hgl hcl, hval] at f2
              exact GChild.noConfusion f2)]
          exact hft2
        · have hceq : c = (gs.kids.getD (gActive gs s) []).length := by omega
          rw [getD_append_of_len _ _ _ _ hceq] at hval
          exact absurd hval (by simp)
      · rw [hkop g hgl hga] at hc hval
        obtain ⟨ft2, idx2, dt2, hft2⟩ := n8 g c hgl hc hval
        refine ⟨ft2, idx2, dt2, ?_⟩
        rw [getD_set_ne _ _ _ _ _ (by
            intro he
            obtain ⟨he1, he2⟩ := cellSlot_inj sc gsF.kids haF (by omega) henlt
              (by have := hccle g hgl; omega) he
            exact hga he1.symm),
          getD_set_ne _ _ _ _ _ (by
            intro he
            obtain ⟨w1, w2, w3⟩ := nuF_eq_cell sc gsF hFwf g c
              (gActive gs s) (by omega) (by have := hccle g hgl; omega) haF he
            obtain ⟨f1, f2, f3⟩ := Fgrp (gActive gs s) w1 haF
            rw [w2, w3] at f2
            rw [hcur2fin g c hgl hc, hval] at f2
            exact GChild.noConfusion f2)]
        exact hft2
  · intro j hj hjge hcl
    rw [hkoplen] at hcl
    have hjs : j ≠ fcOf sc gsF.kids (gActive gs s)
        + (gs.kids.getD (gActive gs s) []).length := by
      intro he
      refine hcl (gActive gs s) (by omega) ?_
      rw [hkopa, he]
      simp
    have hja : j ≠ nuF sc gsF.kids gsF.parentOf gsF.ords (gActive gs s) := by
      intro he
      by_cases has : gActive gs s < sc
      · rw [he] at hjge
        unfold nuF at hjge
        rw [if_pos has] at hjge
        omega
      · obtain ⟨f1, f2, f3⟩ := hgrp (gActive gs s) (by omega) ha
        refine hcl (gs.parentOf.getD (gActive gs s) 0) (by omega) ?_
      
        rw [he]
        unfold nuF
        rw [if_neg has, ← hPold _ ha, ← hOold _ ha]
        by_cases hpaa : gs.parentOf.getD (gActive gs s) 0 = gActive gs s
        · omega
        · rw [hkop _ (by omega) hpaa]
          omega
    rw [getD_set_ne _ _ _ _ _ (fun he => hjs he.symm),
      getD_set_ne _ _ _ _ _ (fun he => hja he.symm)]
    refine n9 j hj hjge ?_
    intro g hg hrange
    by_cases hga : g = gActive gs s
    · subst hga
      refine hcl (gActive gs s) (by omega) ?_
      rw [hkopa]
      simp only [List.length_append, List.length_cons, List.length_nil]
      omega
    · refine hcl g (by omega) ?_
      rw [hkop g hg hga]
      exact hrange


/-- Materializing a message node preserves the pass-2 invariant. -/
theorem R2_msg_sem (sc : Nat) (gsF : Ghost) (gs : Ghost) (st : P2State) (s : Nat)
    (ft ftm : Option Nat) (idxm : Nat) (dtm : Option Nat) (k o : Nat) (pl : List Nat)
    (hfin : GhostWF sc gsF) (hs : s < sc) (hwf : GhostWF sc gs)
    (hr2 : R2 sc gsF gs st)
    (hle : GhostLe (gstep gs (s, .message k o pl)) gsF)
    (hpn : st.nodes.getD (nuF sc gsF.kids gsF.parentOf gsF.ords (gActive gs s)) default
      = ⟨(if gActive gs s < sc then NodeType.stream else NodeType.region), ft, 0,
          some (if gActive gs s < sc then 0
            else nuF sc gsF.kids gsF.parentOf gsF.ords
              (gsF.parentOf.getD (gActive gs s) 0)),
          (if (gsF.kids.getD (gActive gs s) []).length ≠ 0
            then some (fcOf sc gsF.kids (gActive gs s)) else none),
          (gs.kids.getD (gActive gs s) []).length, none, 1⟩) :
    R2 sc gsF (gstep gs (s, .message k o pl))
      ⟨(st.nodes.set (nuF sc gsF.kids gsF.parentOf gsF.ords (gActive gs s))
          ⟨(if gActive gs s < sc then NodeType.stream else NodeType.region), ft, 0,
            some (if gActive gs s < sc then 0
              else nuF sc gsF.kids gsF.parentOf gsF.ords
                (gsF.parentOf.getD (gActive gs s) 0)),
            (if (gsF.kids.getD (gActive gs s) []).length ≠ 0
              then some (fcOf sc gsF.kids (gActive gs s)) else none),
            (gs.kids.getD (gActive gs s) []).length + 1, none, 1⟩).set
        (fcOf sc gsF.kids (gActive gs s) + (gs.kids.getD (gActive gs s) []).length)
        ⟨.message, ftm, idxm,
          some (nuF sc gsF.kids gsF.parentOf gsF.ords (gActive gs s)), none, 0, dtm, 1⟩,
        st.nextGroupIndex, st.nextIndex, st.activeParentNode⟩ := by
  obtain ⟨hsl, hpl, hol, hscl, hstk, hgrp⟩ := hwf
  have hFwf := hfin
  obtain ⟨-, Fpl, Fol, Fscl, -, Fgrp⟩ := hfin
  obtain ⟨n1, n2, n3, n4, n5, n6, n7, n8, n9⟩ := hr2
  obtain ⟨hle1, hle2, hle3⟩ := hle
  have ha : gActive gs s < gs.kids.length := by
    have hh : gActive gs s < gs.parentOf.length :=
      StackWF_head_lt gs.parentOf sc s hs (by omega) _ (hstk s hs)
    omega
  have hlenk : (gstep gs (s, .message k o pl)).kids.length = gs.kids.length := by
    rw [gstep_msg_kids]; simp
  have haF : gActive gs s < gsF.kids.length := by
    rw [hlenk] at hle1
    omega
  have hpref : (gs.kids.getD (gActive gs s) []) ++ [GChild.msg]
      <+: gsF.kids.getD (gActive gs s) [] := by
    have h := hle2 (gActive gs s) (by rw [hlenk]; omega)
    rw [gstep_msg_kids, getD_set_self _ _ _ _ ha] at h
    exact h
  have henlt : (gs.kids.getD (gActive gs s) []).length
      < (gsF.kids.getD (gActive gs s) []).length := by
    have h := hpref.length_le
    rw [List.length_append, List.length_cons, List.length_nil] at h
    omega
  have hcellA : (gsF.kids.getD (gActive gs s) []).getD
      (gs.kids.getD (gActive gs s) []).length .msg = .msg := by
    rw [prefix_getD hpref _ (by simp)]
    exact getD_append_of_len _ _ _ _ rfl
  have hPold : ∀ g, g < gs.kids.length →
      gs.parentOf.getD g 0 = gsF.parentOf.getD g 0 := by
    intro g hg
    have h := (hle3 g (by rw [hlenk]; omega)).1
    rw [gstep_msg_parentOf] at h
    exact h
  have hOold : ∀ g, g < gs.kids.length →
      gs.ords.getD g 0 = gsF.ords.getD g 0 := by
    intro g hg
    exact (hle3 g (by rw [hlenk]; omega)).2
  have hKold : ∀ g, g < gs.kids.length →
      gs.kids.getD g [] <+: gsF.kids.getD g [] := by
    intro g hg
    by_cases hga : g = gActive gs s
    · subst hga
      exact (List.prefix_append _ _).trans hpref
    · have h := hle2 g (by rw [hlenk]; omega)
      rw [gstep_msg_kids, getD_set_ne _ _ _ _ _ (fun he => hga he.symm)] at h
      exact h
  have hccle : ∀ g, g < gs.kids.length →
      (gs.kids.getD g []).length ≤ (gsF.kids.getD g []).length :=
    fun g hg => (hKold g hg).length_le
  have hcur2fin : ∀ g c, g < gs.kids.length → c < (gs.kids.getD g []).length →
      (gsF.kids.getD g []).getD c .msg = (gs.kids.getD g []).getD c .msg :=
    fun g c hg hc => prefix_getD (hKold g hg) _ hc
  have hnua_lt : nuF sc gsF.kids gsF.parentOf gsF.ords (gActive gs s)
      < NArena sc gsF.kids := nuF_lt_N sc gsF hFwf _ haF
  have hslot_lt : fcOf sc gsF.kids (gActive gs s)
      + (gs.kids.getD (gActive gs s) []).length < NArena sc gsF.kids :=
    cellSlot_lt_N sc gsF.kids haF henlt
  have hslot_ge : 1 + sc ≤ fcOf sc gsF.kids (gActive gs s)
      + (gs.kids.getD (gActive gs s) []).length := by
    have := fcOf_ge sc gsF.kids (gActive gs s)
    omega
  have hslot_ne : ∀ g, g < gsF.kids.length →
      nuF sc gsF.kids gsF.parentOf gsF.ords g
        ≠ fcOf sc gsF.kids (gActive gs s) + (gs.kids.getD (gActive gs s) []).length := by
    intro g hg heq
    obtain ⟨w1, w2, w3⟩ := nuF_eq_cell sc gsF hFwf (gActive gs s)
      (gs.kids.getD (gActive gs s) []).length g haF henlt hg heq
    obtain ⟨f1, f2, f3⟩ := Fgrp g w1 hg
    rw [w2, w3, hcellA] at f2
    exact GChild.noConfusion f2
  have hnna : nuF sc gsF.kids gsF.parentOf gsF.ords (gActive gs s)
      ≠ fcOf sc gsF.kids (gActive gs s) + (gs.kids.getD (gActive gs s) []).length :=
    hslot_ne (gActive gs s) haF
  have hkop : ∀ g, g < gs.kids.length → g ≠ gActive gs s →
      (gstep gs (s, .message k o pl)).kids.getD g [] = gs.kids.getD g [] := by
    intro g hg hga
    rw [gstep_msg_kids, getD_set_ne _ _ _ _ _ (fun he => hga he.symm)]
  have hkopa : (gstep gs (s, .message k o pl)).kids.getD (gActive gs s) []
      = (gs.kids.getD (gActive gs s) []) ++ [GChild.msg] := by
    rw [gstep_msg_kids, getD_set_self _ _ _ _ ha]
  unfold R2
  dsimp only
  refine ⟨?_, ?_, ?_, ?_, ?_, ?_, ?_, ?_, ?_⟩
  · simp only [List.length_set]
    exact n1
  · rw [hlenk]
    exact n2
  · rw [hlenk]
    exact n3
  · exact n4
  · intro s' hs'
    rw [gActive_msg]
    exact n5 s' hs'
  · rw [getD_set_ne _ _ _ _ _ (by omega), getD_set_ne _ _ _ _ _ (by
      have := nuF_pos sc gsF (gActive gs s)
      omega)]
    exact n6
  · intro g hg
    rw [hlenk] at hg
    by_cases hga : g = gActive gs s
    · subst hga
      refine ⟨ft, ?_⟩
      rw [getD_set_ne _ _ _ _ _ (fun he => hnna he.symm),
        getD_set_self _ _ _ _ (by omega), hkopa]
      simp
    · obtain ⟨ft2, hft2⟩ := n7 g hg
      refine ⟨ft2, ?_⟩
      rw [getD_set_ne _ _ _ _ _ (fun he => hslot_ne g (by omega) he.symm),
        getD_set_ne _ _ _ _ _ (fun he =>
          hga (nuF_inj sc gsF hFwf _ _ haF (by omega) he).symm)]
      rw [hkop g hg hga]
      exact hft2
  · intro g c hg hc hval
    rw [hlenk] at hg
    by_cases hga : g = gActive gs s
    · subst hga
      rw [hkopa] at hc hval
      simp only [List.length_append, List.length_cons, List.length_nil] at hc
      by_cases hcl : c < (gs.kids.getD (gActive gs s) []).length
      · rw [getD_append_lt _ _ _ _ hcl] at hval
        obtain ⟨ft2, idx2, dt2, hft2⟩ := n8 (gActive gs s) c ha hcl hval
        exact ⟨ft2, idx2, dt2, by
          rw [getD_set_ne _ _ _ _ _ (by omega),
            getD_set_ne _ _ _ _ _ (by
              intro he
              obtain ⟨w1, w2, w3⟩ := nuF_eq_cell sc gsF hFwf (gActive gs s) c
                (gActive gs s) haF (by omega) haF he
              obtain ⟨f1, f2, f3⟩ := Fgrp (gActive gs s) w1 haF
              rw [w2, w3] at f2
              rw [hcur2fin _ c ha hcl, hval] at f2
              exact GChild.noConfusion f2)]
          exact hft2⟩
      · have hceq : c = (gs.kids.getD (gActive gs s) []).length := by omega
        subst hceq
        refine ⟨ftm, idxm, dtm, ?_⟩
        rw [getD_set_self _ _ _ _ (by rw [List.length_set]; omega)]
    · rw [hkop g hg hga] at hc hval
      obtain ⟨ft2, idx2, dt2, hft2⟩ := n8 g c hg hc hval
      refine ⟨ft2, idx2, dt2, ?_⟩
      rw [getD_set_ne _ _ _ _ _ (by
          intro he
          obtain ⟨he1, he2⟩ := cellSlot_inj sc gsF.kids haF (by omega) henlt
            (by have := hccle g hg; omega) he
          exact hga he1.symm),
        getD_set_ne _ _ _ _ _ (by
          intro he
          obtain ⟨w1, w2, w3⟩ := nuF_eq_cell sc gsF hFwf g c
            (gActive gs s) (by omega) (by have := hccle g hg; omega) haF he
          obtain ⟨f1, f2, f3⟩ := Fgrp (gActive gs s) w1 haF
          rw [w2, w3] at f2
          rw [hcur2fin g c hg hc, hval] at f2
          exact GChild.noConfusion f2)]
      exact hft2
  · intro j hj hjge hcl
    rw [hlenk] at hcl
    have hjs : j ≠ fcOf sc gsF.kids (gActive gs s)
        + (gs.kids.getD (gActive gs s) []).length := by
      intro he
      refine hcl (gActive gs s) (by omega) ?_
      rw [hkopa, he]
      simp
    have hja : j ≠ nuF sc gsF.kids gsF.parentOf gsF.ords (gActive gs s) := by
      intro he
      by_cases has : gActive gs s < sc
      · rw [he] at hjge
        unfold nuF at hjge
        rw [if_pos has] at hjge
        omega
      · obtain ⟨f1, f2, f3⟩ := hgrp (gActive gs s) (by omega) ha
        refine hcl (gs.parentOf.getD (gActive gs s) 0) (by omega) ?_
        rw [he]
        unfold nuF
        rw [if_neg has, ← hPold _ ha, ← hOold _ ha]
        by_cases hpaa : gs.parentOf.getD (gActive gs s) 0 = gActive gs s
        · omega
        · rw [hkop _ (by omega) hpaa]
          omega
    rw [getD_set_ne _ _ _ _ _ (fun he => hjs he.symm),
      getD_set_ne _ _ _ _ _ (fun he => hja he.symm)]
    refine n9 j hj hjge ?_
    intro g hg hrange
    by_cases hga : g = gActive gs s
    · subst hga
      refine hcl (gActive gs s) (by omega) ?_
      rw [hkopa]
      simp only [List.length_append, List.length_cons, List.length_nil]
      omega
    · refine hcl g (by omega) ?_
      rw [hkop g hg hga]
      exact hrange

/-- Popping to the parent on a region end preserves the pass-2
invariant. -/
theorem R2_end_sem (sc : Nat) (gsF : Ghost) (gs : Ghost) (st : P2State) (s : Nat)
    (hfin : GhostWF sc gsF) (hs : s < sc) (hwf : GhostWF sc gs)
    (h2 : 2 ≤ (gs.stks.getD s []).length)
    (hr2 : R2 sc gsF gs st)
    (hle : GhostLe gs gsF) :
    R2 sc gsF (gstep gs (s, .regionEnd))
      ⟨st.nodes, st.nextGroupIndex, st.nextIndex,
        st.activeParentNode.set s
          (nuF sc gsF.kids gsF.parentOf gsF.ords
            (gsF.parentOf.getD (gActive gs s) 0))⟩ := by
  obtain ⟨hsl, hpl, hol, hscl, hstk, hgrp⟩ := hwf
  obtain ⟨n1, n2, n3, n4, n5, n6, n7, n8, n9⟩ := hr2
  obtain ⟨hle1, hle2, hle3⟩ := hle
  have ha : gActive gs s < gs.kids.length := by
    have hh : gActive gs s < gs.parentOf.length :=
      StackWF_head_lt gs.parentOf sc s hs (by omega) _ (hstk s hs)
    omega
  have hkend : (gstep gs (s, .regionEnd)).kids = gs.kids := gstep_end_kids gs s
  unfold R2
  dsimp only
  rw [hkend]
  refine ⟨n1, n2, n3, by simpa using n4, ?_, n6, n7, n8, n9⟩
  intro s' hs'
  by_cases hss : s' = s
  · subst hss
    rw [getD_set_self _ _ _ _ (by omega), gActive_end_self gs s' (by omega)]
    cases hst : gs.stks.getD s' [] with
    | nil => rw [hst] at h2; simp at h2
    | cons g r =>
      cases r with
      | nil => rw [hst] at h2; simp at h2
      | cons g2 r2 =>
        have hgact : gActive gs s' = g := by unfold gActive; rw [hst]; rfl
        have hchain := hstk s' hs'
        rw [hst] at hchain
        obtain ⟨hc1, hc2, hc3, -⟩ := hchain
        rw [hgact, ← (hle3 g (by omega)).1, hc3]
        rfl
  · rw [getD_set_ne _ _ _ _ _ (fun he => hss he.symm),
      gActive_end_ne gs s s' (fun he => hss he.symm)]
    exact n5 s' hs'


/-- Pass 2 over one block's messages: with the group table and the final
ghost fixed, a well-formed message list is consumed exactly and the
pass-2 invariant is preserved along the ghost steps. -/
theorem processBlock2_sim (checked : Bool) (fmts : List (Nat × Nat)) (order : Bool)
    (sc : Nat) (data : List Nat) (G : List GroupNode) (gsF : Ghost)
    (hfin : GhostWF sc gsF)
    (hGlen : G.length = gsF.kids.length)
    (hG : ∀ g, g < gsF.kids.length →
      (G.getD g default).groupChildCount + (G.getD g default).messageChildCount
        = (gsF.kids.getD g []).length) :
    ∀ (msgs K : List Msg) (rest : List Nat) (pos s : Nat) (gs : Ghost) (st : P2State),
    data.drop pos = encodeMsgs order msgs ++ rest →
    (∀ m ∈ msgs, WfMsg fmts m) →
    s < sc →
    GhostWF sc gs → R2 sc gsF gs st →
    depthOk ((gs.stks.getD s []).length - 1) (msgs ++ K) →
    GhostLe (gsteps s gs msgs) gsF →
    ∃ st' : P2State,
      processBlock2 checked fmts order data G (pos + (encodeMsgs order msgs).length)
          s pos st (nuF sc gsF.kids gsF.parentOf gsF.ords (gActive gs s))
        = .ok (pos + (encodeMsgs order msgs).length, st') ∧
      GhostWF sc (gsteps s gs msgs) ∧ R2 sc gsF (gsteps s gs msgs) st' ∧
      depthOk (((gsteps s gs msgs).stks.getD s []).length - 1) K := by
  intro msgs
  induction msgs with
  | nil =>
    intro K rest pos s gs st hdrop hwf hs hgwf hr2 hdep hfut
    refine ⟨st, ?_, hgwf, hr2, hdep⟩
    rw [show pos + (encodeMsgs order []).length = pos from by simp [encodeMsgs]]
    exact processBlock2_done checked fmts order data G s pos st _
  | cons m ms ih =>
    intro K rest pos s gs st hdrop hwf hs hgwf hr2 hdep hfut
    have hwfm : WfMsg fmts m := hwf m (List.mem_cons_self m ms)
    have hwf' : ∀ x ∈ ms, WfMsg fmts x := fun x hx => hwf x (List.mem_cons_of_mem m hx)
    have hgwfc := hgwf
    have hr2c := hr2
    obtain ⟨n1, n2, n3, n4, n5, n6, n7, n8, n9⟩ := hr2c
    have Fgrp := hfin.2.2.2.2.2
    obtain ⟨hsl, hpl, hol, hscl, hstk, hgrp⟩ := hgwf
    have hne : gs.stks.getD s [] ≠ [] := StackWF_ne_nil (hstk s hs)
    have hslen : 1 ≤ (gs.stks.getD s []).length := by
      cases hcon : gs.stks.getD s [] with
      | nil => exact absurd hcon hne
      | cons a l => simp
    have ha : gActive gs s < gs.kids.length := by
      have hh : gActive gs s < gs.parentOf.length :=
        StackWF_head_lt gs.parentOf sc s hs (by omega) _ (hstk s hs)
      omega
    cases m with
    | anonStart =>
      have hdropm : data.drop pos
          = leBytes 4 AnonymousRegionStart ++ (encodeMsgs order ms ++ rest) := by
        rw [hdrop, encodeMsgs_cons]
        simp only [encodeMsg, List.append_assoc]
      have hk : readAt 4 data pos = some AnonymousRegionStart :=
        readAt_of_drop hdropm (by decide)
      have hdrop2 : data.drop (pos + 4) = encodeMsgs order ms ++ rest :=
        drop_add_of_drop hdropm (length_leBytes 4 _)
      have hgwf' : GhostWF sc (gOpen gs s) := gOpen_WF sc gs s hs hgwfc
      have hdep' : depthOk (((gOpen gs s).stks.getD s []).length - 1) (ms ++ K) := by
        rw [gOpen_stks, getD_set_self _ _ _ _ (by omega), List.length_cons]
        have hd : depthOk ((gs.stks.getD s []).length - 1 + 1) (ms ++ K) := hdep
        rwa [show (gs.stks.getD s []).length - 1 + 1 = (gs.stks.getD s []).length
          from by omega] at hd
      have hfut' : GhostLe (gsteps s (gOpen gs s) ms) gsF := by
        rw [gsteps_cons] at hfut
        exact hfut
      have hleO : GhostLe (gOpen gs s) gsF :=
        GhostLe_trans (ghostE_msgs sc ms K s (gOpen gs s) hs hgwf' hdep').2.2.1 hfut'
      have hlen1 : gs.kids.length + 1 ≤ gsF.kids.length := by
        have h := hleO.1
        rw [gOpen_kids] at h
        simpa using h
      have haF : gActive gs s < gsF.kids.length := by omega
      have hpref : (gs.kids.getD (gActive gs s) []) ++ [GChild.reg gs.kids.length]
          <+: gsF.kids.getD (gActive gs s) [] := by
        have h := hleO.2.1 (gActive gs s) (by rw [gOpen_kids]; simp; omega)
        rw [gOpen_kids, getD_append_lt _ _ _ _ (by simpa using ha),
          getD_set_self _ _ _ _ ha] at h
        exact h
      have henlt : (gs.kids.getD (gActive gs s) []).length
          < (gsF.kids.getD (gActive gs s) []).length := by
        have h := hpref.length_le
        rw [List.length_append, List.length_cons, List.length_nil] at h
        omega
      have hlenne : (gsF.kids.getD (gActive gs s) []).length ≠ 0 := by omega
      have hcellA : (gsF.kids.getD (gActive gs s) []).getD
          (gs.kids.getD (gActive gs s) []).length .msg
          = .reg gs.kids.length := by
        rw [prefix_getD hpref _ (by simp)]
        exact getD_append_of_len _ _ _ _ rfl
      have hnne : nuF sc gsF.kids gsF.parentOf gsF.ords (gActive gs s)
          ≠ fcOf sc gsF.kids (gActive gs s)
            + (gs.kids.getD (gActive gs s) []).length := by
        intro he
        obtain ⟨w1, w2, w3⟩ := nuF_eq_cell sc gsF hfin (gActive gs s)
          (gs.kids.getD (gActive gs s) []).length (gActive gs s) haF henlt haF he
        obtain ⟨f1, f2, f3⟩ := Fgrp (gActive gs s) w1 haF
        rw [w2, w3, hcellA] at f2
        injection f2 with hinj
        omega
      have hKle : ∀ g, g < gs.kids.length →
          (gs.kids.getD g []).length ≤ (gsF.kids.getD g []).length := by
        intro g hg
        by_cases hga : g = gActive gs s
        · subst hga
          omega
        · have h := hleO.2.1 g (by rw [gOpen_kids]; simp; omega)
          rw [gOpen_kids, getD_append_lt _ _ _ _ (by simpa using hg),
            getD_set_ne _ _ _ _ _ (fun he => hga he.symm)] at h
          exact h.length_le
      obtain ⟨ft, hpn⟩ := n7 (gActive gs s) ha
      have hfc : (st.nodes.getD
            (nuF sc gsF.kids gsF.parentOf gsF.ords (gActive gs s)) default).firstChild
          = some (fcOf sc gsF.kids (gActive gs s)) := by
        rw [hpn]
        dsimp only
        rw [if_pos hlenne]
      have hcc : (st.nodes.getD
            (nuF sc gsF.kids gsF.parentOf gsF.ords (gActive gs s)) default).childCount
          = (gs.kids.getD (gActive gs s) []).length := by
        rw [hpn]
      have hguard : fcOf sc gsF.kids (gActive gs s)
            + (st.nodes.getD
              (nuF sc gsF.kids gsF.parentOf gsF.ords (gActive gs s)) default).childCount
            < st.nodes.length ∧
          st.nextGroupIndex < G.length := by
        constructor
        · rw [hcc, n1]
          exact cellSlot_lt_N sc gsF.kids haF henlt
        · rw [n2, hGlen]
          omega
      have hset : ∀ v : NodeV,
          ((st.nodes.set (nuF sc gsF.kids gsF.parentOf gsF.ords (gActive gs s)) v).getD
            (fcOf sc gsF.kids (gActive gs s)
              + (gs.kids.getD (gActive gs s) []).length) default)
          = ⟨.log, none, 0, none, none, 0, none, 0⟩ := by
        intro v
        rw [getD_set_ne _ _ _ _ _ hnne,
          slot_unclaimed sc gsF gs st hr2 (gActive gs s) (by omega) ha henlt hKle]
        rfl
      have htot : (G.getD gs.kids.length default).groupChildCount
            + (G.getD gs.kids.length default).messageChildCount
          = (gsF.kids.getD gs.kids.length []).length := hG gs.kids.length (by omega)
      have hPg : gsF.parentOf.getD gs.kids.length 0 = gActive gs s := by
        have h := (hleO.2.2 gs.kids.length (by rw [gOpen_kids]; simp)).1
        rw [gOpen_parentOf, getD_append_of_len _ _ _ _ (by omega)] at h
        exact h.symm
      have hOg : gsF.ords.getD gs.kids.length 0
          = (gs.kids.getD (gActive gs s) []).length := by
        have h := (hleO.2.2 gs.kids.length (by rw [gOpen_kids]; simp)).2
        rw [show (gOpen gs s).ords
            = gs.ords ++ [(gs.kids.getD (gActive gs s) []).length] from rfl,
          getD_append_of_len _ _ _ _ (by omega)] at h
        exact h.symm
      have hgstar : nuF sc gsF.kids gsF.parentOf gsF.ords (gActive (gOpen gs s) s)
          = fcOf sc gsF.kids (gActive gs s)
            + (gs.kids.getD (gActive gs s) []).length := by
        rw [gActive_open_self gs s (by omega)]
        unfold nuF
        rw [if_neg (by omega), hPg, hOg]
      have hr2' := R2_open_sem sc gsF gs st s ft none hfin hs hgwfc hr2 hleO hpn
      obtain ⟨st', heq, hA, hB, hC⟩ :=
        ih K rest (pos + 4) s (gOpen gs s) _ hdrop2 hwf' hs hgwf' hr2' hdep' hfut'
      refine ⟨st', ?_, hA, hB, hC⟩
      rw [show pos + (encodeMsgs order (Msg.anonStart :: ms)).length
          = pos + 4 + (encodeMsgs order ms).length from by
        rw [encodeMsgs_cons, List.length_append, length_encodeMsg_anon]
        omega]
      rw [processBlock2_step_anon checked fmts order data G
        (pos + 4 + (encodeMsgs order ms).length) s pos
        (fcOf sc gsF.kids (gActive gs s)) st
        (nuF sc gsF.kids gsF.parentOf gsF.ords (gActive gs s))
        (by omega) hk hfc hguard]
      rw [hpn]
      dsimp only
      rw [hset]
      dsimp only
      rw [n2, n3, htot]
      rw [hgstar] at heq
      exact heq
    | namedStart k =>
      have hdropm : data.drop pos
          = leBytes 4 NamedRegionStart
            ++ (leBytes 4 k ++ (encodeMsgs order ms ++ rest)) := by
        rw [hdrop, encodeMsgs_cons]
        simp only [encodeMsg, List.append_assoc]
      have hk : readAt 4 data pos = some NamedRegionStart :=
        readAt_of_drop hdropm (by decide)
      have hdropk : data.drop (pos + 4)
          = leBytes 4 k ++ (encodeMsgs order ms ++ rest) :=
        drop_add_of_drop hdropm (length_leBytes 4 _)
      have hk2 : readAt 4 data (pos + 4) = some k :=
        readAt_of_drop hdropk (by exact hwfm.1)
      obtain ⟨sz, hsz⟩ := Option.isSome_iff_exists.mp hwfm.2
      have hdrop2 : data.drop (pos + 8) = encodeMsgs order ms ++ rest := by
        have h := drop_add_of_drop hdropk (length_leBytes 4 k)
        rwa [show pos + 4 + 4 = pos + 8 from by omega] at h
      have hgwf' : GhostWF sc (gOpen gs s) := gOpen_WF sc gs s hs hgwfc
      have hdep' : depthOk (((gOpen gs s).stks.getD s []).length - 1) (ms ++ K) := by
        rw [gOpen_stks, getD_set_self _ _ _ _ (by omega), List.length_cons]
        have hd : depthOk ((gs.stks.getD s []).length - 1 + 1) (ms ++ K) := hdep
        rwa [show (gs.stks.getD s []).length - 1 + 1 = (gs.stks.getD s []).length
          from by omega] at hd
      have hfut' : GhostLe (gsteps s (gOpen gs s) ms) gsF := by
        rw [gsteps_cons] at hfut
        exact hfut
      have hleO : GhostLe (gOpen gs s) gsF :=
        GhostLe_trans (ghostE_msgs sc ms K s (gOpen gs s) hs hgwf' hdep').2.2.1 hfut'
      have hlen1 : gs.kids.length + 1 ≤ gsF.kids.length := by
        have h := hleO.1
        rw [gOpen_kids] at h
        simpa using h
      have haF : gActive gs s < gsF.kids.length := by omega
      have hpref : (gs.kids.getD (gActive gs s) []) ++ [GChild.reg gs.kids.length]
          <+: gsF.kids.getD (gActive gs s) [] := by
        have h := hleO.2.1 (gActive gs s) (by rw [gOpen_kids]; simp; omega)
        rw [gOpen_kids, getD_append_lt _ _ _ _ (by simpa using ha),
          getD_set_self _ _ _ _ ha] at h
        exact h
      have henlt : (gs.kids.getD (gActive gs s) []).length
          < (gsF.kids.getD (gActive gs s) []).length := by
        have h := hpref.length_le
        rw [List.length_append, List.length_cons, List.length_nil] at h
        omega
      have hlenne : (gsF.kids.getD (gActive gs s) []).length ≠ 0 := by omega
      have hcellA : (gsF.kids.getD (gActive gs s) []).getD
          (gs.kids.getD (gActive gs s) []).length .msg
          = .reg gs.kids.length := by
        rw [prefix_getD hpref _ (by simp)]
        exact getD_append_of_len _ _ _ _ rfl
      have hnne : nuF sc gsF.kids gsF.parentOf gsF.ords (gActive gs s)
          ≠ fcOf sc gsF.kids (gActive gs s)
            + (gs.kids.getD (gActive gs s) []).length := by
        intro he
        obtain ⟨w1, w2, w3⟩ := nuF_eq_cell sc gsF hfin (gActive gs s)
          (gs.kids.getD (gActive gs s) []).length (gActive gs s) haF henlt haF he
        obtain ⟨f1, f2, f3⟩ := Fgrp (gActive gs s) w1 haF
        rw [w2, w3, hcellA] at f2
        injection f2 with hinj
        omega
      have hKle : ∀ g, g < gs.kids.length →
          (gs.kids.getD g []).length ≤ (gsF.kids.getD g []).length := by
        intro g hg
        by_cases hga : g = gActive gs s
        · subst hga
          omega
        · have h := hleO.2.1 g (by rw [gOpen_kids]; simp; omega)
          rw [gOpen_kids, getD_append_lt _ _ _ _ (by simpa using hg),
            getD_set_ne _ _ _ _ _ (fun he => hga he.symm)] at h
          exact h.length_le
      obtain ⟨ft, hpn⟩ := n7 (gActive gs s) ha
      have hfc : (st.nodes.getD
            (nuF sc gsF.kids gsF.parentOf gsF.ords (gActive gs s)) default).firstChild
          = some (fcOf sc gsF.kids (gActive gs s)) := by
        rw [hpn]
        dsimp only
        rw [if_pos hlenne]
      have hcc : (st.nodes.getD
            (nuF sc gsF.kids gsF.parentOf gsF.ords (gActive gs s)) default).childCount
          = (gs.kids.getD (gActive gs s) []).length := by
        rw [hpn]
      have hguard : fcOf sc gsF.kids (gActive gs s)
            + (st.nodes.getD
              (nuF sc gsF.kids gsF.parentOf gsF.ords (gActive gs s)) default).childCount
            < st.nodes.length ∧
          st.nextGroupIndex < G.length := by
        constructor
        · rw [hcc, n1]
          exact cellSlot_lt_N sc gsF.kids haF henlt
        · rw [n2, hGlen]
          omega
      have hset : ∀ v : NodeV,
          ((st.nodes.set (nuF sc gsF.kids gsF.parentOf gsF.ords (gActive gs s)) v).getD
            (fcOf sc gsF.kids (gActive gs s)
              + (gs.kids.getD (gActive gs s) []).length) default)
          = ⟨.log, none, 0, none, none, 0, none, 0⟩ := by
        intro v
        rw [getD_set_ne _ _ _ _ _ hnne,
          slot_unclaimed sc gsF gs st hr2 (gActive gs s) (by omega) ha henlt hKle]
        rfl
      have htot : (G.getD gs.kids.length default).groupChildCount
            + (G.getD gs.kids.length default).messageChildCount
          = (gsF.kids.getD gs.kids.length []).length := hG gs.kids.length (by omega)
      have hPg : gsF.parentOf.getD gs.kids.length 0 = gActive gs s := by
        have h := (hleO.2.2 gs.kids.length (by rw [gOpen_kids]; simp)).1
        rw [gOpen_parentOf, getD_append_of_len _ _ _ _ (by omega)] at h
        exact h.symm
      have hOg : gsF.ords.getD gs.kids.length 0
          = (gs.kids.getD (gActive gs s) []).length := by
        have h := (hleO.2.2 gs.kids.length (by rw [gOpen_kids]; simp)).2
        rw [show (gOpen gs s).ords
            = gs.ords ++ [(gs.kids.getD (gActive gs s) []).length] from rfl,
          getD_append_of_len _ _ _ _ (by omega)] at h
        exact h.symm
      have hgstar : nuF sc gsF.kids gsF.parentOf gsF.ords (gActive (gOpen gs s) s)
          = fcOf sc gsF.kids (gActive gs s)
            + (gs.kids.getD (gActive gs s) []).length := by
        rw [gActive_open_self gs s (by omega)]
        unfold nuF
        rw [if_neg (by omega), hPg, hOg]
      have hr2' := R2_open_sem sc gsF gs st s ft (some k) hfin hs hgwfc hr2 hleO hpn
      obtain ⟨st', heq, hA, hB, hC⟩ :=
        ih K rest (pos + 8) s (gOpen gs s) _ hdrop2 hwf' hs hgwf' hr2' hdep' hfut'
      refine ⟨st', ?_, hA, hB, hC⟩
      rw [show pos + (encodeMsgs order (Msg.namedStart k :: ms)).length
          = pos + 8 + (encodeMsgs order ms).length from by
        rw [encodeMsgs_cons, List.length_append, length_encodeMsg_named]
        omega]
      rw [processBlock2_step_named checked fmts order data G
        (pos + 8 + (encodeMsgs order ms).length) s pos k sz
        (fcOf sc gsF.kids (gActive gs s)) st
        (nuF sc gsF.kids gsF.parentOf gsF.ords (gActive gs s))
        (by omega) hk hk2 hsz hfc hguard]
      rw [hpn]
      dsimp only
      rw [hset]
      dsimp only
      rw [n2, n3, htot]
      rw [hgstar] at heq
      exact heq
    | regionEnd =>
      have hdropm : data.drop pos
          = leBytes 4 RegionEnd ++ (encodeMsgs order ms ++ rest) := by
        rw [hdrop, encodeMsgs_cons]
        simp only [encodeMsg, List.append_assoc]
      have hk : readAt 4 data pos = some RegionEnd :=
        readAt_of_drop hdropm (by decide)
      have hdrop2 : data.drop (pos + 4) = encodeMsgs order ms ++ rest :=
        drop_add_of_drop hdropm (length_leBytes 4 _)
      have hdd : 0 < (gs.stks.getD s []).length - 1 ∧
          depthOk ((gs.stks.getD s []).length - 1 - 1) (ms ++ K) := hdep
      have h2 : 2 ≤ (gs.stks.getD s []).length := by omega
      have hgwf' : GhostWF sc (gstep gs (s, .regionEnd)) :=
        gEnd_WF sc gs s hs h2 hgwfc
      have hdep' : depthOk
          ((((gstep gs (s, .regionEnd)).stks.getD s []).length - 1)) (ms ++ K) := by
        rw [gstep_end_stks, getD_set_self _ _ _ _ (by omega), List.length_tail]
        exact hdd.2
      have hfut' : GhostLe (gsteps s (gstep gs (s, .regionEnd)) ms) gsF := by
        rw [gsteps_cons] at hfut
        exact hfut
      have hleG : GhostLe gs gsF :=
        GhostLe_trans
          (ghostE_msgs sc (Msg.regionEnd :: ms) K s gs hs hgwfc hdep).2.2.1 hfut
      have ha_ge : sc ≤ gActive gs s := by
        cases hst : gs.stks.getD s [] with
        | nil => rw [hst] at h2; simp at h2
        | cons g r =>
          cases r with
          | nil => rw [hst] at h2; simp at h2
          | cons g2 r2 =>
            have hgact : gActive gs s = g := by unfold gActive; rw [hst]; rfl
            have hchain := hstk s hs
            rw [hst] at hchain
            rw [hgact]
            exact hchain.1
      obtain ⟨ft, hpn⟩ := n7 (gActive gs s) ha
      have hpp : (st.nodes.getD
            (nuF sc gsF.kids gsF.parentOf gsF.ords (gActive gs s)) default).parent
          = some (nuF sc gsF.kids gsF.parentOf gsF.ords
              (gsF.parentOf.getD (gActive gs s) 0)) := by
        rw [hpn]
        dsimp only
        rw [if_neg (by omega)]
      have hr2' := R2_end_sem sc gsF gs st s hfin hs hgwfc h2 hr2 hleG
      obtain ⟨st', heq, hA, hB, hC⟩ :=
        ih K rest (pos + 4) s (gstep gs (s, .regionEnd)) _ hdrop2 hwf' hs hgwf'
          hr2' hdep' hfut'
      refine ⟨st', ?_, hA, hB, hC⟩
      rw [show pos + (encodeMsgs order (Msg.regionEnd :: ms)).length
          = pos + 4 + (encodeMsgs order ms).length from by
        rw [encodeMsgs_cons, List.length_append, length_encodeMsg_end]
        omega]
      rw [processBlock2_step_end checked fmts order data G
        (pos + 4 + (encodeMsgs order ms).length) s pos
        (nuF sc gsF.kids gsF.parentOf gsF.ords
          (gsF.parentOf.getD (gActive gs s) 0)) st
        (nuF sc gsF.kids gsF.parentOf gsF.ords (gActive gs s))
        (by omega) hk hpp]
      have hpnew : gActive (gstep gs (s, Msg.regionEnd)) s
          = gsF.parentOf.getD (gActive gs s) 0 := by
        rw [gActive_end_self gs s (by omega)]
        cases hst : gs.stks.getD s [] with
        | nil => rw [hst] at h2; simp at h2
        | cons g r =>
          cases r with
          | nil => rw [hst] at h2; simp at h2
          | cons g2 r2 =>
            have hgact : gActive gs s = g := by unfold gActive; rw [hst]; rfl
            have hchain := hstk s hs
            rw [hst] at hchain
            obtain ⟨hc1, hc2, hc3, -⟩ := hchain
            rw [hgact, ← (hleG.2.2 g (by omega)).1, hc3]
            rfl
      rw [hpnew] at heq
      exact heq
    | message key o payload =>
      have hdropm : data.drop pos
          = leBytes 4 key ++ ((if order then leBytes 8 o else [])
            ++ (payload ++ (encodeMsgs order ms ++ rest))) := by
        rw [hdrop, encodeMsgs_cons]
        simp only [encodeMsg, List.append_assoc]
      have hk : readAt 4 data pos = some key :=
        readAt_of_drop hdropm (by exact hwfm.1)
      have hm : alookup fmts key = some payload.length := hwfm.2.2.1
      have hIlen : (if order then leBytes 8 o else []).length
          = (if order then 8 else 0) := by
        cases order <;> simp [length_leBytes]
      have hdropI : data.drop (pos + 4)
          = (if order then leBytes 8 o else [])
            ++ (payload ++ (encodeMsgs order ms ++ rest)) :=
        drop_add_of_drop hdropm (length_leBytes 4 key)
      have hdropP : data.drop (pos + 4 + (if order then 8 else 0))
          = payload ++ (encodeMsgs order ms ++ rest) :=
        drop_add_of_drop hdropI hIlen
      have hdrop2 : data.drop (pos + 4 + (if order then 8 else 0) + payload.length)
          = encodeMsgs order ms ++ rest :=
        drop_add_of_drop hdropP rfl
      have hgwf' : GhostWF sc (gstep gs (s, .message key o payload)) :=
        gMsg_WF sc gs s key o payload hs hgwfc
      have hdep' : depthOk
          ((((gstep gs (s, .message key o payload)).stks.getD s []).length - 1))
          (ms ++ K) := hdep
      have hfut' : GhostLe (gsteps s (gstep gs (s, .message key o payload)) ms) gsF := by
        rw [gsteps_cons] at hfut
        exact hfut
      have hleM : GhostLe (gstep gs (s, .message key o payload)) gsF :=
        GhostLe_trans
          (ghostE_msgs sc ms K s (gstep gs (s, .message key o payload)) hs hgwf'
            hdep').2.2.1 hfut'
      have hlen1 : gs.kids.length ≤ gsF.kids.length := by
        have h := hleM.1
        rw [gstep_msg_kids] at h
        simpa using h
      have haF : gActive gs s < gsF.kids.length := by omega
      have hpref : (gs.kids.getD (gActive gs s) []) ++ [GChild.msg]
          <+: gsF.kids.getD (gActive gs s) [] := by
        have h := hleM.2.1 (gActive gs s) (by rw [gstep_msg_kids]; simp; omega)
        rw [gstep_msg_kids, getD_set_self _ _ _ _ ha] at h
        exact h
      have henlt : (gs.kids.getD (gActive gs s) []).length
          < (gsF.kids.getD (gActive gs s) []).length := by
        have h := hpref.length_le
        rw [List.length_append, List.length_cons, List.length_nil] at h
        omega
      have hlenne : (gsF.kids.getD (gActive gs s) []).length ≠ 0 := by omega
      have hcellA : (gsF.kids.getD (gActive gs s) []).getD
          (gs.kids.getD (gActive gs s) []).length .msg = .msg := by
        rw [prefix_getD hpref _ (by simp)]
        exact getD_append_of_len _ _ _ _ rfl
      have hnne : nuF sc gsF.kids gsF.parentOf gsF.ords (gActive gs s)
          ≠ fcOf sc gsF.kids (gActive gs s)
            + (gs.kids.getD (gActive gs s) []).length := by
        intro he
        obtain ⟨w1, w2, w3⟩ := nuF_eq_cell sc gsF hfin (gActive gs s)
          (gs.kids.getD (gActive gs s) []).length (gActive gs s) haF henlt haF he
        obtain ⟨f1, f2, f3⟩ := Fgrp (gActive gs s) w1 haF
        rw [w2, w3, hcellA] at f2
        exact GChild.noConfusion f2
      have hKle : ∀ g, g < gs.kids.length →
          (gs.kids.getD g []).length ≤ (gsF.kids.getD g []).length := by
        intro g hg
        by_cases hga : g = gActive gs s
        · subst hga
          omega
        · have h := hleM.2.1 g (by rw [gstep_msg_kids]; simp; omega)
          rw [gstep_msg_kids, getD_set_ne _ _ _ _ _ (fun he => hga he.symm)] at h
          exact h.length_le
      obtain ⟨ft, hpn⟩ := n7 (gActive gs s) ha
      have hfc : (st.nodes.getD
            (nuF sc gsF.kids gsF.parentOf gsF.ords (gActive gs s)) default).firstChild
          = some (fcOf sc gsF.kids (gActive gs s)) := by
        rw [hpn]
        dsimp only
        rw [if_pos hlenne]
      have hcc : (st.nodes.getD
            (nuF sc gsF.kids gsF.parentOf gsF.ords (gActive gs s)) default).childCount
          = (gs.kids.getD (gActive gs s) []).length := by
        rw [hpn]
      have hguard : fcOf sc gsF.kids (gActive gs s)
            + (st.nodes.getD
              (nuF sc gsF.kids gsF.parentOf gsF.ords (gActive gs s)) default).childCount
            < st.nodes.length := by
        rw [hcc, n1]
        exact cellSlot_lt_N sc gsF.kids haF henlt
      have hset : ∀ v : NodeV,
          ((st.nodes.set (nuF sc gsF.kids gsF.parentOf gsF.ords (gActive gs s)) v).getD
            (fcOf sc gsF.kids (gActive gs s)
              + (gs.kids.getD (gActive gs s) []).length) default)
          = ⟨.log, none, 0, none, none, 0, none, 0⟩ := by
        intro v
        rw [getD_set_ne _ _ _ _ _ hnne,
          slot_unclaimed sc gsF gs st hr2 (gActive gs s) (by omega) ha henlt hKle]
        rfl
      have hgact : gActive (gstep gs (s, Msg.message key o payload)) s
          = gActive gs s := gActive_msg gs s key o payload s
      by_cases ho : order = true
      · have hdropI' : data.drop (pos + 4)
            = leBytes 8 o ++ (payload ++ (encodeMsgs order ms ++ rest)) := by
          rw [hdropI, if_pos ho]
        have hidx : readAt 8 data (pos + 4) = some o :=
          readAt_of_drop hdropI' (by
            have h8 : (2 : Nat) ^ (8 * 8) = 2 ^ 64 := by norm_num
            rw [h8]
            exact hwfm.2.2.2)
        have hr2' := R2_msg_sem sc gsF gs st s ft (some key) o
          (if 0 < payload.length then some (pos + 4 + (if order then 8 else 0))
            else none)
          key o payload hfin hs hgwfc hr2 hleM hpn
        obtain ⟨st', heq, hA, hB, hC⟩ :=
          ih K rest (pos + 4 + (if order then 8 else 0) + payload.length) s
            (gstep gs (s, .message key o payload)) _ hdrop2 hwf' hs hgwf' hr2'
            hdep' hfut'
        refine ⟨st', ?_, hA, hB, hC⟩
        rw [show pos + (encodeMsgs order (Msg.message key o payload :: ms)).length
            = pos + 4 + (if order then 8 else 0) + payload.length
              + (encodeMsgs order ms).length from by
          rw [encodeMsgs_cons, List.length_append, length_encodeMsg_msg]
          omega]
        rw [processBlock2_step_msgT checked fmts order data G
          (pos + 4 + (if order then 8 else 0) + payload.length
            + (encodeMsgs order ms).length) s pos key payload.length o
          (fcOf sc gsF.kids (gActive gs s)) st
          (nuF sc gsF.kids gsF.parentOf gsF.ords (gActive gs s))
          ho (by omega) hk hwfm.2.1 hm hfc hguard hidx]
        rw [hpn]
        dsimp only
        rw [hset]
        dsimp only
        rw [hgact] at heq
        exact heq
      · have hof : order = false := by
          revert ho
          cases order <;> simp
        have hr2' := R2_msg_sem sc gsF gs st s ft (some key) 0
          (if 0 < payload.length then some (pos + 4 + (if order then 8 else 0))
            else none)
          key o payload hfin hs hgwfc hr2 hleM hpn
        obtain ⟨st', heq, hA, hB, hC⟩ :=
          ih K rest (pos + 4 + (if order then 8 else 0) + payload.length) s
            (gstep gs (s, .message key o payload)) _ hdrop2 hwf' hs hgwf' hr2'
            hdep' hfut'
        refine ⟨st', ?_, hA, hB, hC⟩
        rw [show pos + (encodeMsgs order (Msg.message key o payload :: ms)).length
            = pos + 4 + (if order then 8 else 0) + payload.length
              + (encodeMsgs order ms).length from by
          rw [encodeMsgs_cons, List.length_append, length_encodeMsg_msg]
          omega]
        rw [processBlock2_step_msgF checked fmts order data G
          (pos + 4 + (if order then 8 else 0) + payload.length
            + (encodeMsgs order ms).length) s pos key payload.length
          (fcOf sc gsF.kids (gActive gs s)) st
          (nuF sc gsF.kids gsF.parentOf gsF.ords (gActive gs s))
          hof (by omega) hk hwfm.2.1 hm hfc hguard]
        rw [hpn]
        dsimp only
        rw [hset]
        dsimp only
        rw [hgact] at heq
        exact heq


set_option maxHeartbeats 1000000 in
theorem processLog2_done (checked : Bool) (fmts : List (Nat × Nat)) (order : Bool)
    (data : List Nat) (G : List GroupNode) (pos : Nat) (st : P2State)
    (h : pos = data.length) :
    processLog2 checked fmts order data G pos st = .ok st := by
  unfold processLog2
  rw [dif_neg (by omega), if_neg (by simp [h])]

set_option maxHeartbeats 1000000 in
theorem processLog2_step (checked : Bool) (fmts : List (Nat × Nat)) (order : Bool)
    (data : List Nat) (G : List GroupNode) (pos sI bSz pos' : Nat)
    (st st' : P2State)
    (hlt : pos < data.length)
    (hsr : readAt 8 data pos = some sI)
    (hbr : readAt 8 data (pos + 8) = some bSz)
    (hg : sI < st.activeParentNode.length)
    (hblk : processBlock2 checked fmts order data G (pos + 16 + bSz) sI (pos + 16) st
      (st.activeParentNode.getD sI 0) = .ok (pos', st')) :
    processLog2 checked fmts order data G pos st
      = processLog2 checked fmts order data G pos' st' := by
  conv_lhs => rw [processLog2]
  rw [dif_pos hlt, hsr, hbr]
  dsimp only
  rw [if_pos hg]
  split
  · next e heq2 => rw [heq2] at hblk; exact absurd hblk (by simp)
  · next a b heq2 =>
    rw [heq2] at hblk
    simp only [Except.ok.injEq, Prod.mk.injEq] at hblk
    rw [hblk.1, hblk.2]

/-- Pass 2 over a whole well-formed encoded log: it cannot fail (in
either mode) and the invariant holds of the final arena. -/
theorem processLog2_sim (checked : Bool) (fmts : List (Nat × Nat)) (order : Bool)
    (sc : Nat) (hsc : sc < 2 ^ 64) (data : List Nat) (G : List GroupNode)
    (gsF : Ghost)
    (hfin : GhostWF sc gsF)
    (hGlen : G.length = gsF.kids.length)
    (hG : ∀ g, g < gsF.kids.length →
      (G.getD g default).groupChildCount + (G.getD g default).messageChildCount
        = (gsF.kids.getD g []).length) :
    ∀ (blocks : List Block) (pos : Nat) (gs : Ghost) (st : P2State),
    data.drop pos = encodeLog order blocks →
    pos ≤ data.length →
    (∀ b ∈ blocks, b.stream < sc ∧ (encodeMsgs order b.msgs).length < 2 ^ 64 ∧
      ∀ m ∈ b.msgs, WfMsg fmts m) →
    GhostWF sc gs → R2 sc gsF gs st →
    (∀ s, s < sc → depthOk ((gs.stks.getD s []).length - 1) (streamMsgs s blocks)) →
    GhostLe (gTrace gs blocks) gsF →
    ∃ st' : P2State,
      processLog2 checked fmts order data G pos st = .ok st' ∧
      GhostWF sc (gTrace gs blocks) ∧ R2 sc gsF (gTrace gs blocks) st' := by
  intro blocks
  induction blocks with
  | nil =>
    intro pos gs st hdrop hpos hwf hgwf hr2 hdeps hfut
    have hlen : data.length - pos = 0 := by
      have h := congrArg List.length hdrop
      rw [List.length_drop] at h
      simpa [encodeLog] using h
    exact ⟨st, processLog2_done checked fmts order data G pos st (by omega),
      hgwf, hr2⟩
  | cons b bs ih =>
    intro pos gs st hdrop hpos hwf hgwf hr2 hdeps hfut
    obtain ⟨hbs, hbig, hbwf⟩ := hwf b (List.mem_cons_self b bs)
    have hwf' : ∀ x ∈ bs, x.stream < sc ∧ (encodeMsgs order x.msgs).length < 2 ^ 64 ∧
        ∀ m ∈ x.msgs, WfMsg fmts m := fun x hx => hwf x (List.mem_cons_of_mem b hx)
    have hdropb : data.drop pos
        = leBytes 8 b.stream ++ (leBytes 8 (encodeMsgs order b.msgs).length
          ++ (encodeMsgs order b.msgs ++ encodeLog order bs)) := by
      rw [hdrop]
      show encodeLog order (b :: bs) = _
      unfold encodeLog
      rw [List.map_cons, List.flatten_cons]
      unfold encodeBlock
      simp only [List.append_assoc]
    have hsr : readAt 8 data pos = some b.stream :=
      readAt_of_drop hdropb (by have h8 : (2 : Nat) ^ (8 * 8) = 2 ^ 64 := by norm_num
                                rw [h8]; omega)
    have hdropsz : data.drop (pos + 8)
        = leBytes 8 (encodeMsgs order b.msgs).length
          ++ (encodeMsgs order b.msgs ++ encodeLog order bs) :=
      drop_add_of_drop hdropb (length_leBytes 8 _)
    have hbr : readAt 8 data (pos + 8) = some (encodeMsgs order b.msgs).length :=
      readAt_of_drop hdropsz (by have h8 : (2 : Nat) ^ (8 * 8) = 2 ^ 64 := by norm_num
                                 rw [h8]; omega)
    have hdropm : data.drop (pos + 16)
        = encodeMsgs order b.msgs ++ encodeLog order bs := by
      have h := drop_add_of_drop hdropsz (length_leBytes 8 _)
      rwa [show pos + 8 + 8 = pos + 16 from by omega] at h
    have hlt : pos < data.length := by
      have h := congrArg List.length hdropb
      rw [List.length_drop] at h
      simp only [List.length_append, length_leBytes] at h
      omega
    have hpos' : pos + 16 + (encodeMsgs order b.msgs).length ≤ data.length := by
      have h := congrArg List.length hdropb
      rw [List.length_drop] at h
      simp only [List.length_append, length_leBytes] at h
      omega
    have hdepb : depthOk ((gs.stks.getD b.stream []).length - 1)
        (b.msgs ++ streamMsgs b.stream bs) := by
      have h := hdeps b.stream hbs
      rwa [streamMsgs_cons_self] at h
    obtain ⟨w1, w2, w3, w4, w5, w6, w7⟩ :=
      ghostE_msgs sc b.msgs (streamMsgs b.stream bs) b.stream gs hbs hgwf hdepb
    have hdeps' : ∀ s, s < sc →
        depthOk (((gsteps b.stream gs b.msgs).stks.getD s []).length - 1)
          (streamMsgs s bs) := by
      intro s hs
      by_cases hss : s = b.stream
      · subst hss
        exact w2
      · rw [gsteps_stks_ne b.stream s (fun he => hss he.symm)]
        have h := hdeps s hs
        rwa [streamMsgs_cons_ne s b bs (fun he => hss he.symm)] at h
    have hfutB : GhostLe (gsteps b.stream gs b.msgs) gsF := by
      rw [gTrace_cons] at hfut
      exact GhostLe_trans
        (ghostE_blocks sc bs (gsteps b.stream gs b.msgs) w1
          (fun x hx => (hwf' x hx).1) hdeps').2.1 hfut
    obtain ⟨st1, heq, hgwf1, hr21, hdep1⟩ := processBlock2_sim checked fmts order
      sc data G gsF hfin hGlen hG b.msgs (streamMsgs b.stream bs)
      (encodeLog order bs) (pos + 16) b.stream gs st hdropm hbwf hbs hgwf hr2
      hdepb hfutB
    have hal : st.activeParentNode.length = sc := hr2.2.2.2.1
    have hact : st.activeParentNode.getD b.stream 0
        = nuF sc gsF.kids gsF.parentOf gsF.ords (gActive gs b.stream) :=
      hr2.2.2.2.2.1 b.stream hbs
    have hstep := processLog2_step checked fmts order data G pos b.stream
      (encodeMsgs order b.msgs).length
      (pos + 16 + (encodeMsgs order b.msgs).length) st st1 hlt hsr hbr
      (by omega) (by rw [hact]; exact heq)
    have hdrop' : data.drop (pos + 16 + (encodeMsgs order b.msgs).length)
        = encodeLog order bs :=
      drop_add_of_drop hdropm rfl
    have hfut' : GhostLe (gTrace (gsteps b.stream gs b.msgs) bs) gsF := by
      rw [gTrace_cons] at hfut
      exact hfut
    obtain ⟨st2, heq2, hgwf2, hr22⟩ :=
      ih (pos + 16 + (encodeMsgs order b.msgs).length)
        (gsteps b.stream gs b.msgs) st1 hdrop' hpos' hwf' hgwf1 hr21 hdeps' hfut'
    exact ⟨st2, by rw [hstep]; exact heq2, hgwf2, hr22⟩


/-! ### Initial states of the two passes -/

theorem getD_replicate_self {α : Type} (n i : Nat) (d : α) :
    (List.replicate n d).getD i d = d := by
  by_cases h : i < n
  · exact getD_replicate n i d d h
  · rw [List.getD_eq_default _ _ (by simp; omega)]

theorem getD_range_self {n i : Nat} (hi : i < n) :
    (List.range n).getD i 0 = i := by
  rw [List.getD_eq_getElem?_getD, List.getElem?_range hi]
  rfl

theorem gInit_kids_len (sc : Nat) : (gInit sc).kids.length = sc := by
  simp [gInit]

theorem gInit_kids_getD (sc g : Nat) : (gInit sc).kids.getD g [] = [] :=
  getD_replicate_self sc g []

theorem gInit_stks_getD (sc s : Nat) (hs : s < sc) :
    (gInit sc).stks.getD s [] = [s] :=
  getD_map_range _ _ hs

theorem gInit_active (sc s : Nat) (hs : s < sc) : gActive (gInit sc) s = s := by
  unfold gActive
  rw [gInit_stks_getD sc s hs]
  rfl

theorem gInit_WF (sc : Nat) : GhostWF sc (gInit sc) := by
  refine ⟨by simp [gInit], by simp [gInit], by simp [gInit], by simp [gInit],
    ?_, ?_⟩
  · intro s hs
    rw [gInit_stks_getD sc s hs]
    exact rfl
  · intro g hge hg
    rw [gInit_kids_len] at hg
    omega

theorem R1_init (sc : Nat) :
    R1 sc (gInit sc)
      ⟨(List.range sc).map (fun i => ⟨0, i, 0, 0, 0⟩), 0, 0, List.range sc⟩ := by
  refine ⟨by simp [gInit], by simp, ?_, by simp [gInit], ?_, ?_⟩
  · show 0 = msgTotal (List.replicate sc [])
    unfold msgTotal
    rw [List.map_replicate]
    show 0 = (List.replicate sc 0).sum
    rw [List.sum_replicate]
    simp
  · intro s hs
    rw [gInit_active sc s hs]
    exact getD_range_self hs
  · intro g hg
    rw [gInit_kids_len] at hg
    rw [getD_map_range _ _ hg, gInit_kids_getD]
    refine ⟨rfl, ?_, rfl, rfl⟩
    show (0 : Nat) = (List.replicate sc 0).getD g 0
    rw [getD_replicate_self]

theorem NArena_counts (sc : Nat) (F : List (List GChild)) :
    NArena sc F = 1 + sc + (regTotal F + msgTotal F) := by
  unfold NArena fcOf
  rw [List.take_of_length_le (by simp)]
  have hsum : ∀ (L : List (List GChild)),
      (L.map List.length).sum = regTotal L + msgTotal L := by
    intro L
    induction L with
    | nil => rfl
    | cons a L ih =>
      unfold regTotal msgTotal at ih ⊢
      rw [List.map_cons, List.sum_cons, List.map_cons, List.sum_cons,
        List.map_cons, List.sum_cons, ih, ← countReg_add_countMsg a]
      omega
  rw [hsum]


theorem setupNodes_eq (sc rc mc : Nat) (G : List GroupNode) :
    setupNodes sc rc mc G
      = (List.range sc).foldl (initStream G)
          ((List.replicate (1 + sc + rc + mc) (default : NodeV)).set 0
            ⟨.log, none, 0, none, some 1, sc, none, 1⟩, 1 + sc) := by
  unfold setupNodes
  dsimp only
  rw [getD_replicate_self]
  rfl

theorem initStream_eval (G : List GroupNode) (acc : List NodeV × Nat) (i : Nat) :
    initStream G acc i
      = (acc.1.set (i + 1)
          ⟨.stream, (acc.1.getD (i + 1) default).formatType,
            (acc.1.getD (i + 1) default).index, some 0,
            if (G.getD i default).groupChildCount
                + (G.getD i default).messageChildCount ≠ 0
              then some acc.2 else (acc.1.getD (i + 1) default).firstChild,
            (acc.1.getD (i + 1) default).childCount,
            (acc.1.getD (i + 1) default).data,
            (acc.1.getD (i + 1) default).initCount + 1⟩,
        if (G.getD i default).groupChildCount
            + (G.getD i default).messageChildCount ≠ 0
          then acc.2 + ((G.getD i default).groupChildCount
            + (G.getD i default).messageChildCount) else acc.2) := rfl

/-- The stream-node loop: running allocation cursor `fcOf`, root and
later slots untouched, processed slots set to stream nodes. -/
theorem setupNodes_fold (sc : Nat) (G : List GroupNode) (F : List (List GChild))
    (hsc : sc ≤ F.length)
    (hG : ∀ g, g < F.length →
      (G.getD g default).groupChildCount + (G.getD g default).messageChildCount
        = (F.getD g []).length)
    (nodes1 : List NodeV)
    (hlen : nodes1.length = NArena sc F)
    (hn0 : ∀ j, 1 ≤ j → nodes1.getD j default = default) :
    ∀ i, i ≤ sc →
    ((List.range i).foldl (initStream G) (nodes1, 1 + sc)).1.length = NArena sc F ∧
    ((List.range i).foldl (initStream G) (nodes1, 1 + sc)).2 = fcOf sc F i ∧
    ((List.range i).foldl (initStream G) (nodes1, 1 + sc)).1.getD 0 default
      = nodes1.getD 0 default ∧
    (∀ j, j < i →
      ((List.range i).foldl (initStream G) (nodes1, 1 + sc)).1.getD (1 + j) default
      = ⟨.stream, none, 0, some 0,
          if (F.getD j []).length ≠ 0 then some (fcOf sc F j) else none,
          0, none, 1⟩) ∧
    (∀ j, i + 1 ≤ j →
      ((List.range i).foldl (initStream G) (nodes1, 1 + sc)).1.getD j default
      = nodes1.getD j default) := by
  intro i
  induction i with
  | zero =>
    intro _
    refine ⟨hlen, ?_, rfl, ?_, ?_⟩
    · show 1 + sc = fcOf sc F 0
      unfold fcOf
      simp
    · intro j hj
      omega
    · intro j hj
      rfl
  | succ i ih =>
    intro hi
    obtain ⟨c1, c2, c3, c4, c5⟩ := ih (by omega)
    have hc : (G.getD i default).groupChildCount
        + (G.getD i default).messageChildCount = (F.getD i []).length :=
      hG i (by omega)
    have hn0i : ((List.range i).foldl (initStream G) (nodes1, 1 + sc)).1.getD
        (i + 1) default = default := by
      rw [c5 (i + 1) (Nat.le_refl _), hn0 (i + 1) (by omega)]
    have hi1 : i + 1 < ((List.range i).foldl (initStream G)
        (nodes1, 1 + sc)).1.length := by
      rw [c1]
      have := fcOf_ge sc F F.length
      show i + 1 < NArena sc F
      unfold NArena
      omega
    rw [List.range_succ, List.foldl_append, List.foldl_cons, List.foldl_nil,
      initStream_eval]
    refine ⟨by rw [List.length_set]; exact c1, ?_, ?_, ?_, ?_⟩
    · show (if _ ≠ 0 then _ + _ else _) = _
      rw [hc, c2]
      have hfs := fcOf_succ sc F i (by omega)
      by_cases hz : (F.getD i []).length ≠ 0
      · rw [if_pos hz]
        omega
      · rw [if_neg hz]
        omega
    · rw [getD_set_ne _ _ _ _ _ (by omega)]
      exact c3
    · intro j hj
      by_cases hji : j = i
      · subst hji
        rw [show 1 + j = j + 1 from by omega, getD_set_self _ _ _ _ hi1,
          hn0i, hc, c2]
        rfl
      · rw [getD_set_ne _ _ _ _ _ (by omega)]
        exact c4 j (by omega)
    · intro j hj
      rw [getD_set_ne _ _ _ _ _ (by omega)]
      exact c5 j (by omega)

/-- The arena as pass 2 starts satisfies the invariant at the initial
ghost. -/
theorem R2_init (sc : Nat) (G : List GroupNode) (gsF : Ghost)
    (hfin : GhostWF sc gsF)
    (hGlen : G.length = gsF.kids.length)
    (hG : ∀ g, g < gsF.kids.length →
      (G.getD g default).groupChildCount + (G.getD g default).messageChildCount
        = (gsF.kids.getD g []).length)
    (regionCount messageCount : Nat)
    (hN : 1 + sc + regionCount + messageCount = NArena sc gsF.kids) :
    R2 sc gsF (gInit sc)
      ⟨(setupNodes sc regionCount messageCount G).1, sc,
        (setupNodes sc regionCount messageCount G).2,
        (List.range sc).map (· + 1)⟩ := by
  have hsc : sc ≤ gsF.kids.length := hfin.2.2.2.1
  have hlen1 : ((List.replicate (1 + sc + regionCount + messageCount)
      (default : NodeV)).set 0
        ⟨.log, none, 0, none, some 1, sc, none, 1⟩).length
      = NArena sc gsF.kids := by
    rw [List.length_set, List.length_replicate]
    omega
  have hup : ∀ j, 1 ≤ j →
      ((List.replicate (1 + sc + regionCount + messageCount)
        (default : NodeV)).set 0
          ⟨.log, none, 0, none, some 1, sc, none, 1⟩).getD j default
      = default := by
    intro j hj
    rw [getD_set_ne _ _ _ _ _ (by omega), getD_replicate_self]
  have hroot : ((List.replicate (1 + sc + regionCount + messageCount)
      (default : NodeV)).set 0
        ⟨.log, none, 0, none, some 1, sc, none, 1⟩).getD 0 default
      = ⟨.log, none, 0, none, some 1, sc, none, 1⟩ :=
    getD_set_self _ _ _ _ (by rw [List.length_replicate]; omega)
  obtain ⟨c1, c2, c3, c4, c5⟩ := setupNodes_fold sc G gsF.kids hsc hG _ hlen1 hup
    sc (Nat.le_refl sc)
  rw [setupNodes_eq]
  unfold R2
  dsimp only
  refine ⟨c1, ?_, ?_, by simp, ?_, ?_, ?_, ?_, ?_⟩
  · rw [gInit_kids_len]
  · rw [c2, gInit_kids_len]
  · intro s hs
    rw [getD_map_range _ _ hs, gInit_active sc s hs]
    unfold nuF
    rw [if_pos hs]
    omega
  · rw [c3, hroot]
  · intro g hg
    rw [gInit_kids_len] at hg
    refine ⟨none, ?_⟩
    have hnu : nuF sc gsF.kids gsF.parentOf gsF.ords g = 1 + g := by
      unfold nuF
      rw [if_pos hg]
    rw [hnu, c4 g hg, gInit_kids_getD, if_pos hg, if_pos hg]
    rfl
  · intro g c hg hc hval
    rw [gInit_kids_getD] at hc
    simp at hc
  · intro j hj hjge hout
    rw [c5 j (by omega), hup j (by omega)]


/-- On any well-formed encoded log, `readLogFile` succeeds in both modes
and the final arena satisfies the pass-2 invariant at the completed ghost
tree. -/
theorem readLogFile_ok (checked : Bool) (sc : Nat) (fmts : List (Nat × Nat))
    (order : Bool) (blocks : List Block)
    (hwf : WfLog sc fmts order blocks) :
    ∃ st2 : P2State,
      readLogFile checked sc fmts order (encodeLog order blocks) = .ok st2.nodes ∧
      R2 sc (gTrace (gInit sc) blocks) (gTrace (gInit sc) blocks) st2 ∧
      GhostWF sc (gTrace (gInit sc) blocks) ∧
      GhostBW sc (gTrace (gInit sc) blocks) ∧
      (gTrace (gInit sc) blocks).kids.length = sc + regionCountOf blocks ∧
      msgTotal (gTrace (gInit sc) blocks).kids = messageCountOf blocks ∧
      regTotal (gTrace (gInit sc) blocks).kids = regionCountOf blocks := by
  obtain ⟨hsc, hbl, hdeps0⟩ := hwf
  have hgwf0 : GhostWF sc (gInit sc) := gInit_WF sc
  have hr10 := R1_init sc
  have hdeps0' : ∀ s, s < sc →
      depthOk (((gInit sc).stks.getD s []).length - 1) (streamMsgs s blocks) := by
    intro s hs
    rw [gInit_stks_getD sc s hs]
    exact hdeps0 s hs
  obtain ⟨st1, heq1, hgwfF, hr1F⟩ := processLog1_sim checked fmts order sc hsc
    (encodeLog order blocks) blocks 0 (gInit sc)
    ⟨(List.range sc).map (fun i => ⟨0, i, 0, 0, 0⟩), 0, 0, List.range sc⟩
    (by simp) (by omega) hbl hgwf0 hr10 hdeps0'
  obtain ⟨e1, e2, e3, e4, e5, e6⟩ := ghostE_blocks sc blocks (gInit sc) hgwf0
    (fun b hb => (hbl b hb).1) hdeps0'
  have hmt0 : msgTotal (gInit sc).kids = 0 := by
    show msgTotal (List.replicate sc []) = 0
    unfold msgTotal
    rw [List.map_replicate]
    show (List.replicate sc 0).sum = 0
    rw [List.sum_replicate]
    simp
  have hrt0 : regTotal (gInit sc).kids = 0 := by
    show regTotal (List.replicate sc []) = 0
    unfold regTotal
    rw [List.map_replicate]
    show (List.replicate sc 0).sum = 0
    rw [List.sum_replicate]
    simp
  have hbw0 : GhostBW sc (gInit sc) := by
    intro g c g' hg hc hval
    rw [gInit_kids_getD] at hc
    simp at hc
  have hbwF := e3 hbw0
  have hkl0 : (gInit sc).kids.length = sc := gInit_kids_len sc
  have hGlen : st1.groupNodes.length = (gTrace (gInit sc) blocks).kids.length :=
    hr1F.1
  have hG : ∀ g, g < (gTrace (gInit sc) blocks).kids.length →
      (st1.groupNodes.getD g default).groupChildCount
        + (st1.groupNodes.getD g default).messageChildCount
      = ((gTrace (gInit sc) blocks).kids.getD g []).length := by
    intro g hg
    obtain ⟨-, -, h3, h4⟩ := hr1F.2.2.2.2.2 g hg
    rw [h3, h4, countReg_add_countMsg]
  have hN : 1 + sc + st1.regionCount + st1.messageCount
      = NArena sc (gTrace (gInit sc) blocks).kids := by
    have hm := hr1F.2.2.1
    have hr := hr1F.2.2.2.1
    rw [NArena_counts]
    omega
  have hr2init := R2_init sc st1.groupNodes (gTrace (gInit sc) blocks) hgwfF
    hGlen hG st1.regionCount st1.messageCount hN
  obtain ⟨st2, heq2, hgwf2, hr22⟩ := processLog2_sim checked fmts order sc hsc
    (encodeLog order blocks) st1.groupNodes (gTrace (gInit sc) blocks) hgwfF
    hGlen hG blocks 0 (gInit sc)
    ⟨(setupNodes sc st1.regionCount st1.messageCount st1.groupNodes).1, sc,
      (setupNodes sc st1.regionCount st1.messageCount st1.groupNodes).2,
      (List.range sc).map (· + 1)⟩
    (by simp) (by omega) hbl hgwf0 hr2init hdeps0' (GhostLe_refl _)
  refine ⟨st2, ?_, hr22, hgwfF, hbwF, by omega, by omega, by omega⟩
  unfold readLogFile
  rw [heq1]
  dsimp only
  rw [heq2]


/-- Every arena slot past the root and stream nodes is either a region
group's own node or a message cell of its parent's child slice. -/
theorem arena_classify (sc : Nat) (gsF : Ghost)
    (hfin : GhostWF sc gsF) (hbw : GhostBW sc gsF) :
    ∀ j, j < NArena sc gsF.kids → 1 + sc ≤ j →
    (∃ g, sc ≤ g ∧ g < gsF.kids.length ∧
      j = nuF sc gsF.kids gsF.parentOf gsF.ords g) ∨
    (∃ g c, g < gsF.kids.length ∧ c < (gsF.kids.getD g []).length ∧
      j = fcOf sc gsF.kids g + c ∧
      (gsF.kids.getD g []).getD c .msg = .msg) := by
  intro j hj hjge
  obtain ⟨g, hg, h1, h2⟩ := slot_coverage sc gsF.kids gsF.kids.length j
    (Nat.le_refl _) hjge hj
  have hc : j - fcOf sc gsF.kids g < (gsF.kids.getD g []).length := by omega
  cases hcell : (gsF.kids.getD g []).getD (j - fcOf sc gsF.kids g) .msg with
  | msg =>
    right
    exact ⟨g, j - fcOf sc gsF.kids g, hg, hc, by omega, hcell⟩
  | reg g2 =>
    left
    obtain ⟨b1, b2, b3, b4⟩ := hbw g (j - fcOf sc gsF.kids g) g2 hg hc hcell
    refine ⟨g2, b1, b2, ?_⟩
    unfold nuF
    rw [if_neg (by omega), b3, b4]
    omega

/-- **C1.** For every well-formed log (balanced region markers per
stream, registered message keys, block sizes matching their contents and
the file ending at the last block), `Analyzer::readLogFile` succeeds in
both modes and the resulting arena satisfies: exactly
`1 + streamCount + regionCount + messageCount` nodes; node `0` is the
unique `Log` node, with `childCount = streamCount` and
`firstChild = 1`; nodes `1..streamCount` are the `Stream` nodes with
parent `0`; every node is initialized exactly once; and every node with
children points at a contiguous in-bounds child slice whose members name
it as parent, these slices being pairwise disjoint across parents. -/
theorem readLogFile_arena (checked : Bool) (sc : Nat) (fmts : List (Nat × Nat))
    (order : Bool) (blocks : List Block)
    (hwf : WfLog sc fmts order blocks) :
    ∃ nodes : List NodeV,
      readLogFile checked sc fmts order (encodeLog order blocks) = .ok nodes ∧
      nodes.length = 1 + sc + regionCountOf blocks + messageCountOf blocks ∧
      (∀ j, j < nodes.length → ((nodes.getD j default).type = .log ↔ j = 0)) ∧
      (nodes.getD 0 default).childCount = sc ∧
      (nodes.getD 0 default).firstChild = some 1 ∧
      (∀ s, s < sc → (nodes.getD (1 + s) default).type = .stream ∧
        (nodes.getD (1 + s) default).parent = some 0) ∧
      (∀ j, j < nodes.length → (nodes.getD j default).initCount = 1) ∧
      (∀ j, j < nodes.length → 0 < (nodes.getD j default).childCount →
        ∃ f, (nodes.getD j default).firstChild = some f ∧
          f + (nodes.getD j default).childCount ≤ nodes.length ∧
          (∀ c, c < (nodes.getD j default).childCount →
            (nodes.getD (f + c) default).parent = some j)) ∧
      (∀ j1 j2 f1 f2, j1 < nodes.length → j2 < nodes.length → j1 ≠ j2 →
        (nodes.getD j1 default).firstChild = some f1 →
        (nodes.getD j2 default).firstChild = some f2 →
        0 < (nodes.getD j1 default).childCount →
        0 < (nodes.getD j2 default).childCount →
        f1 + (nodes.getD j1 default).childCount ≤ f2 ∨
        f2 + (nodes.getD j2 default).childCount ≤ f1) := by
  obtain ⟨st2, heq, hr2, hfin, hbw, hkl, hmt, hrt⟩ :=
    readLogFile_ok checked sc fmts order blocks hwf
  obtain ⟨n1, n2, n3, n4, n5, n6, n7, n8, n9⟩ := hr2
  have hscl : sc ≤ (gTrace (gInit sc) blocks).kids.length := hfin.2.2.2.1
  have hNsc : 1 + sc ≤ NArena sc (gTrace (gInit sc) blocks).kids := by
    show 1 + sc ≤ fcOf sc (gTrace (gInit sc) blocks).kids _
    exact fcOf_ge _ _ _
  have hnus : ∀ g, g < sc →
      nuF sc (gTrace (gInit sc) blocks).kids (gTrace (gInit sc) blocks).parentOf
        (gTrace (gInit sc) blocks).ords g = 1 + g := by
    intro g hg
    unfold nuF
    rw [if_pos hg]
  -- the parent of every child cell is its group's own node
  have hcp : ∀ g c, g < (gTrace (gInit sc) blocks).kids.length →
      c < ((gTrace (gInit sc) blocks).kids.getD g []).length →
      (st2.nodes.getD (fcOf sc (gTrace (gInit sc) blocks).kids g + c)
        default).parent
      = some (nuF sc (gTrace (gInit sc) blocks).kids
          (gTrace (gInit sc) blocks).parentOf (gTrace (gInit sc) blocks).ords g) := by
    intro g c hg hc
    cases hcell : ((gTrace (gInit sc) blocks).kids.getD g []).getD c .msg with
    | msg =>
      obtain ⟨ft, idx, dt, hft⟩ := n8 g c hg hc hcell
      rw [hft]
    | reg g2 =>
      obtain ⟨b1, b2, b3, b4⟩ := hbw g c g2 hg hc hcell
      have hnug2 : nuF sc (gTrace (gInit sc) blocks).kids
          (gTrace (gInit sc) blocks).parentOf (gTrace (gInit sc) blocks).ords g2
          = fcOf sc (gTrace (gInit sc) blocks).kids g + c := by
        unfold nuF
        rw [if_neg (by omega), b3, b4]
      obtain ⟨ft, hft⟩ := n7 g2 b2
      rw [← hnug2, hft]
      dsimp only
      rw [if_neg (by omega), b3]
  refine ⟨st2.nodes, heq, ?_, ?_, ?_, ?_, ?_, ?_, ?_, ?_⟩
  · rw [n1, NArena_counts]
    omega
  · intro j hj
    constructor
    · intro htype
      by_contra hj0
      rcases Nat.lt_or_ge j (1 + sc) with hlo | hhi
      · have hjs : j = 1 + (j - 1) := by omega
        obtain ⟨ft, hft⟩ := n7 (j - 1) (by omega)
        rw [hnus (j - 1) (by omega), ← hjs] at hft
        rw [hft] at htype
        dsimp only at htype
        rw [if_pos (by omega)] at htype
        exact NodeType.noConfusion htype
      · rw [n1] at hj
        rcases arena_classify sc (gTrace (gInit sc) blocks) hfin hbw j hj hhi with
          ⟨g, hge, hg, hjg⟩ | ⟨g, c, hg, hc, hjc, hcell⟩
        · obtain ⟨ft, hft⟩ := n7 g hg
          rw [hjg, hft] at htype
          dsimp only at htype
          rw [if_neg (by omega)] at htype
          exact NodeType.noConfusion htype
        · obtain ⟨ft, idx, dt, hft⟩ := n8 g c hg hc hcell
          rw [hjc, hft] at htype
          dsimp only at htype
          exact NodeType.noConfusion htype
    · intro hj0
      subst hj0
      rw [n6]
  · rw [n6]
  · rw [n6]
  · intro s hs
    obtain ⟨ft, hft⟩ := n7 s (by omega)
    rw [hnus s hs] at hft
    rw [hft, if_pos hs, if_pos hs]
    exact ⟨rfl, rfl⟩
  · intro j hj
    rcases Nat.lt_or_ge j (1 + sc) with hlo | hhi
    · rcases Nat.eq_zero_or_pos j with hj0 | hjp
      · subst hj0
        rw [n6]
      · have hjs : j = 1 + (j - 1) := by omega
        obtain ⟨ft, hft⟩ := n7 (j - 1) (by omega)
        rw [hnus (j - 1) (by omega), ← hjs] at hft
        rw [hft]
    · rw [n1] at hj
      rcases arena_classify sc (gTrace (gInit sc) blocks) hfin hbw j hj hhi with
        ⟨g, hge, hg, hjg⟩ | ⟨g, c, hg, hc, hjc, hcell⟩
      · obtain ⟨ft, hft⟩ := n7 g hg
        rw [hjg, hft]
      · obtain ⟨ft, idx, dt, hft⟩ := n8 g c hg hc hcell
        rw [hjc, hft]
  · intro j hj hcc
    rcases Nat.lt_or_ge j (1 + sc) with hlo | hhi
    · rcases Nat.eq_zero_or_pos j with hj0 | hjp
      · subst hj0
        rw [n6] at hcc ⊢
        dsimp only at hcc ⊢
        refine ⟨1, rfl, ?_, ?_⟩
        · rw [n1]
          exact hNsc
        · intro c hc
          obtain ⟨ft, hft⟩ := n7 c (by omega)
          rw [hnus c (by omega)] at hft
          rw [hft]
          dsimp only
          rw [if_pos (by omega)]
      · have hjs : j = 1 + (j - 1) := by omega
        obtain ⟨ft, hft⟩ := n7 (j - 1) (by omega)
        rw [hnus (j - 1) (by omega), ← hjs] at hft
        rw [hft] at hcc ⊢
        dsimp only at hcc ⊢
        refine ⟨fcOf sc (gTrace (gInit sc) blocks).kids (j - 1),
          by rw [if_pos (by omega)], ?_, ?_⟩
        · rw [n1]
          have hle1 := fcOf_succ sc (gTrace (gInit sc) blocks).kids (j - 1)
            (by omega)
          have hle2 := fcOf_mono_le sc (gTrace (gInit sc) blocks).kids
            (show j - 1 + 1 ≤ (gTrace (gInit sc) blocks).kids.length from by omega)
          unfold NArena
          omega
        · intro c hc
          rw [hcp (j - 1) c (by omega) hc, hnus (j - 1) (by omega), ← hjs]
    · rw [n1] at hj
      rcases arena_classify sc (gTrace (gInit sc) blocks) hfin hbw j hj hhi with
        ⟨g, hge, hg, hjg⟩ | ⟨g, c, hg, hc, hjc, hcell⟩
      · obtain ⟨ft, hft⟩ := n7 g hg
        rw [← hjg] at hft
        rw [hft] at hcc ⊢
        dsimp only at hcc ⊢
        refine ⟨fcOf sc (gTrace (gInit sc) blocks).kids g,
          by rw [if_pos (by omega)], ?_, ?_⟩
        · rw [n1]
          have hle1 := fcOf_succ sc (gTrace (gInit sc) blocks).kids g hg
          have hle2 := fcOf_mono_le sc (gTrace (gInit sc) blocks).kids
            (show g + 1 ≤ (gTrace (gInit sc) blocks).kids.length from by omega)
          unfold NArena
          omega
        · intro c hc
          rw [hcp g c hg hc, hjg]
      · obtain ⟨ft, idx, dt, hft⟩ := n8 g c hg hc hcell
        rw [hjc, hft] at hcc
        dsimp only at hcc
        omega
  · intro j1 j2 f1 f2 hj1 hj2 hne hf1 hf2 hc1 hc2
    -- identify each parent as the root or a group
    have hid : ∀ j f, j < st2.nodes.length →
        (st2.nodes.getD j default).firstChild = some f →
        0 < (st2.nodes.getD j default).childCount →
        (j = 0 ∧ f = 1 ∧ (st2.nodes.getD j default).childCount = sc) ∨
        (∃ g, g < (gTrace (gInit sc) blocks).kids.length ∧
          j = nuF sc (gTrace (gInit sc) blocks).kids
            (gTrace (gInit sc) blocks).parentOf (gTrace (gInit sc) blocks).ords g ∧
          f = fcOf sc (gTrace (gInit sc) blocks).kids g ∧
          (st2.nodes.getD j default).childCount
            = ((gTrace (gInit sc) blocks).kids.getD g []).length) := by
      intro j f hj hf hcc
      rcases Nat.lt_or_ge j (1 + sc) with hlo | hhi
      · rcases Nat.eq_zero_or_pos j with hj0 | hjp
        · subst hj0
          rw [n6] at hf hcc ⊢
          dsimp only at hf hcc ⊢
          left
          simp only [Option.some.injEq] at hf
          exact ⟨rfl, hf.symm, rfl⟩
        · right
          have hjs : j = 1 + (j - 1) := by omega
          obtain ⟨ft, hft⟩ := n7 (j - 1) (by omega)
          rw [hnus (j - 1) (by omega), ← hjs] at hft
          rw [hft] at hf hcc ⊢
          dsimp only at hf hcc ⊢
          refine ⟨j - 1, by omega, by rw [hnus (j - 1) (by omega)]; omega, ?_, rfl⟩
          by_cases hz : ((gTrace (gInit sc) blocks).kids.getD (j - 1) []).length ≠ 0
          · rw [if_pos hz] at hf
            simp only [Option.some.injEq] at hf
            omega
          · omega
      · rw [n1] at hj
        rcases arena_classify sc (gTrace (gInit sc) blocks) hfin hbw j hj hhi with
          ⟨g, hge, hg, hjg⟩ | ⟨g, c, hg, hc, hjc, hcell⟩
        · right
          obtain ⟨ft, hft⟩ := n7 g hg
          rw [← hjg] at hft
          rw [hft] at hf hcc ⊢
          dsimp only at hf hcc ⊢
          refine ⟨g, hg, hjg, ?_, rfl⟩
          by_cases hz : ((gTrace (gInit sc) blocks).kids.getD g []).length ≠ 0
          · rw [if_pos hz] at hf
            simp only [Option.some.injEq] at hf
            omega
          · omega
        · obtain ⟨ft, idx, dt, hft⟩ := n8 g c hg hc hcell
          rw [hjc, hft] at hcc
          dsimp only at hcc
          omega
    rcases hid j1 f1 hj1 hf1 hc1 with ⟨hr1, hrf1, hrc1⟩ | ⟨g1, hg1, hj1g, hf1g, hc1g⟩
    · rcases hid j2 f2 hj2 hf2 hc2 with ⟨hr2', hrf2, hrc2⟩ | ⟨g2, hg2, hj2g, hf2g, hc2g⟩
      · exact absurd (hr1.trans hr2'.symm) hne
      · left
        rw [hrf1, hrc1, hf2g]
        have := fcOf_ge sc (gTrace (gInit sc) blocks).kids g2
        omega
    · rcases hid j2 f2 hj2 hf2 hc2 with ⟨hr2', hrf2, hrc2⟩ | ⟨g2, hg2, hj2g, hf2g, hc2g⟩
      · right
        rw [hrf2, hrc2, hf1g]
        have := fcOf_ge sc (gTrace (gInit sc) blocks).kids g1
        omega
      · have hgne : g1 ≠ g2 := by
          intro hgg
          exact hne (by rw [hj1g, hj2g, hgg])
        rcases Nat.lt_or_ge g1 g2 with hlt | hge'
        · left
          rw [hf1g, hf2g, hc1g]
          have hle1 := fcOf_succ sc (gTrace (gInit sc) blocks).kids g1 hg1
          have hle2 := fcOf_mono_le sc (gTrace (gInit sc) blocks).kids
            (show g1 + 1 ≤ g2 from by omega)
          omega
        · right
          rw [hf1g, hf2g, hc2g]
          have hle1 := fcOf_succ sc (gTrace (gInit sc) blocks).kids g2 hg2
          have hle2 := fcOf_mono_le sc (gTrace (gInit sc) blocks).kids
            (show g2 + 1 ≤ g1 from by omega)
          omega

/-! ### Claims C1, C6, C10: the two-pass reader -/

theorem processBlock1_stop (checked : Bool) (fmts : List (Nat × Nat)) (order : Bool)
    (data : List Nat) (blockEnd s pos : Nat) (st : P1State) (p : Nat)
    (h1 : ¬ pos < blockEnd) (h2 : ¬(checked = true ∧ pos ≠ blockEnd)) :
    processBlock1 checked fmts order data blockEnd s pos st p = .ok (pos, st) := by
  unfold processBlock1
  rw [dif_neg h1, if_neg h2]

theorem processBlock1_assert (checked : Bool) (fmts : List (Nat × Nat)) (order : Bool)
    (data : List Nat) (blockEnd s pos : Nat) (st : P1State) (p : Nat)
    (h1 : ¬ pos < blockEnd) (h2 : checked = true ∧ pos ≠ blockEnd) :
    processBlock1 checked fmts order data blockEnd s pos st p
      = .error .blockCursor := by
  unfold processBlock1
  rw [dif_neg h1, if_pos h2]

theorem processBlock2_stop (checked : Bool) (fmts : List (Nat × Nat)) (order : Bool)
    (data : List Nat) (G : List GroupNode) (blockEnd s pos : Nat) (st : P2State)
    (p : Nat) (h1 : ¬ pos < blockEnd) (h2 : ¬(checked = true ∧ pos ≠ blockEnd)) :
    processBlock2 checked fmts order data G blockEnd s pos st p = .ok (pos, st) := by
  unfold processBlock2
  rw [dif_neg h1, if_neg h2]

set_option maxHeartbeats 1000000 in
theorem processLog1_err (checked : Bool) (fmts : List (Nat × Nat)) (order : Bool)
    (data : List Nat) (pos sI bSz : Nat) (st : P1State) (e : PErr)
    (hlt : pos < data.length)
    (hsr : readAt 8 data pos = some sI)
    (hbr : readAt 8 data (pos + 8) = some bSz)
    (hg : sI < st.activeParentNode.length)
    (hblk : processBlock1 checked fmts order data (pos + 16 + bSz) sI (pos + 16) st
      (st.activeParentNode.getD sI 0) = .error e) :
    processLog1 checked fmts order data pos st = .error e := by
  conv_lhs => rw [processLog1]
  rw [dif_pos hlt, hsr, hbr]
  dsimp only
  rw [if_pos hg]
  split
  · next e2 heq2 =>
    rw [heq2] at hblk
    injection hblk with h
    rw [h]
  · next a b heq2 =>
    rw [heq2] at hblk
    exact absurd hblk (by simp)

/-- A small well-formed log: one stream, one anonymous region holding one
empty message of the registered key `7`. -/
theorem wfLog_example :
    WfLog 1 [(7, 0)] false
      [⟨0, [Msg.anonStart, Msg.message 7 0 [], Msg.regionEnd]⟩] := by
  refine ⟨by decide, ?_, ?_⟩
  · intro b hb
    rw [List.mem_singleton] at hb
    subst hb
    refine ⟨by decide, by decide, ?_⟩
    intro m hm
    have hm2 : m ∈ [Msg.anonStart, Msg.message 7 0 [], Msg.regionEnd] := hm
    simp only [List.mem_cons, List.not_mem_nil, or_false] at hm2
    rcases hm2 with h1 | h1 | h1 <;> subst h1
    · exact True.intro
    · exact ⟨by decide, by decide, rfl, by decide⟩
    · exact True.intro
  · intro s hs
    have hs0 : s = 0 := by omega
    subst hs0
    exact ⟨Nat.one_pos, True.intro⟩

/-- **C6** (corrected). There is no `MalformedLog` error in the code at
all: the block-cursor and file-cursor boundary checks and the
named-region key check are `assert`s, active only in checked (debug)
builds, and an unknown message key is an unchecked invalid dereference in
both builds.  On a well-formed log the read succeeds with no error of any
kind, in either build mode. -/
theorem readLogFile_no_error (checked : Bool) (sc : Nat) (fmts : List (Nat × Nat))
    (order : Bool) (blocks : List Block) (hwf : WfLog sc fmts order blocks) :
    ∃ nodes, readLogFile checked sc fmts order (encodeLog order blocks)
      = .ok nodes := by
  obtain ⟨st2, heq, -⟩ := readLogFile_ok checked sc fmts order blocks hwf
  exact ⟨st2.nodes, heq⟩

theorem readLogFile_no_error_witness :
    WfLog 1 [(7, 0)] false
      [⟨0, [Msg.anonStart, Msg.message 7 0 [], Msg.regionEnd]⟩] ∧
    ∃ nodes, readLogFile false 1 [(7, 0)] false
        (encodeLog false [⟨0, [Msg.anonStart, Msg.message 7 0 [], Msg.regionEnd]⟩])
      = .ok nodes :=
  ⟨wfLog_example, readLogFile_no_error false 1 [(7, 0)] false _ wfLog_example⟩

/-- A log whose single block overruns its declared size field: the
checked (debug) build fails the block-cursor assertion, while the release
build reads the same bytes to completion with no error — the boundary
checks do not surface as errors to release callers. -/
theorem readLogFile_malformed_counterexample :
    readLogFile true 1 [(7, 0)] false
        (leBytes 8 0 ++ leBytes 8 2 ++ leBytes 4 7) = .error .blockCursor ∧
    ∃ nodes, readLogFile false 1 [(7, 0)] false
        (leBytes 8 0 ++ leBytes 8 2 ++ leBytes 4 7) = .ok nodes := by
  constructor
  · have hblk : processBlock1 true [(7, 0)] false
        (leBytes 8 0 ++ leBytes 8 2 ++ leBytes 4 7) (0 + 16 + 2) 0 (0 + 16)
        ⟨(List.range 1).map (fun i => ⟨0, i, 0, 0, 0⟩), 0, 0, List.range 1⟩
        ((⟨(List.range 1).map (fun i => ⟨0, i, 0, 0, 0⟩), 0, 0,
          List.range 1⟩ : P1State).activeParentNode.getD 0 0)
        = .error .blockCursor :=
      (processBlock1_step_msg true [(7, 0)] false
        (leBytes 8 0 ++ leBytes 8 2 ++ leBytes 4 7) (0 + 16 + 2) 0 (0 + 16) 7 0
        _ _ (by decide) (by decide) (by decide) (by decide)).trans
      (processBlock1_assert _ _ _ _ _ _ _ _ _ (by decide) (by decide))
    have hlog := processLog1_err true [(7, 0)] false
      (leBytes 8 0 ++ leBytes 8 2 ++ leBytes 4 7) 0 0 2
      ⟨(List.range 1).map (fun i => ⟨0, i, 0, 0, 0⟩), 0, 0, List.range 1⟩
      .blockCursor (by decide) (by decide) (by decide) (by decide) hblk
    unfold readLogFile
    rw [hlog]
  · have hblk1 := (processBlock1_step_msg false [(7, 0)] false
        (leBytes 8 0 ++ leBytes 8 2 ++ leBytes 4 7) (0 + 16 + 2) 0 (0 + 16) 7 0
        ⟨(List.range 1).map (fun i => ⟨0, i, 0, 0, 0⟩), 0, 0, List.range 1⟩
        ((⟨(List.range 1).map (fun i => ⟨0, i, 0, 0, 0⟩), 0, 0,
          List.range 1⟩ : P1State).activeParentNode.getD 0 0)
        (by decide) (by decide) (by decide) (by decide)).trans
      (processBlock1_stop _ _ _ _ _ _ _ _ _ (by decide) (by decide))
    have hlog1raw := (processLog1_step false [(7, 0)] false
        (leBytes 8 0 ++ leBytes 8 2 ++ leBytes 4 7) 0 0 2 _
        ⟨(List.range 1).map (fun i => ⟨0, i, 0, 0, 0⟩), 0, 0, List.range 1⟩ _
        (by decide) (by decide) (by decide) (by decide) hblk1).trans
      (processLog1_done false [(7, 0)] false
        (leBytes 8 0 ++ leBytes 8 2 ++ leBytes 4 7) _ _ (by decide))
    have hlog1 : processLog1 false [(7, 0)] false
        (leBytes 8 0 ++ leBytes 8 2 ++ leBytes 4 7) 0
        ⟨(List.range 1).map (fun i => ⟨0, i, 0, 0, 0⟩), 0, 0, List.range 1⟩
        = .ok (⟨[⟨0, 0, 0, 0, 1⟩], 1, 0, [0]⟩ : P1State) :=
      hlog1raw.trans (congrArg Except.ok (by decide))
    have hblk2 := (processBlock2_step_msgF false [(7, 0)] false
        (leBytes 8 0 ++ leBytes 8 2 ++ leBytes 4 7) [⟨0, 0, 0, 0, 1⟩] (0 + 16 + 2)
        0 (0 + 16) 7 0 2
        ⟨(setupNodes 1 0 1 [⟨0, 0, 0, 0, 1⟩]).1, 1,
          (setupNodes 1 0 1 [⟨0, 0, 0, 0, 1⟩]).2, (List.range 1).map (· + 1)⟩
        ((⟨(setupNodes 1 0 1 [⟨0, 0, 0, 0, 1⟩]).1, 1,
            (setupNodes 1 0 1 [⟨0, 0, 0, 0, 1⟩]).2,
            (List.range 1).map (· + 1)⟩ : P2State).activeParentNode.getD 0 0)
        rfl (by decide) (by decide) (by decide) (by decide) (by decide)
        (by decide)).trans
      (processBlock2_stop _ _ _ _ _ _ _ _ _ _ (by decide) (by decide))
    have hlog2 := (processLog2_step false [(7, 0)] false
        (leBytes 8 0 ++ leBytes 8 2 ++ leBytes 4 7) [⟨0, 0, 0, 0, 1⟩] 0 0 2 _
        ⟨(setupNodes 1 0 1 [⟨0, 0, 0, 0, 1⟩]).1, 1,
          (setupNodes 1 0 1 [⟨0, 0, 0, 0, 1⟩]).2, (List.range 1).map (· + 1)⟩ _
        (by decide) (by decide) (by decide) (by decide) hblk2).trans
      (processLog2_done false [(7, 0)] false
        (leBytes 8 0 ++ leBytes 8 2 ++ leBytes 4 7) [⟨0, 0, 0, 0, 1⟩] _ _
        (by decide))
    exact ⟨_, by
      unfold readLogFile
      rw [hlog1]
      dsimp only
      rw [hlog2]⟩

theorem readLogFile_arena_witness :
    WfLog 1 [(7, 0)] false
      [⟨0, [Msg.anonStart, Msg.message 7 0 [], Msg.regionEnd]⟩] ∧
    ∃ nodes : List NodeV,
      readLogFile true 1 [(7, 0)] false
          (encodeLog false [⟨0, [Msg.anonStart, Msg.message 7 0 [], Msg.regionEnd]⟩])
        = .ok nodes ∧
      nodes.length = 1 + 1
        + regionCountOf [⟨0, [Msg.anonStart, Msg.message 7 0 [], Msg.regionEnd]⟩]
        + messageCountOf [⟨0, [Msg.anonStart, Msg.message 7 0 [], Msg.regionEnd]⟩] :=
  ⟨wfLog_example,
    Exists.imp (fun nodes hh => ⟨hh.1, hh.2.1⟩)
      (readLogFile_arena true 1 [(7, 0)] false _ wfLog_example)⟩

/-- **C10.** `getStreamCount` unconditionally reads
`nodes[0].childCount`: after a successful `readLogFile` it returns
exactly the sidecar's stream count, while on the empty arena of a freshly
constructed analyzer the access is out of bounds (modelled `none`). -/
theorem getStreamCount_spec (checked : Bool) (sc : Nat) (fmts : List (Nat × Nat))
    (order : Bool) (blocks : List Block) (hwf : WfLog sc fmts order blocks) :
    (∀ nodes,
      readLogFile checked sc fmts order (encodeLog order blocks) = .ok nodes →
      getStreamCount nodes = some sc) ∧
    getStreamCount [] = none := by
  obtain ⟨st2, heq, hr2, -⟩ := readLogFile_ok checked sc fmts order blocks hwf
  refine ⟨?_, rfl⟩
  intro nodes hnodes
  rw [heq] at hnodes
  injection hnodes with h
  subst h
  unfold getStreamCount
  rw [if_pos (by
    rw [hr2.1]
    have h2 := fcOf_ge sc (gTrace (gInit sc) blocks).kids
      (gTrace (gInit sc) blocks).kids.length
    show 0 < fcOf sc (gTrace (gInit sc) blocks).kids
      (gTrace (gInit sc) blocks).kids.length
    omega)]
  rw [hr2.2.2.2.2.2.1]

theorem getStreamCount_spec_witness :
    WfLog 1 [(7, 0)] false
      [⟨0, [Msg.anonStart, Msg.message 7 0 [], Msg.regionEnd]⟩] ∧
    ((∀ nodes,
      readLogFile false 1 [(7, 0)] false
          (encodeLog false [⟨0, [Msg.anonStart, Msg.message 7 0 [], Msg.regionEnd]⟩])
        = .ok nodes →
      getStreamCount nodes = some 1) ∧
    getStreamCount [] = none) :=
  ⟨wfLog_example, getStreamCount_spec false 1 [(7, 0)] false _ wfLog_example⟩


end LogLoad
